import Mathlib

/-!
Verification of the `mox` model engine (`src/Model.ts`).

The development shallowly embeds the TypeScript `Model` base class: JavaScript
values are the inductive type `Mox.Val` (model instances carry an allocation
identifier so that object identity — and hence aliasing — is observable),
class-level decorator metadata is a `Mox.ClassDef`, and the import pipeline
(`fromJson` / `applyJson`), which may recurse through user-supplied transform
functions, is given fuel and returns `none` only when the fuel runs out.
`JSON.stringify`-based comparison is modelled by `stringifyV`, which maps a
value to the (injective) abstract syntax of its serialized form, `undefined`
mapping to `none` exactly as `JSON.stringify` yields `undefined`.
-/

namespace Mox

/-! ### Key conversion (`toCamelCaseKey` / `toSnakeCaseKey`) -/

/-- Embedding of `key.replace(/_([a-z])/g, (_, c) => c.toUpperCase())`:
left-to-right scan replacing each underscore-plus-lowercase pair. -/
def toCamelCaseKeyL : List Char → List Char
  | [] => []
  | [c] => [c]
  | a :: b :: rest =>
    if a == '_' && b.isLower then b.toUpper :: toCamelCaseKeyL rest
    else a :: toCamelCaseKeyL (b :: rest)

/-- Embedding of `key.replace(/[A-Z]/g, c => '_' + c.toLowerCase())`. -/
def toSnakeCaseKeyL : List Char → List Char
  | [] => []
  | c :: rest =>
    if c.isUpper then '_' :: c.toLower :: toSnakeCaseKeyL rest
    else c :: toSnakeCaseKeyL rest

def toCamelCaseKey (s : String) : String := String.mk (toCamelCaseKeyL s.data)

def toSnakeCaseKey (s : String) : String := String.mk (toSnakeCaseKeyL s.data)

/-! ### ASCII character facts used by the key-conversion proofs -/

theorem isLower_bounds {c : Char} (h : c.isLower = true) :
    97 ≤ c.toNat ∧ c.toNat ≤ 122 := by
  simp only [Char.isLower, ge_iff_le, Bool.and_eq_true, decide_eq_true_eq] at h
  exact ⟨UInt32.le_toNat_of_le (by norm_num) h.1, UInt32.toNat_le_of_le (by norm_num) h.2⟩

theorem isUpper_bounds {c : Char} (h : c.isUpper = true) :
    65 ≤ c.toNat ∧ c.toNat ≤ 90 := by
  simp only [Char.isUpper, ge_iff_le, Bool.and_eq_true, decide_eq_true_eq] at h
  exact ⟨UInt32.le_toNat_of_le (by norm_num) h.1, UInt32.toNat_le_of_le (by norm_num) h.2⟩

theorem isUpper_toUpper {c : Char} (h : c.isLower = true) : c.toUpper.isUpper = true := by
  obtain ⟨h1, h2⟩ := isLower_bounds h
  rw [(Char.ofNat_toNat c).symm]
  set n := c.toNat with hn
  interval_cases n <;> decide

theorem toLower_toUpper {c : Char} (h : c.isLower = true) : c.toUpper.toLower = c := by
  obtain ⟨h1, h2⟩ := isLower_bounds h
  rw [(Char.ofNat_toNat c).symm]
  set n := c.toNat with hn
  interval_cases n <;> decide

theorem isLower_toLower {c : Char} (h : c.isUpper = true) : c.toLower.isLower = true := by
  obtain ⟨h1, h2⟩ := isUpper_bounds h
  rw [(Char.ofNat_toNat c).symm]
  set n := c.toNat with hn
  interval_cases n <;> decide

theorem toUpper_toLower {c : Char} (h : c.isUpper = true) : c.toLower.toUpper = c := by
  obtain ⟨h1, h2⟩ := isUpper_bounds h
  rw [(Char.ofNat_toNat c).symm]
  set n := c.toNat with hn
  interval_cases n <;> decide

theorem not_isLower_of_isUpper {c : Char} (h : c.isUpper = true) : c.isLower = false := by
  obtain ⟨h1, h2⟩ := isUpper_bounds h
  rw [(Char.ofNat_toNat c).symm]
  set n := c.toNat with hn
  interval_cases n <;> decide

theorem ne_underscore_of_isUpper {c : Char} (h : c.isUpper = true) : c ≠ '_' := by
  obtain ⟨h1, h2⟩ := isUpper_bounds h
  intro hc
  rw [hc] at h2
  exact absurd h2 (by decide)

theorem ne_underscore_of_isLower {c : Char} (h : c.isLower = true) : c ≠ '_' := by
  obtain ⟨h1, h2⟩ := isLower_bounds h
  intro hc
  rw [hc] at h1
  exact absurd h1 (by decide)

theorem underscore_not_upper : '_'.isUpper = false := by decide

theorem underscore_not_lower : '_'.isLower = false := by decide

theorem not_isUpper_of_isLower {c : Char} (h : c.isLower = true) : c.isUpper = false := by
  obtain ⟨h1, h2⟩ := isLower_bounds h
  rw [(Char.ofNat_toNat c).symm]
  set n := c.toNat with hn
  interval_cases n <;> decide

/-! ### Stability of the key-conversion pair under round-trips -/

/-- Holds when no underscore is immediately followed by a lowercase letter,
which is exactly the class of keys fixed by the camel-casing scan. -/
def noUnderLower : List Char → Bool
  | [] => true
  | [_] => true
  | a :: b :: rest => !(a == '_' && b.isLower) && noUnderLower (b :: rest)

/-- Holds when the list contains no uppercase letter, which is exactly the
class of keys fixed by the snake-casing scan. -/
def noUpper (l : List Char) : Bool := l.all (fun c => !c.isUpper)

def headNotLower : List Char → Bool
  | [] => true
  | c :: _ => !c.isLower

theorem noUnderLower_cons_ne {a : Char} (ha : (a == '_') = false) (l : List Char) :
    noUnderLower (a :: l) = noUnderLower l := by
  cases l with
  | nil => rfl
  | cons b t => simp [noUnderLower, ha]

theorem noUnderLower_tail {a : Char} {l : List Char} (h : noUnderLower (a :: l) = true) :
    noUnderLower l = true := by
  cases l with
  | nil => rfl
  | cons b t => simp [noUnderLower] at h; exact h.2

theorem noUnderLower_cons_underscore {l : List Char} (hh : headNotLower l = true)
    (hl : noUnderLower l = true) : noUnderLower ('_' :: l) = true := by
  cases l with
  | nil => rfl
  | cons b t =>
    simp [headNotLower] at hh
    simp [noUnderLower, hh, hl]

theorem camel_head_not_lower {b : Char} (hb : b.isLower = false) (rest : List Char) :
    headNotLower (toCamelCaseKeyL (b :: rest)) = true := by
  cases rest with
  | nil => simp [toCamelCaseKeyL, headNotLower, hb]
  | cons c t =>
    by_cases hcond : (b == '_' && c.isLower) = true
    · have hc : c.isLower = true := by
        rcases Bool.and_eq_true_iff.mp hcond with ⟨_, h2⟩; exact h2
      simp [toCamelCaseKeyL, hcond, headNotLower,
        not_isLower_of_isUpper (isUpper_toUpper hc)]
    · rw [Bool.not_eq_true] at hcond
      simp [toCamelCaseKeyL, hcond, headNotLower, hb]

theorem noUnderLower_camel : ∀ l : List Char, noUnderLower (toCamelCaseKeyL l) = true := by
  intro l
  induction l using toCamelCaseKeyL.induct with
  | case1 => rfl
  | case2 c => rfl
  | case3 a b rest hcond ih =>
    have hb : b.isLower = true := (Bool.and_eq_true_iff.mp hcond).2
    rw [toCamelCaseKeyL, if_pos hcond]
    rw [noUnderLower_cons_ne]
    · exact ih
    · exact beq_eq_false_iff_ne.mpr (ne_underscore_of_isUpper (isUpper_toUpper hb))
  | case4 a b rest hcond ih =>
    have hcond' : (a == '_' && b.isLower) = false := by simpa using hcond
    rw [toCamelCaseKeyL, if_neg (by simp [hcond'])]
    by_cases ha : (a == '_') = true
    · have hb : b.isLower = false := by
        rcases Bool.and_eq_false_iff.mp hcond' with h | h
        · rw [ha] at h; cases h
        · exact h
      rw [beq_iff_eq.mp ha]
      exact noUnderLower_cons_underscore (camel_head_not_lower hb rest) ih
    · rw [noUnderLower_cons_ne (by simpa using ha)]
      exact ih

theorem snake_head_not_lower {l : List Char} (h : headNotLower l = true) :
    headNotLower (toSnakeCaseKeyL l) = true := by
  cases l with
  | nil => rfl
  | cons c t =>
    by_cases hc : c.isUpper = true
    · simp [toSnakeCaseKeyL, hc, headNotLower, underscore_not_lower]
    · rw [Bool.not_eq_true] at hc
      simp [toSnakeCaseKeyL, hc, headNotLower] at h ⊢
      exact h

theorem camel_snake_of_noUnderLower :
    ∀ s : List Char, noUnderLower s = true → toCamelCaseKeyL (toSnakeCaseKeyL s) = s := by
  intro s
  induction s with
  | nil => intro _; rfl
  | cons a rest ih =>
    intro h
    have hrest : noUnderLower rest = true := noUnderLower_tail h
    by_cases ha : a.isUpper = true
    · rw [toSnakeCaseKeyL, if_pos ha, toCamelCaseKeyL,
        if_pos (by simp [isLower_toLower ha]), toUpper_toLower ha, ih hrest]
    · rw [Bool.not_eq_true] at ha
      rw [toSnakeCaseKeyL, if_neg (by simp [ha])]
      have hstep : toCamelCaseKeyL (a :: toSnakeCaseKeyL rest)
          = a :: toCamelCaseKeyL (toSnakeCaseKeyL rest) := by
        cases hsr : toSnakeCaseKeyL rest with
        | nil => rfl
        | cons b t =>
          by_cases hau : (a == '_') = true
          · -- after an underscore, the original tail starts with a non-lowercase
            -- character, and snake-casing preserves that
            have hbl : b.isLower = false := by
              cases rest with
              | nil => simp [toSnakeCaseKeyL] at hsr
              | cons d rest' =>
                have hd : d.isLower = false := by
                  rw [beq_iff_eq.mp hau] at h
                  simp [noUnderLower] at h
                  exact h.1
                have hh := snake_head_not_lower (l := d :: rest') (by simp [headNotLower, hd])
                rw [hsr] at hh
                simpa [headNotLower] using hh
            rw [toCamelCaseKeyL, if_neg (by simp [hbl])]
          · rw [toCamelCaseKeyL, if_neg (by simp [hau])]
      rw [hstep, ih hrest]

/-- Each underscore-plus-lowercase occurrence in the input is consumed by the
scan, so camel-cased keys contain none. -/
theorem camel_fixed_of_noUnderLower :
    ∀ s : List Char, noUnderLower s = true → toCamelCaseKeyL s = s := by
  intro s
  induction s using toCamelCaseKeyL.induct with
  | case1 => intro _; rfl
  | case2 c => intro _; rfl
  | case3 a b rest hcond ih =>
    intro h
    rw [noUnderLower] at h
    simp [hcond] at h
  | case4 a b rest hcond ih =>
    intro h
    rw [toCamelCaseKeyL, if_neg (by simp [hcond])]
    rw [ih (noUnderLower_tail h)]

theorem noUpper_tail {a : Char} {l : List Char} (h : noUpper (a :: l) = true) :
    noUpper l = true := by
  simp [noUpper] at h ⊢
  exact h.2

theorem noUpper_snake : ∀ l : List Char, noUpper (toSnakeCaseKeyL l) = true := by
  intro l
  induction l with
  | nil => rfl
  | cons c rest ih =>
    by_cases hc : c.isUpper = true
    · rw [toSnakeCaseKeyL, if_pos hc]
      simp [noUpper, underscore_not_upper,
        not_isUpper_of_isLower (isLower_toLower hc)] at ih ⊢
      exact ih
    · rw [Bool.not_eq_true] at hc
      rw [toSnakeCaseKeyL, if_neg (by simp [hc])]
      simp [noUpper, hc] at ih ⊢
      exact ih

theorem snake_camel_of_noUpper :
    ∀ s : List Char, noUpper s = true → toSnakeCaseKeyL (toCamelCaseKeyL s) = s := by
  intro s
  induction s using toCamelCaseKeyL.induct with
  | case1 => intro _; rfl
  | case2 c =>
    intro h
    simp [noUpper] at h
    simp [toCamelCaseKeyL, toSnakeCaseKeyL, h]
  | case3 a b rest hcond ih =>
    intro h
    obtain ⟨ha, hb⟩ := Bool.and_eq_true_iff.mp hcond
    rw [toCamelCaseKeyL, if_pos hcond, toSnakeCaseKeyL,
      if_pos (isUpper_toUpper hb), toLower_toUpper hb,
      ih (noUpper_tail (noUpper_tail h)), beq_iff_eq.mp ha]
  | case4 a b rest hcond ih =>
    intro h
    have ha : a.isUpper = false := by
      simp [noUpper] at h
      exact h.1
    rw [toCamelCaseKeyL, if_neg (by simp [hcond]), toSnakeCaseKeyL,
      if_neg (by simp [ha]), ih (noUpper_tail h)]

/-- Repeated round-trips through the key-conversion pair are stable: converting
a key to internal form, to external form, and to internal form again gives the
first internal form, for arbitrary keys. -/
theorem camel_snake_camel (l : List Char) :
    toCamelCaseKeyL (toSnakeCaseKeyL (toCamelCaseKeyL l)) = toCamelCaseKeyL l :=
  camel_snake_of_noUnderLower _ (noUnderLower_camel l)

/-- Dual stability: external, internal, external is the same as external. -/
theorem snake_camel_snake (l : List Char) :
    toSnakeCaseKeyL (toCamelCaseKeyL (toSnakeCaseKeyL l)) = toSnakeCaseKeyL l :=
  snake_camel_of_noUpper _ (noUpper_snake l)

/-! ### JavaScript values

A `Val` is a JavaScript value as far as the model engine can observe it:
`undef` is `undefined`, `vobj` is a plain object (an ordered list of own
enumerable properties), and `vmodel` is a `Model` instance carrying its class
name, its own enumerable properties, and an allocation identifier that stands
for the object's heap identity (two `vmodel`s with the same identifier are the
same object, so mutating one mutates the other). -/

inductive Val : Type where
  | undef : Val
  | vnull : Val
  | vbool : Bool → Val
  | vnum : Int → Val
  | vstr : String → Val
  | varr : List Val → Val
  | vobj : List (String × Val) → Val
  | vmodel : Nat → String → List (String × Val) → Val

/-- Abstract syntax of a `JSON.stringify` result. Since serialization is
injective on this syntax, string comparison of two stringify results is
equality of `JVal`s. -/
inductive JVal : Type where
  | jnull : JVal
  | jbool : Bool → JVal
  | jnum : Int → JVal
  | jstr : String → JVal
  | jarr : List JVal → JVal
  | jobj : List (String × JVal) → JVal

mutual
def jeqV : JVal → JVal → Bool
  | .jnull, .jnull => true
  | .jbool a, .jbool b => a == b
  | .jnum a, .jnum b => a == b
  | .jstr a, .jstr b => a == b
  | .jarr a, .jarr b => jeqA a b
  | .jobj a, .jobj b => jeqF a b
  | _, _ => false

def jeqA : List JVal → List JVal → Bool
  | [], [] => true
  | a :: as', b :: bs' => jeqV a b && jeqA as' bs'
  | _, _ => false

def jeqF : List (String × JVal) → List (String × JVal) → Bool
  | [], [] => true
  | (k, a) :: as', (k', b) :: bs' => k == k' && jeqV a b && jeqF as' bs'
  | _, _ => false
end

mutual
theorem jeqV_refl : ∀ j, jeqV j j = true
  | .jnull => rfl
  | .jbool b => by simp [jeqV]
  | .jnum n => by simp [jeqV]
  | .jstr s => by simp [jeqV]
  | .jarr l => by simp [jeqV, jeqA_refl l]
  | .jobj fs => by simp [jeqV, jeqF_refl fs]

theorem jeqA_refl : ∀ l, jeqA l l = true
  | [] => rfl
  | v :: t => by simp [jeqA, jeqV_refl v, jeqA_refl t]

theorem jeqF_refl : ∀ l, jeqF l l = true
  | [] => rfl
  | (k, v) :: t => by simp [jeqF, jeqV_refl v, jeqF_refl t]
end

mutual
/-- Model of `JSON.stringify`: `undefined` (and only it, on this value domain)
serializes to no string at all; inside arrays it becomes `null`; properties
holding it are dropped. A `Model` instance serializes as the plain object of
its own enumerable properties — its class and identity are not observable. -/
def stringifyV : Val → Option JVal
  | .undef => none
  | .vnull => some .jnull
  | .vbool b => some (.jbool b)
  | .vnum n => some (.jnum n)
  | .vstr s => some (.jstr s)
  | .varr l => some (.jarr (stringifyA l))
  | .vobj fs => some (.jobj (stringifyF fs))
  | .vmodel _ _ fs => some (.jobj (stringifyF fs))

def stringifyA : List Val → List JVal
  | [] => []
  | v :: t => ((stringifyV v).getD .jnull) :: stringifyA t

def stringifyF : List (String × Val) → List (String × JVal)
  | [] => []
  | (k, v) :: t =>
    match stringifyV v with
    | some j => (k, j) :: stringifyF t
    | none => stringifyF t
end

/-- Model of `JSON.stringify(x) === JSON.stringify(y)`, where both sides may be
the non-string `undefined`. -/
def jeqOpt : Option JVal → Option JVal → Bool
  | none, none => true
  | some a, some b => jeqV a b
  | _, _ => false

theorem jeqOpt_refl (o : Option JVal) : jeqOpt o o = true := by
  cases o with
  | none => rfl
  | some j => simp [jeqOpt, jeqV_refl]

/-! ### Objects as ordered property lists -/

/-- Property lookup; `undef` for an absent property, as in JavaScript. -/
def getProp (props : List (String × Val)) (k : String) : Val :=
  match props with
  | [] => .undef
  | (k', v) :: t => if k' == k then v else getProp t k

/-- Property assignment: an existing property keeps its position and gets the
new value, a new property is appended — JavaScript object insertion order. -/
def setProp (props : List (String × Val)) (k : String) (v : Val) :
    List (String × Val) :=
  match props with
  | [] => [(k, v)]
  | (k', v') :: t => if k' == k then (k', v) :: t else (k', v') :: setProp t k v

/-- Sequential assignment of a batch of properties. -/
def assignAll (props : List (String × Val)) (ps : List (String × Val)) :
    List (String × Val) :=
  match ps with
  | [] => props
  | (k, v) :: t => assignAll (setProp props k v) t

/-- Model of `Object.fromEntries`. -/
def fromEntries (l : List (String × Val)) : List (String × Val) := assignAll [] l

/-- Generic association-list lookup for the per-class metadata maps. -/
def lookupA {α : Type} (l : List (String × α)) (k : String) : Option α :=
  match l with
  | [] => none
  | (k', v) :: t => if k' == k then some v else lookupA t k

theorem getProp_setProp_same (props : List (String × Val)) (k : String) (v : Val) :
    getProp (setProp props k v) k = v := by
  induction props with
  | nil => simp [setProp, getProp]
  | cons p t ih =>
    obtain ⟨k', v'⟩ := p
    by_cases h : (k' == k) = true
    · simp [setProp, h, getProp]
    · rw [Bool.not_eq_true] at h
      simp [setProp, h, getProp, ih]

theorem getProp_setProp_ne (props : List (String × Val)) {k k' : String} (v : Val)
    (h : k' ≠ k) : getProp (setProp props k v) k' = getProp props k' := by
  induction props with
  | nil => simp [setProp, getProp, beq_eq_false_iff_ne.mpr (fun he => h he.symm)]
  | cons p t ih =>
    obtain ⟨k'', v''⟩ := p
    by_cases h2 : (k'' == k) = true
    · have : (k'' == k') = false := by
        rw [beq_iff_eq.mp h2]
        exact beq_eq_false_iff_ne.mpr (fun he => h he.symm)
      simp [setProp, h2, getProp, this]
    · rw [Bool.not_eq_true] at h2
      by_cases h3 : (k'' == k') = true
      · simp [setProp, h2, getProp, h3]
      · rw [Bool.not_eq_true] at h3
        simp [setProp, h2, getProp, h3, ih]

/-! ### Structural key conversion of values (`Model.toCamelCase` / `toSnakeCase`) -/

mutual
/-- Embedding of the static `Model.toCamelCase`: a `Model` instance is returned
untouched, arrays are mapped, plain objects get their keys camel-cased
recursively (with `Object.fromEntries` collapsing duplicate converted keys),
everything else is returned unchanged. -/
def toCamelCaseV : Val → Val
  | .varr l => .varr (toCamelCaseA l)
  | .vobj fs => .vobj (fromEntries (toCamelCaseF fs))
  | v => v

def toCamelCaseA : List Val → List Val
  | [] => []
  | v :: t => toCamelCaseV v :: toCamelCaseA t

def toCamelCaseF : List (String × Val) → List (String × Val)
  | [] => []
  | (k, v) :: t => (toCamelCaseKey k, toCamelCaseV v) :: toCamelCaseF t
end

mutual
/-- Embedding of the static `Model.toSnakeCase`, the external-form dual. -/
def toSnakeCaseV : Val → Val
  | .varr l => .varr (toSnakeCaseA l)
  | .vobj fs => .vobj (fromEntries (toSnakeCaseF fs))
  | v => v

def toSnakeCaseA : List Val → List Val
  | [] => []
  | v :: t => toSnakeCaseV v :: toSnakeCaseA t

def toSnakeCaseF : List (String × Val) → List (String × Val)
  | [] => []
  | (k, v) :: t => (toSnakeCaseKey k, toSnakeCaseV v) :: toSnakeCaseF t
end

/-! ### Class metadata and instance helpers -/

/-- Per-class decorator metadata and field initializers: `inits` are the field
initializers run by `new this()` in declaration order, `types` is the
`@Type` map, `excl` the `@Exclude` set, `transforms` the `@Transform` map,
`ro` the `@Readonly` set, `expose` the `@Expose` group map, and `dfl` the
`@Default` map. -/
structure ClassDef where
  inits : List (String × Val)
  types : List (String × String)
  excl : List String
  transforms : List (String × (Val → Val))
  ro : List String
  expose : List (String × List String)
  dfl : List (String × Val)

def Env : Type := List (String × ClassDef)

/-- Metadata lookup for a class name; a missing class yields the empty
metadata, matching the `?? {}` / `?? new Set()` defaults. -/
def lookupClass (env : Env) (c : String) : ClassDef :=
  match env with
  | [] => ⟨[], [], [], [], [], [], []⟩
  | (c', d) :: t => if c' == c then d else lookupClass t c

/-- JavaScript truthiness of the values the engine can hold. -/
def isFalsy : Val → Bool
  | .undef => true
  | .vnull => true
  | .vbool b => !b
  | .vnum n => n == 0
  | .vstr s => s == ""
  | .varr _ => false
  | .vobj _ => false
  | .vmodel _ _ _ => false

def natKey : Nat → String := fun i => toString i

def enumEntries : Nat → List Val → List (String × Val)
  | _, [] => []
  | i, v :: t => (natKey i, v) :: enumEntries (i + 1) t

def enumChars : Nat → List Char → List (String × Val)
  | _, [] => []
  | i, c :: t => (natKey i, .vstr (String.mk [c])) :: enumChars (i + 1) t

/-- Model of `Object.entries`: own enumerable properties for objects and model
instances, index entries for arrays and strings, nothing for primitives. -/
def entriesV : Val → List (String × Val)
  | .vobj fs => fs
  | .vmodel _ _ fs => fs
  | .varr l => enumEntries 0 l
  | .vstr s => enumChars 0 s.data
  | _ => []

def propsOf : Val → List (String × Val)
  | .vobj fs => fs
  | .vmodel _ _ fs => fs
  | _ => []

def clsOf : Val → String
  | .vmodel _ c _ => c
  | _ => ""

def idOf : Val → Nat
  | .vmodel i _ _ => i
  | _ => 0

/-- Model of `value instanceof ClassType`. -/
def isInst (v : Val) (t : String) : Bool :=
  match v with
  | .vmodel _ c _ => c == t
  | _ => false

def isModelV : Val → Bool
  | .vmodel _ _ _ => true
  | _ => false

/-- Model of `Array.isArray`. -/
def isArrV : Val → Bool
  | .varr _ => true
  | _ => false

def arrOf : Val → List Val
  | .varr l => l
  | _ => []

/-- Property assignment on an instance (or plain object). -/
def setPropM (inst : Val) (k : String) (v : Val) : Val :=
  match inst with
  | .vmodel i c fs => .vmodel i c (setProp fs k v)
  | .vobj fs => .vobj (setProp fs k v)
  | v' => v'

/-- Model of `key.startsWith('_')`. -/
def startsUnderscore (k : String) : Bool :=
  match k.data with
  | '_' :: _ => true
  | _ => false

mutual
/-- Fresh-identity copy: evaluating a field initializer such as
`profile = new Profile()` in `new this()` allocates new objects, so the
initializer values recorded in a `ClassDef` are re-identified per instance. -/
def refreshV : Val → Nat → Val × Nat
  | .vmodel _ c fs, σ =>
    let r := refreshF fs (σ + 1)
    (.vmodel σ c r.1, r.2)
  | .varr l, σ =>
    let r := refreshA l σ
    (.varr r.1, r.2)
  | .vobj fs, σ =>
    let r := refreshF fs σ
    (.vobj r.1, r.2)
  | v, σ => (v, σ)

def refreshA : List Val → Nat → List Val × Nat
  | [], σ => ([], σ)
  | v :: t, σ =>
    let r := refreshV v σ
    let r2 := refreshA t r.2
    (r.1 :: r2.1, r2.2)

def refreshF : List (String × Val) → Nat → List (String × Val) × Nat
  | [], σ => ([], σ)
  | (k, v) :: t, σ =>
    let r := refreshV v σ
    let r2 := refreshF t r.2
    ((k, r.1) :: r2.1, r2.2)
end

/-! ### Export engine (`Model.toJson`) -/

/-- Export options of `toJson({group?, onlyChanged?})`. -/
structure ExportOptions where
  group : Option String
  onlyChanged : Bool

def noOptions : ExportOptions := ⟨none, false⟩

/-- The per-key value computation of `applyJson`:
`transforms[key] ? transforms[key](val) : val`. -/
def transformApply (cls : ClassDef) (k : String) (rawv : Val) : Val :=
  match lookupA cls.transforms k with
  | some f => f rawv
  | none => rawv

/-- The group test of `toJson`, faithful to
`options.group && exposed[key] && !exposed[key].includes(options.group)`:
it fires only when a non-empty group string is requested AND the field has an
`@Expose` registration (an array, truthy even when empty) not containing the
requested group. -/
def skipByGroup (opts : ExportOptions) (cls : ClassDef) (k : String) : Bool :=
  match opts.group with
  | none => false
  | some g =>
    if g == "" then false
    else
      match lookupA cls.expose k with
      | none => false
      | some gs => !(gs.contains g)

/-- The changed test of `toJson`, faithful to
`options.onlyChanged && this._originalState && JSON.stringify(...) === JSON.stringify(...)`. -/
def skipByUnchanged (opts : ExportOptions) (orig : Val) (k : String) (v : Val) : Bool :=
  opts.onlyChanged && !isFalsy orig
    && jeqOpt (stringifyV v) (stringifyV (getProp (propsOf orig) k))

mutual
/-- Embedding of `Model.toJson`: walks the instance's own enumerable
properties, skips underscore-prefixed keys, excluded fields, group-filtered
fields and (under `onlyChanged`) fields whose serialization matches the
snapshot's, then assigns under the snake-cased key either the recursive export
of a directly-model-valued field or the `toSnakeCase` conversion of anything
else. On a non-model value (where the method cannot be called) it is the
identity. -/
def toJsonV (env : Env) (opts : ExportOptions) : Val → Val
  | .vmodel _ c props =>
    .vobj (exportFold env opts (lookupClass env c) (getProp props "_originalState") props [])
  | v => v

def exportFold (env : Env) (opts : ExportOptions) (cls : ClassDef) (orig : Val) :
    List (String × Val) → List (String × Val) → List (String × Val)
  | [], acc => acc
  | (k, v) :: rest, acc =>
    if startsUnderscore k then exportFold env opts cls orig rest acc
    else if cls.excl.contains k then exportFold env opts cls orig rest acc
    else if skipByGroup opts cls k then exportFold env opts cls orig rest acc
    else if skipByUnchanged opts orig k v then exportFold env opts cls orig rest acc
    else
      exportFold env opts cls orig rest
        (setProp acc (toSnakeCaseKey k)
          (if isModelV v then toJsonV env opts v else toSnakeCaseV v))
end

/-! ### Import engine (`Model.fromJson` / `Model.applyJson`), with fuel

The import pipeline recurses through values returned by user-supplied
transform functions, so termination cannot be established structurally; the
functions take fuel and return `none` exactly when it runs out. Every
recursive call decrements the fuel, so any terminating run of the TypeScript
code is reproduced by all sufficiently large fuels. The functions also thread
an allocation counter for object identities. -/

mutual
/-- Embedding of the static `Model.fromJson(json, skipOriginalState)` for the
class named `cname`: `new this()` (field initializers, freshly allocated),
`applyDefaults`, `applyJson`, and — unless suppressed — capture of
`_originalState` as `this.clone()`, i.e. a re-import of the instance's own
export with snapshot capture suppressed. -/
def fromJsonF (env : Env) : Nat → String → Val → Bool → Nat → Option (Val × Nat)
  | 0, _, _, _, _ => none
  | fuel + 1, cname, json, skip, σ =>
    let cls := lookupClass env cname
    let ri := refreshF cls.inits (σ + 1)
    let rd := refreshF cls.dfl ri.2
    let base : Val := .vmodel σ cname (assignAll ri.1 rd.1)
    match applyJsonF env fuel base json rd.2 with
    | none => none
    | some (inst, σ3) =>
      if skip then some (inst, σ3)
      else
        match fromJsonF env fuel cname (toJsonV env noOptions inst) true σ3 with
        | none => none
        | some (orig, σ4) => some (setPropM inst "_originalState" orig, σ4)
termination_by structural fuel => fuel

/-- Embedding of `Model.applyJson`: no-op on falsy input, otherwise camel-case
the input and process its entries in order. -/
def applyJsonF (env : Env) : Nat → Val → Val → Nat → Option (Val × Nat)
  | 0, _, _, _ => none
  | fuel + 1, inst, json, σ =>
    if isFalsy json then some (inst, σ)
    else applyEntriesF env fuel (lookupClass env (clsOf inst)) inst
      (entriesV (toCamelCaseV json)) σ
termination_by structural fuel => fuel

/-- One entry at a time: skip read-only keys, apply the transform if any, then
either coerce through the `@Type` class (arrays element-wise, passing through
values that are already instances and importing the rest via `fromJson` with
snapshot capture) or assign directly. -/
def applyEntriesF (env : Env) : Nat → ClassDef → Val → List (String × Val) → Nat →
    Option (Val × Nat)
  | 0, _, _, _, _ => none
  | _ + 1, _, inst, [], σ => some (inst, σ)
  | fuel + 1, cls, inst, (k, rawv) :: rest, σ =>
    if cls.ro.contains k then applyEntriesF env fuel cls inst rest σ
    else
      match lookupA cls.types k with
      | some tname =>
        if isArrV (transformApply cls k rawv) then
          match coerceArrF env fuel tname (arrOf (transformApply cls k rawv)) σ with
          | none => none
          | some (l', σ') => applyEntriesF env fuel cls (setPropM inst k (.varr l')) rest σ'
        else
          if isInst (transformApply cls k rawv) tname then
            applyEntriesF env fuel cls (setPropM inst k (transformApply cls k rawv)) rest σ
          else
            match fromJsonF env fuel tname (transformApply cls k rawv) false σ with
            | none => none
            | some (nv, σ') => applyEntriesF env fuel cls (setPropM inst k nv) rest σ'
      | none => applyEntriesF env fuel cls (setPropM inst k (transformApply cls k rawv)) rest σ
termination_by structural fuel => fuel

/-- Element-wise coercion of an array under a `@Type` field: an element that is
already an instance of the class passes through with its identity, anything
else is imported into a fresh instance (with snapshot capture, the `fromJson`
default). -/
def coerceArrF (env : Env) : Nat → String → List Val → Nat → Option (List Val × Nat)
  | 0, _, _, _ => none
  | _ + 1, _, [], σ => some ([], σ)
  | fuel + 1, tname, v :: t, σ =>
    match (if isInst v tname then some (v, σ) else fromJsonF env fuel tname v false σ) with
    | none => none
    | some (v', σ') =>
      match coerceArrF env fuel tname t σ' with
      | none => none
      | some (t', σ'') => some (v' :: t', σ'')
termination_by structural fuel => fuel
end

/-! ### Derived operations -/

/-- Embedding of `Model.clone`: re-import of the full export into a fresh
instance of the same class, suppressing snapshot capture. -/
def cloneF (env : Env) (fuel : Nat) (a : Val) (σ : Nat) : Option (Val × Nat) :=
  fromJsonF env fuel (clsOf a) (toJsonV env noOptions a) true σ

def diffFold (bprops : List (String × Val)) :
    List (String × Val) → List (String × Val) → List (String × Val)
  | [], acc => acc
  | (k, v) :: rest, acc =>
    if jeqOpt (stringifyV v) (stringifyV (getProp bprops k)) then diffFold bprops rest acc
    else diffFold bprops rest (setProp acc k v)

/-- Embedding of `Model.diff`: walks every own enumerable property of the
receiver (no underscore filtering) and keeps those whose serialization differs
from the other instance's same-named property. -/
def diffV (a b : Val) : List (String × Val) :=
  diffFold (propsOf b) (propsOf a) []

/-- Embedding of `Model.isEqual`: serialization equality of the two full
exports. -/
def isEqualV (env : Env) (a b : Val) : Bool :=
  jeqOpt (stringifyV (toJsonV env noOptions a)) (stringifyV (toJsonV env noOptions b))

/-- Embedding of `Model.getChangesSince`: empty without a snapshot, otherwise
the diff against the snapshot. -/
def getChangesSinceV (a : Val) : List (String × Val) :=
  if isFalsy (getProp (propsOf a) "_originalState") then []
  else diffV a (getProp (propsOf a) "_originalState")

/-- Embedding of `Model.reset`: when a snapshot exists, re-apply its export. -/
def resetF (env : Env) (fuel : Nat) (a : Val) (σ : Nat) : Option (Val × Nat) :=
  if isFalsy (getProp (propsOf a) "_originalState") then some (a, σ)
  else applyJsonF env fuel a (toJsonV env noOptions (getProp (propsOf a) "_originalState")) σ

/-- Embedding of `Model.merge`, an alias for `applyJson`. -/
def mergeF (env : Env) (fuel : Nat) (a other : Val) (σ : Nat) : Option (Val × Nat) :=
  applyJsonF env fuel a other σ

/-- Direct field mutation, `instance.field = v`. -/
def setField (a : Val) (k : String) (v : Val) : Val := setPropM a k v

mutual
/-- True when a live model instance occurs anywhere inside a value. -/
def containsModelV : Val → Bool
  | .vmodel _ _ _ => true
  | .varr l => containsModelA l
  | .vobj fs => containsModelF fs
  | _ => false

def containsModelA : List Val → Bool
  | [] => false
  | v :: t => containsModelV v || containsModelA t

def containsModelF : List (String × Val) → Bool
  | [] => false
  | (_, v) :: t => containsModelV v || containsModelF t
end

/-! ### Concrete fixtures

The classes of the repository's test suite (`Post`, `Profile`, `User` with its
decorators) and the test input, used to evaluate the engine at concrete
inputs. Date-valued initializers are fixed to the string `"d0"`; this only
fixes the nondeterministic clock. -/

def postCls : ClassDef :=
  ⟨[("title", .vstr ""), ("createdAt", .vstr "d0")], [], [], [], [], [], []⟩

def profileCls : ClassDef :=
  ⟨[("bio", .vstr ""), ("website", .vstr "")], [], [], [], [], [], []⟩

def userCls : ClassDef :=
  ⟨[("id", .vnum 0), ("firstName", .vstr ""), ("lastName", .vstr ""),
    ("email", .vstr ""), ("password", .vstr ""), ("isAdmin", .vbool false),
    ("createdAt", .vstr "d0"),
    ("profile", .vmodel 0 "Profile" [("bio", .vstr ""), ("website", .vstr "")]),
    ("posts", .varr [])],
   [("profile", "Profile"), ("posts", "Post")],
   ["password"], [], ["createdAt"], [("isAdmin", ["admin"])], []⟩

def testEnv : Env := [("Post", postCls), ("Profile", profileCls), ("User", userCls)]

def userInput : Val := .vobj [
  ("id", .vnum 0), ("first_name", .vstr "Pavel"), ("last_name", .vstr "del Pozo"),
  ("email", .vstr "pavel@dev.com"), ("password", .vstr "secret"),
  ("is_admin", .vbool true), ("created_at", .vstr "2024-01-01"),
  ("profile", .vobj [("bio", .vstr "Frontend Dev"), ("website", .vstr "https://pavel.dev")]),
  ("posts", .varr [.vobj [("title", .vstr "Hola"), ("created_at", .vstr "2023-01-01")],
                   .vobj [("title", .vstr "Adios"), ("created_at", .vstr "2023-02-01")]])]

/-- The instance `User.fromJson(userInput)` (with snapshot capture). -/
def theUser : Val :=
  ((fromJsonF testEnv 100 "User" userInput false 0).map Prod.fst).getD ( .undef)

/-! ### Preservation lemmas for the import engine -/

theorem getProp_setPropM_ne (inst : Val) {k k' : String} (v : Val) (h : k ≠ k') :
    getProp (propsOf (setPropM inst k' v)) k = getProp (propsOf inst) k := by
  cases inst with
  | vobj fs => simpa [setPropM, propsOf] using getProp_setProp_ne fs v h
  | vmodel i c fs => simpa [setPropM, propsOf] using getProp_setProp_ne fs v h
  | _ => rfl

/-- The state right after `new this()` plus `applyDefaults()` inside a
`fromJson` call entered with allocation counter `σ`. -/
def basePropsAt (env : Env) (cname : String) (σ : Nat) : List (String × Val) :=
  let cls := lookupClass env cname
  let ri := refreshF cls.inits (σ + 1)
  assignAll ri.1 (refreshF cls.dfl ri.2).1

theorem applyEntriesF_preserves_ro (env : Env) {k : String} :
    ∀ (fuel : Nat) (cls : ClassDef) (inst : Val) (entries : List (String × Val)) (σ : Nat)
      (inst' : Val) (σ' : Nat),
      cls.ro.contains k = true →
      applyEntriesF env fuel cls inst entries σ = some (inst', σ') →
      getProp (propsOf inst') k = getProp (propsOf inst) k := by
  intro fuel
  induction fuel with
  | zero =>
    intro cls inst entries σ inst' σ' hk happ
    simp [applyEntriesF] at happ
  | succ fuel ih =>
    intro cls inst entries σ inst' σ' hk happ
    cases entries with
    | nil =>
      simp [applyEntriesF] at happ
      rw [← happ.1]
    | cons e rest =>
      obtain ⟨k', rawv⟩ := e
      rw [show applyEntriesF env (fuel + 1) cls inst ((k', rawv) :: rest) σ
          = (if cls.ro.contains k' then applyEntriesF env fuel cls inst rest σ
             else
              match lookupA cls.types k' with
              | some tname =>
                if isArrV (transformApply cls k' rawv) then
                  match coerceArrF env fuel tname (arrOf (transformApply cls k' rawv)) σ with
                  | none => none
                  | some (l', σ') =>
                    applyEntriesF env fuel cls (setPropM inst k' (.varr l')) rest σ'
                else
                  if isInst (transformApply cls k' rawv) tname then
                    applyEntriesF env fuel cls
                      (setPropM inst k' (transformApply cls k' rawv)) rest σ
                  else
                    match fromJsonF env fuel tname (transformApply cls k' rawv) false σ with
                    | none => none
                    | some (nv, σ') => applyEntriesF env fuel cls (setPropM inst k' nv) rest σ'
              | none =>
                applyEntriesF env fuel cls
                  (setPropM inst k' (transformApply cls k' rawv)) rest σ)
          from rfl] at happ
      by_cases hro : cls.ro.contains k' = true
      · rw [if_pos hro] at happ
        exact ih cls inst rest σ inst' σ' hk happ
      · have hkk : k ≠ k' := fun he => hro (he ▸ hk)
        rw [if_neg hro] at happ
        split at happ
        · split at happ
          · split at happ
            · exact absurd happ (by simp)
            · rw [ih _ _ _ _ _ _ hk happ, getProp_setPropM_ne _ _ hkk]
          · split at happ
            · rw [ih _ _ _ _ _ _ hk happ, getProp_setPropM_ne _ _ hkk]
            · split at happ
              · exact absurd happ (by simp)
              · rw [ih _ _ _ _ _ _ hk happ, getProp_setPropM_ne _ _ hkk]
        · rw [ih _ _ _ _ _ _ hk happ, getProp_setPropM_ne _ _ hkk]

theorem applyJsonF_preserves_ro (env : Env) {k : String} (fuel : Nat) (inst json : Val)
    (σ : Nat) (inst' : Val) (σ' : Nat)
    (hk : (lookupClass env (clsOf inst)).ro.contains k = true)
    (happ : applyJsonF env fuel inst json σ = some (inst', σ')) :
    getProp (propsOf inst') k = getProp (propsOf inst) k := by
  cases fuel with
  | zero => simp [applyJsonF] at happ
  | succ fuel =>
    rw [show applyJsonF env (fuel + 1) inst json σ
        = (if isFalsy json then some (inst, σ)
           else applyEntriesF env fuel (lookupClass env (clsOf inst)) inst
             (entriesV (toCamelCaseV json)) σ) from rfl] at happ
    by_cases hf : isFalsy json = true
    · rw [if_pos hf] at happ
      cases happ
      rfl
    · rw [if_neg hf] at happ
      exact applyEntriesF_preserves_ro env fuel _ inst _ σ inst' σ' hk happ

theorem fromJsonF_ro_is_default (env : Env) (fuel : Nat) (cname : String) (json : Val)
    (skip : Bool) (σ : Nat) (inst' : Val) (σ' : Nat) {k : String}
    (hk : (lookupClass env cname).ro.contains k = true)
    (hko : k ≠ "_originalState")
    (hfj : fromJsonF env fuel cname json skip σ = some (inst', σ')) :
    getProp (propsOf inst') k = getProp (basePropsAt env cname σ) k := by
  cases fuel with
  | zero => simp [fromJsonF] at hfj
  | succ fuel =>
    rw [show fromJsonF env (fuel + 1) cname json skip σ
        = (match applyJsonF env fuel (.vmodel σ cname (basePropsAt env cname σ)) json
             (refreshF (lookupClass env cname).dfl
               (refreshF (lookupClass env cname).inits (σ + 1)).2).2 with
           | none => none
           | some (inst, σ3) =>
             if skip then some (inst, σ3)
             else
               match fromJsonF env fuel cname (toJsonV env noOptions inst) true σ3 with
               | none => none
               | some (orig, σ4) => some (setPropM inst "_originalState" orig, σ4)) from rfl] at hfj
    split at hfj
    · exact absurd hfj (by simp)
    next inst1 σ3 happ =>
      have hbase : getProp (propsOf inst1) k = getProp (basePropsAt env cname σ) k :=
        applyJsonF_preserves_ro env fuel _ json _ inst1 σ3 (by simpa [clsOf] using hk) happ
      by_cases hskip : skip = true
      · rw [if_pos hskip] at hfj
        cases hfj
        exact hbase
      · rw [if_neg hskip] at hfj
        split at hfj
        · exact absurd hfj (by simp)
        next orig σ4 hsnap =>
          cases hfj
          rw [getProp_setPropM_ne _ _ hko]
          exact hbase

/-! ## Claim C7 -/

/-- C7: for every external key string (not only those using the underscore
convention), converting to internal (camel) form, back to external (snake)
form, and to internal form again yields exactly the first internal form:
`toCamelCaseKey (toSnakeCaseKey (toCamelCaseKey k)) = toCamelCaseKey k`.
The key-conversion pair is stable under repeated round-trips even where it is
not a bijection. -/
theorem c7_key_roundtrip_stable (k : String) :
    toCamelCaseKey (toSnakeCaseKey (toCamelCaseKey k)) = toCamelCaseKey k :=
  congrArg String.mk (camel_snake_camel k.data)

/-! ## Claim C2 -/

/-- The first post of `theUser`, as computed by the import engine: allocation
identifier 4, and its own captured snapshot at identifier 5. -/
def thePost0 : Val :=
  .vmodel 4 "Post"
    [("title", .vstr "Hola"), ("createdAt", .vstr "2023-01-01"),
     ("_originalState", .vmodel 5 "Post"
        [("title", .vstr "Hola"), ("createdAt", .vstr "2023-01-01")])]

def thePost1 : Val :=
  .vmodel 6 "Post"
    [("title", .vstr "Adios"), ("createdAt", .vstr "2023-02-01"),
     ("_originalState", .vmodel 7 "Post"
        [("title", .vstr "Adios"), ("createdAt", .vstr "2023-02-01")])]

/-- C2 (code bug): the captured `_originalState` of `theUser` holds, in its
`posts` field, the very same `Post` objects (same allocation identifiers 4 and
6) as the live instance — `toJson` passes array-held model instances through
`toSnakeCase` unchanged and `applyJson`'s array coercion passes instances
through by identity, so the snapshot aliases the live nested models instead of
being an independent deep copy. Mutating `theUser.posts[0]` therefore mutates
the snapshot's `posts[0]` as well. -/
theorem c2_snapshot_aliases_posts :
    getProp (propsOf (getProp (propsOf theUser) "_originalState")) "posts"
        = getProp (propsOf theUser) "posts"
      ∧ getProp (propsOf theUser) "posts" = .varr [thePost0, thePost1] := by
  constructor <;> rfl

/-! ## Claim C3 -/

/-- C3 counterexample: the initial `fromJson` construction import does NOT
assign the read-only field. The camel-cased input carries
`createdAt = "2024-01-01"`, yet the constructed instance still holds the field
initializer value `"d0"`. -/
theorem c3_counterexample :
    getProp (propsOf (toCamelCaseV userInput)) "createdAt" = .vstr "2024-01-01"
      ∧ getProp (propsOf theUser) "createdAt" = .vstr "d0" := by
  constructor <;> rfl

/-- C3 amended: a read-only field is never assigned by any import —
`applyJson` invoked after construction leaves it unchanged, and (contrary to
the original claim's second half) the initial `fromJson` construction import
also leaves it unassigned: after construction it holds the post-defaults
initializer value, not the input's value. -/
theorem c3_readonly_never_assigned (env : Env) (fuel : Nat) :
    (∀ (inst json : Val) (σ : Nat) (inst' : Val) (σ' : Nat) (k : String),
        (lookupClass env (clsOf inst)).ro.contains k = true →
        applyJsonF env fuel inst json σ = some (inst', σ') →
        getProp (propsOf inst') k = getProp (propsOf inst) k)
    ∧ (∀ (cname : String) (json : Val) (skip : Bool) (σ : Nat) (inst' : Val) (σ' : Nat)
        (k : String),
        (lookupClass env cname).ro.contains k = true →
        k ≠ "_originalState" →
        fromJsonF env fuel cname json skip σ = some (inst', σ') →
        getProp (propsOf inst') k = getProp (basePropsAt env cname σ) k) :=
  ⟨fun inst json σ inst' σ' _ hk happ =>
      applyJsonF_preserves_ro env fuel inst json σ inst' σ' hk happ,
   fun cname json skip σ inst' σ' _ hk hko hfj =>
      fromJsonF_ro_is_default env fuel cname json skip σ inst' σ' hk hko hfj⟩

/-- Witness for the C3 amended theorem: evaluated on the repository's `User`
class, whose read-only `createdAt` keeps the initializer value `"d0"`. -/
theorem c3_readonly_never_assigned_witness :
    getProp (propsOf theUser) "createdAt" = getProp (basePropsAt testEnv "User" 0) "createdAt"
      ∧ getProp (basePropsAt testEnv "User" 0) "createdAt" = .vstr "d0" := by
  constructor
  · cases hres : fromJsonF testEnv 100 "User" userInput false 0 with
    | none =>
      have hm : isModelV theUser = true := rfl
      have hu : theUser
          = ((fromJsonF testEnv 100 "User" userInput false 0).map Prod.fst).getD .undef := rfl
      rw [hu, hres] at hm
      simp [isModelV] at hm
    | some r =>
      obtain ⟨inst', σ'⟩ := r
      have hu : theUser = inst' := by
        have h0 : theUser
            = ((fromJsonF testEnv 100 "User" userInput false 0).map Prod.fst).getD .undef := rfl
        rw [h0, hres]
        rfl
      rw [hu]
      exact (c3_readonly_never_assigned testEnv 100).2 "User" userInput false 0 inst' σ'
        "createdAt" rfl (by decide) hres
  · rfl

/-! ## Claim C9 -/

theorem mem_keys_setProp (acc : List (String × Val)) (k k' : String) (v : Val)
    (h : k ∈ acc.map Prod.fst) : k ∈ (setProp acc k' v).map Prod.fst := by
  induction acc with
  | nil => simp at h
  | cons p t ih =>
    obtain ⟨k0, v0⟩ := p
    rw [setProp]
    by_cases h0 : (k0 == k') = true
    · rw [if_pos h0]
      exact h
    · rw [Bool.not_eq_true] at h0
      rw [if_neg (by simp [h0]), List.map_cons]
      rw [List.map_cons] at h
      rcases List.mem_cons.mp h with heq | hmem
      · exact List.mem_cons.mpr (Or.inl heq)
      · exact List.mem_cons.mpr (Or.inr (ih hmem))

theorem self_mem_keys_setProp (acc : List (String × Val)) (k : String) (v : Val) :
    k ∈ (setProp acc k v).map Prod.fst := by
  induction acc with
  | nil => simp [setProp]
  | cons p t ih =>
    obtain ⟨k0, v0⟩ := p
    rw [setProp]
    by_cases h0 : (k0 == k) = true
    · rw [if_pos h0, List.map_cons]
      exact List.mem_cons.mpr (Or.inl (beq_iff_eq.mp h0).symm)
    · rw [Bool.not_eq_true] at h0
      rw [if_neg (by simp [h0]), List.map_cons]
      exact List.mem_cons.mpr (Or.inr ih)

theorem diffFold_keys_mono (bprops : List (String × Val)) :
    ∀ (l acc : List (String × Val)) (k : String),
      k ∈ acc.map Prod.fst → k ∈ (diffFold bprops l acc).map Prod.fst := by
  intro l
  induction l with
  | nil => intro acc k h; simpa [diffFold] using h
  | cons p rest ih =>
    intro acc k h
    obtain ⟨k0, v0⟩ := p
    rw [diffFold]
    by_cases h0 : jeqOpt (stringifyV v0) (stringifyV (getProp bprops k0)) = true
    · rw [if_pos h0]
      exact ih acc k h
    · rw [if_neg h0]
      exact ih _ k (mem_keys_setProp acc k k0 v0 h)

theorem diffFold_mem (bprops : List (String × Val)) :
    ∀ (l acc : List (String × Val)) (k : String) (v : Val),
      (k, v) ∈ l →
      jeqOpt (stringifyV v) (stringifyV (getProp bprops k)) = false →
      k ∈ (diffFold bprops l acc).map Prod.fst := by
  intro l
  induction l with
  | nil => intro acc k v h; simp at h
  | cons p rest ih =>
    intro acc k v hmem hne
    obtain ⟨k0, v0⟩ := p
    rcases List.mem_cons.mp hmem with heq | hmem'
    · obtain ⟨hk, hv⟩ := Prod.ext_iff.mp heq
      subst hk
      subst hv
      rw [diffFold, if_neg (by simp [hne])]
      exact diffFold_keys_mono bprops rest _ k (self_mem_keys_setProp acc k v)
    · rw [diffFold]
      by_cases h0 : jeqOpt (stringifyV v0) (stringifyV (getProp bprops k0)) = true
      · rw [if_pos h0]
        exact ih acc k v hmem' hne
      · rw [if_neg h0]
        exact ih _ k v hmem' hne

theorem isModelV_elim : ∀ {v : Val}, isModelV v = true → ∃ i c fs, v = .vmodel i c fs
  | .vmodel i c fs, _ => ⟨i, c, fs, rfl⟩
  | .undef, h => nomatch h
  | .vnull, h => nomatch h
  | .vbool _, h => nomatch h
  | .vnum _, h => nomatch h
  | .vstr _, h => nomatch h
  | .varr _, h => nomatch h
  | .vobj _, h => nomatch h

theorem getProp_ne_undef_mem (props : List (String × Val)) (k : String)
    (h : getProp props k ≠ .undef) : (k, getProp props k) ∈ props := by
  induction props with
  | nil => simp [getProp] at h
  | cons p t ih =>
    obtain ⟨k0, v0⟩ := p
    by_cases h0 : (k0 == k) = true
    · have hk : k0 = k := beq_iff_eq.mp h0
      subst hk
      have hg : getProp ((k0, v0) :: t) k0 = v0 := by simp [getProp]
      rw [hg]
      exact List.mem_cons_self _ _
    · rw [Bool.not_eq_true] at h0
      have hg : getProp ((k0, v0) :: t) k = getProp t k := by simp [getProp, h0]
      rw [hg] at h ⊢
      exact List.mem_cons.mpr (Or.inr (ih h))

/-- C9: `diff` iterates every own enumerable property of the receiver with no
underscore-prefix filtering (unlike `toJson`): every property whose
serialization differs from the other instance's same-named property is
included; consequently, when the receiver holds a model snapshot in
`_originalState` and the other instance does not, the result contains the
`_originalState` key. -/
theorem c9_diff_iterates_originalState (a b : Val)
    (h1 : isModelV (getProp (propsOf a) "_originalState") = true)
    (h2 : getProp (propsOf b) "_originalState" = .undef) :
    (∀ k v, (k, v) ∈ propsOf a →
        jeqOpt (stringifyV v) (stringifyV (getProp (propsOf b) k)) = false →
        k ∈ (diffV a b).map Prod.fst)
    ∧ "_originalState" ∈ (diffV a b).map Prod.fst := by
  constructor
  · intro k v hmem hne
    exact diffFold_mem (propsOf b) (propsOf a) [] k v hmem hne
  · have hne : getProp (propsOf a) "_originalState" ≠ .undef := by
      intro he
      rw [he] at h1
      simp [isModelV] at h1
    have hmem := getProp_ne_undef_mem (propsOf a) "_originalState" hne
    apply diffFold_mem (propsOf b) (propsOf a) [] _ _ hmem
    rw [h2]
    obtain ⟨i, c, fs, hv⟩ := isModelV_elim h1
    rw [hv]
    rfl

def c9a : Val := .vmodel 0 "P" [("x", .vnum 1), ("_originalState", .vmodel 1 "P" [("x", .vnum 1)])]

def c9b : Val := .vmodel 2 "P" [("x", .vnum 1)]

/-- Witness for C9 at a concrete pair of instances. -/
theorem c9_diff_iterates_originalState_witness :
    "_originalState" ∈ (diffV c9a c9b).map Prod.fst :=
  (c9_diff_iterates_originalState c9a c9b rfl rfl).2

/-! ## Claim C5 -/

theorem isModelV_setPropM (inst : Val) (k : String) (v : Val) :
    isModelV (setPropM inst k v) = isModelV inst := by
  cases inst <;> rfl

theorem getProp_setPropM_same (inst : Val) (hm : isModelV inst = true) (k : String) (v : Val) :
    getProp (propsOf (setPropM inst k v)) k = v := by
  obtain ⟨i, c, fs, hv⟩ := isModelV_elim hm
  subst hv
  simpa [setPropM, propsOf] using getProp_setProp_same fs k v

theorem applyEntriesF_frame (env : Env) {k : String} :
    ∀ (fuel : Nat) (cls : ClassDef) (inst : Val) (entries : List (String × Val)) (σ : Nat)
      (inst' : Val) (σ' : Nat),
      (∀ p ∈ entries, p.1 ≠ k) →
      applyEntriesF env fuel cls inst entries σ = some (inst', σ') →
      getProp (propsOf inst') k = getProp (propsOf inst) k := by
  intro fuel
  induction fuel with
  | zero =>
    intro cls inst entries σ inst' σ' hk happ
    simp [applyEntriesF] at happ
  | succ fuel ih =>
    intro cls inst entries σ inst' σ' hk happ
    cases entries with
    | nil =>
      simp [applyEntriesF] at happ
      rw [← happ.1]
    | cons e rest =>
      obtain ⟨k', rawv⟩ := e
      have hkk : k ≠ k' := fun he => hk (k', rawv) (List.mem_cons_self _ _) (he ▸ rfl)
      have hkrest : ∀ p ∈ rest, p.1 ≠ k := fun p hp => hk p (List.mem_cons_of_mem _ hp)
      rw [show applyEntriesF env (fuel + 1) cls inst ((k', rawv) :: rest) σ
          = (if cls.ro.contains k' then applyEntriesF env fuel cls inst rest σ
             else
              match lookupA cls.types k' with
              | some tname =>
                if isArrV (transformApply cls k' rawv) then
                  match coerceArrF env fuel tname (arrOf (transformApply cls k' rawv)) σ with
                  | none => none
                  | some (l', σ') =>
                    applyEntriesF env fuel cls (setPropM inst k' (.varr l')) rest σ'
                else
                  if isInst (transformApply cls k' rawv) tname then
                    applyEntriesF env fuel cls
                      (setPropM inst k' (transformApply cls k' rawv)) rest σ
                  else
                    match fromJsonF env fuel tname (transformApply cls k' rawv) false σ with
                    | none => none
                    | some (nv, σ') => applyEntriesF env fuel cls (setPropM inst k' nv) rest σ'
              | none =>
                applyEntriesF env fuel cls
                  (setPropM inst k' (transformApply cls k' rawv)) rest σ)
          from rfl] at happ
      by_cases hro : cls.ro.contains k' = true
      · rw [if_pos hro] at happ
        exact ih cls inst rest σ inst' σ' hkrest happ
      · rw [if_neg hro] at happ
        split at happ
        · split at happ
          · split at happ
            · exact absurd happ (by simp)
            · rw [ih _ _ _ _ _ _ hkrest happ, getProp_setPropM_ne _ _ hkk]
          · split at happ
            · rw [ih _ _ _ _ _ _ hkrest happ, getProp_setPropM_ne _ _ hkk]
            · split at happ
              · exact absurd happ (by simp)
              · rw [ih _ _ _ _ _ _ hkrest happ, getProp_setPropM_ne _ _ hkk]
        · rw [ih _ _ _ _ _ _ hkrest happ, getProp_setPropM_ne _ _ hkk]

theorem applyEntriesF_assign (env : Env) {k : String} {v : Val} :
    ∀ (fuel : Nat) (cls : ClassDef) (inst : Val) (l1 l2 : List (String × Val)) (σ : Nat)
      (inst' : Val) (σ' : Nat),
      isModelV inst = true →
      cls.ro.contains k = false →
      lookupA cls.types k = none →
      lookupA cls.transforms k = none →
      (∀ p ∈ l2, p.1 ≠ k) →
      applyEntriesF env fuel cls inst (l1 ++ (k, v) :: l2) σ = some (inst', σ') →
      getProp (propsOf inst') k = v := by
  intro fuel
  induction fuel with
  | zero =>
    intro cls inst l1 l2 σ inst' σ' hm hro hty htr hl2 happ
    simp [applyEntriesF] at happ
  | succ fuel ih =>
    intro cls inst l1 l2 σ inst' σ' hm hro hty htr hl2 happ
    cases l1 with
    | nil =>
      rw [List.nil_append] at happ
      rw [show applyEntriesF env (fuel + 1) cls inst ((k, v) :: l2) σ
          = (if cls.ro.contains k then applyEntriesF env fuel cls inst l2 σ
             else
              match lookupA cls.types k with
              | some tname =>
                if isArrV (transformApply cls k v) then
                  match coerceArrF env fuel tname (arrOf (transformApply cls k v)) σ with
                  | none => none
                  | some (l', σ') =>
                    applyEntriesF env fuel cls (setPropM inst k (.varr l')) l2 σ'
                else
                  if isInst (transformApply cls k v) tname then
                    applyEntriesF env fuel cls
                      (setPropM inst k (transformApply cls k v)) l2 σ
                  else
                    match fromJsonF env fuel tname (transformApply cls k v) false σ with
                    | none => none
                    | some (nv, σ') => applyEntriesF env fuel cls (setPropM inst k nv) l2 σ'
              | none =>
                applyEntriesF env fuel cls
                  (setPropM inst k (transformApply cls k v)) l2 σ)
          from rfl] at happ
      have hro' : ¬(cls.ro.contains k = true) := by
        rw [hro]
        exact Bool.false_ne_true
      rw [if_neg hro', hty] at happ
      have htv : transformApply cls k v = v := by simp [transformApply, htr]
      rw [applyEntriesF_frame env fuel _ _ _ _ _ _ hl2 happ, htv,
        getProp_setPropM_same inst hm k v]
    | cons e l1' =>
      obtain ⟨k', rawv⟩ := e
      rw [List.cons_append] at happ
      rw [show applyEntriesF env (fuel + 1) cls inst ((k', rawv) :: (l1' ++ (k, v) :: l2)) σ
          = (if cls.ro.contains k' then applyEntriesF env fuel cls inst (l1' ++ (k, v) :: l2) σ
             else
              match lookupA cls.types k' with
              | some tname =>
                if isArrV (transformApply cls k' rawv) then
                  match coerceArrF env fuel tname (arrOf (transformApply cls k' rawv)) σ with
                  | none => none
                  | some (l', σ') =>
                    applyEntriesF env fuel cls (setPropM inst k' (.varr l'))
                      (l1' ++ (k, v) :: l2) σ'
                else
                  if isInst (transformApply cls k' rawv) tname then
                    applyEntriesF env fuel cls
                      (setPropM inst k' (transformApply cls k' rawv)) (l1' ++ (k, v) :: l2) σ
                  else
                    match fromJsonF env fuel tname (transformApply cls k' rawv) false σ with
                    | none => none
                    | some (nv, σ') =>
                      applyEntriesF env fuel cls (setPropM inst k' nv) (l1' ++ (k, v) :: l2) σ'
              | none =>
                applyEntriesF env fuel cls
                  (setPropM inst k' (transformApply cls k' rawv)) (l1' ++ (k, v) :: l2) σ)
          from rfl] at happ
      by_cases hro' : cls.ro.contains k' = true
      · rw [if_pos hro'] at happ
        exact ih cls inst l1' l2 _ inst' σ' hm hro hty htr hl2 happ
      · rw [if_neg hro'] at happ
        split at happ
        · split at happ
          · split at happ
            · exact absurd happ (by simp)
            · exact ih cls _ l1' l2 _ inst' σ'
                (by rw [isModelV_setPropM]; exact hm) hro hty htr hl2 happ
          · split at happ
            · exact ih cls _ l1' l2 _ inst' σ'
                (by rw [isModelV_setPropM]; exact hm) hro hty htr hl2 happ
            · split at happ
              · exact absurd happ (by simp)
              · exact ih cls _ l1' l2 _ inst' σ'
                  (by rw [isModelV_setPropM]; exact hm) hro hty htr hl2 happ
        · exact ih cls _ l1' l2 _ inst' σ'
            (by rw [isModelV_setPropM]; exact hm) hro hty htr hl2 happ

theorem entriesV_camel_falsy {json : Val} (h : isFalsy json = true) :
    entriesV (toCamelCaseV json) = [] := by
  cases json with
  | vstr s =>
    have hs : s = "" := by simpa [isFalsy] using h
    subst hs
    rfl
  | vbool b => cases b <;> rfl
  | vnum n => rfl
  | _ => first | rfl | (simp [isFalsy] at h)

/-- C5 counterexample: an input key matching no declared field is NOT ignored —
`applyJson({unknown_key: 5})` on a `Profile` instance creates the new member
`unknownKey` holding `5`. -/
theorem c5_counterexample :
    getProp (propsOf (((applyJsonF testEnv 10 (.vmodel 0 "Profile" [("bio", .vstr "")])
        (.vobj [("unknown_key", .vnum 5)]) 0).map Prod.fst).getD .undef)) "unknownKey"
      = .vnum 5 := rfl

/-- C5 amended: `applyJson` raises no error on an unknown key but does not drop
it either — it performs no declared-field check at all, so the key is assigned
directly onto the instance as a new member under its camel-cased name (when no
`@Type`, `@Transform` or `@Readonly` metadata matches it and no later input
entry shares the key); fields not matched by any input entry are unchanged. -/
theorem c5_unknown_keys_assigned (env : Env) (fuel : Nat) (inst json : Val) (σ : Nat)
    (inst' : Val) (σ' : Nat)
    (happ : applyJsonF env fuel inst json σ = some (inst', σ')) :
    (∀ k, (∀ p ∈ entriesV (toCamelCaseV json), p.1 ≠ k) →
        getProp (propsOf inst') k = getProp (propsOf inst) k)
    ∧ (∀ l1 k v l2,
        isModelV inst = true →
        entriesV (toCamelCaseV json) = l1 ++ (k, v) :: l2 →
        (∀ p ∈ l2, p.1 ≠ k) →
        (lookupClass env (clsOf inst)).ro.contains k = false →
        lookupA (lookupClass env (clsOf inst)).types k = none →
        lookupA (lookupClass env (clsOf inst)).transforms k = none →
        getProp (propsOf inst') k = v) := by
  cases fuel with
  | zero => simp [applyJsonF] at happ
  | succ fuel =>
    rw [show applyJsonF env (fuel + 1) inst json σ
        = (if isFalsy json then some (inst, σ)
           else applyEntriesF env fuel (lookupClass env (clsOf inst)) inst
             (entriesV (toCamelCaseV json)) σ) from rfl] at happ
    by_cases hf : isFalsy json = true
    · rw [if_pos hf] at happ
      cases happ
      constructor
      · intro k _
        rfl
      · intro l1 k v l2 _ hsplit
        rw [entriesV_camel_falsy hf] at hsplit
        exact absurd hsplit.symm (List.append_ne_nil_of_right_ne_nil _ (by simp))
    · rw [if_neg hf] at happ
      constructor
      · intro k hk
        exact applyEntriesF_frame env fuel _ inst _ σ inst' σ' hk happ
      · intro l1 k v l2 hm hsplit hl2 hro hty htr
        rw [hsplit] at happ
        exact applyEntriesF_assign env fuel _ inst l1 l2 σ inst' σ' hm hro hty htr hl2 happ

/-- Witness for the C5 amended theorem at a concrete unknown-key import. -/
theorem c5_unknown_keys_assigned_witness :
    getProp (propsOf (.vmodel 0 "Profile" [("bio", .vstr ""), ("unknownKey", .vnum 5)] : Val))
        "unknownKey" = .vnum 5
      ∧ getProp (propsOf (.vmodel 0 "Profile"
          [("bio", .vstr ""), ("unknownKey", .vnum 5)] : Val)) "bio"
        = getProp (propsOf (.vmodel 0 "Profile" [("bio", .vstr "")] : Val)) "bio" := by
  have h := c5_unknown_keys_assigned testEnv 10 (.vmodel 0 "Profile" [("bio", .vstr "")])
    (.vobj [("unknown_key", .vnum 5)]) 0
    (.vmodel 0 "Profile" [("bio", .vstr ""), ("unknownKey", .vnum 5)]) 0 rfl
  exact ⟨h.2 [] "unknownKey" (.vnum 5) [] rfl rfl (by simp) rfl rfl rfl,
    h.1 "bio" (by decide)⟩

/-! ## Claims C1 and C6: characterization of the export walk -/

/-- The combined skip test of one `toJson` loop iteration. -/
def exportSkip (opts : ExportOptions) (cls : ClassDef) (orig : Val) (k : String) (v : Val) :
    Bool :=
  startsUnderscore k || cls.excl.contains k || skipByGroup opts cls k
    || skipByUnchanged opts orig k v

theorem exportFold_cons (env : Env) (opts : ExportOptions) (cls : ClassDef) (orig : Val)
    (k : String) (v : Val) (rest acc : List (String × Val)) :
    exportFold env opts cls orig ((k, v) :: rest) acc
      = if exportSkip opts cls orig k v then exportFold env opts cls orig rest acc
        else
          exportFold env opts cls orig rest
            (setProp acc (toSnakeCaseKey k)
              (if isModelV v then toJsonV env opts v else toSnakeCaseV v)) := by
  by_cases h1 : startsUnderscore k = true <;>
    by_cases h2 : cls.excl.contains k = true <;>
    by_cases h3 : skipByGroup opts cls k = true <;>
    by_cases h4 : skipByUnchanged opts orig k v = true <;>
    simp [exportFold, exportSkip, h1, h2, h3, h4]

theorem not_mem_keys_setProp (acc : List (String × Val)) {target k' : String} (v : Val)
    (hne : target ≠ k') (h : target ∉ acc.map Prod.fst) :
    target ∉ (setProp acc k' v).map Prod.fst := by
  induction acc with
  | nil => simpa [setProp] using hne
  | cons p t ih =>
    obtain ⟨k0, v0⟩ := p
    rw [List.map_cons] at h
    have h0 : target ≠ k0 := fun he => h (List.mem_cons.mpr (Or.inl he))
    have ht : target ∉ t.map Prod.fst := fun hm => h (List.mem_cons.mpr (Or.inr hm))
    rw [setProp]
    by_cases hb : (k0 == k') = true
    · rw [if_pos hb, List.map_cons]
      intro hm
      rcases List.mem_cons.mp hm with he | hm'
      · exact h0 he
      · exact ht hm'
    · rw [Bool.not_eq_true] at hb
      rw [if_neg (by simp [hb]), List.map_cons]
      intro hm
      rcases List.mem_cons.mp hm with he | hm'
      · exact h0 he
      · exact ih ht hm'

theorem exportFold_frame (env : Env) (opts : ExportOptions) (cls : ClassDef) (orig : Val)
    {target : String} :
    ∀ (l acc : List (String × Val)),
      (∀ p ∈ l, toSnakeCaseKey p.1 ≠ target) →
      getProp (exportFold env opts cls orig l acc) target = getProp acc target := by
  intro l
  induction l with
  | nil => intro acc _; rfl
  | cons p rest ih =>
    obtain ⟨k, v⟩ := p
    intro acc hl
    have hk : toSnakeCaseKey k ≠ target := hl (k, v) (List.mem_cons_self _ _)
    have hrest : ∀ p ∈ rest, toSnakeCaseKey p.1 ≠ target :=
      fun p hp => hl p (List.mem_cons_of_mem _ hp)
    rw [exportFold_cons]
    by_cases hskip : exportSkip opts cls orig k v = true
    · rw [if_pos hskip]
      exact ih acc hrest
    · rw [if_neg hskip, ih _ hrest]
      exact getProp_setProp_ne acc _ (fun he => hk he.symm)

theorem exportFold_keys_mono (env : Env) (opts : ExportOptions) (cls : ClassDef) (orig : Val)
    {target : String} :
    ∀ (l acc : List (String × Val)),
      target ∈ acc.map Prod.fst →
      target ∈ (exportFold env opts cls orig l acc).map Prod.fst := by
  intro l
  induction l with
  | nil => intro acc h; exact h
  | cons p rest ih =>
    obtain ⟨k, v⟩ := p
    intro acc h
    rw [exportFold_cons]
    by_cases hskip : exportSkip opts cls orig k v = true
    · rw [if_pos hskip]
      exact ih acc h
    · rw [if_neg hskip]
      exact ih _ (mem_keys_setProp acc target _ _ h)

theorem exportFold_assign (env : Env) (opts : ExportOptions) (cls : ClassDef) (orig : Val)
    {k : String} {v : Val} :
    ∀ (l1 l2 acc : List (String × Val)),
      (∀ p ∈ l2, toSnakeCaseKey p.1 ≠ toSnakeCaseKey k) →
      exportSkip opts cls orig k v = false →
      getProp (exportFold env opts cls orig (l1 ++ (k, v) :: l2) acc) (toSnakeCaseKey k)
          = (if isModelV v then toJsonV env opts v else toSnakeCaseV v)
        ∧ toSnakeCaseKey k
          ∈ (exportFold env opts cls orig (l1 ++ (k, v) :: l2) acc).map Prod.fst := by
  intro l1
  induction l1 with
  | nil =>
    intro l2 acc hl2 hskip
    rw [List.nil_append, exportFold_cons, if_neg (by simp [hskip])]
    constructor
    · rw [exportFold_frame env opts cls orig l2 _ hl2, getProp_setProp_same]
    · exact exportFold_keys_mono env opts cls orig l2 _
        (self_mem_keys_setProp acc (toSnakeCaseKey k) _)
  | cons p l1' ih =>
    obtain ⟨k0, v0⟩ := p
    intro l2 acc hl2 hskip
    rw [List.cons_append, exportFold_cons]
    by_cases h0 : exportSkip opts cls orig k0 v0 = true
    · rw [if_pos h0]
      exact ih l2 acc hl2 hskip
    · rw [if_neg h0]
      exact ih l2 _ hl2 hskip

theorem exportFold_absent (env : Env) (opts : ExportOptions) (cls : ClassDef) (orig : Val)
    {k : String} :
    ∀ (l acc : List (String × Val)),
      (∀ p ∈ l, p.1 = k ∨ toSnakeCaseKey p.1 ≠ toSnakeCaseKey k) →
      (∀ v', (k, v') ∈ l → exportSkip opts cls orig k v' = true) →
      toSnakeCaseKey k ∉ acc.map Prod.fst →
      toSnakeCaseKey k ∉ (exportFold env opts cls orig l acc).map Prod.fst := by
  intro l
  induction l with
  | nil => intro acc _ _ hacc; exact hacc
  | cons p rest ih =>
    obtain ⟨k0, v0⟩ := p
    intro acc hall hskipk hacc
    have hallrest : ∀ p ∈ rest, p.1 = k ∨ toSnakeCaseKey p.1 ≠ toSnakeCaseKey k :=
      fun p hp => hall p (List.mem_cons_of_mem _ hp)
    have hskiprest : ∀ v', (k, v') ∈ rest → exportSkip opts cls orig k v' = true :=
      fun v' hv' => hskipk v' (List.mem_cons_of_mem _ hv')
    rw [exportFold_cons]
    by_cases hk0 : k0 = k
    · subst hk0
      rw [if_pos (hskipk v0 (List.mem_cons_self _ _))]
      exact ih _ hallrest hskiprest hacc
    · have hne : toSnakeCaseKey k0 ≠ toSnakeCaseKey k := by
        rcases hall (k0, v0) (List.mem_cons_self _ _) with he | hne
        · exact absurd he hk0
        · exact hne
      by_cases h0 : exportSkip opts cls orig k0 v0 = true
      · rw [if_pos h0]
        exact ih _ hallrest hskiprest hacc
      · rw [if_neg h0]
        exact ih _ hallrest hskiprest
          (not_mem_keys_setProp acc _ (fun he => hne he.symm) hacc)

/-- C1 counterexample: `toJson` on the test-suite `User` instance returns a
value that still contains live `Model` instances (the `Post` elements of the
array-valued `posts` field are passed through untouched), contradicting the
claim that every model — including array elements — is replaced by its
recursive export. -/
theorem c1_counterexample :
    containsModelV (toJsonV testEnv noOptions theUser) = true := rfl

/-- C1 amended: `toJson` replaces only a field value that is itself directly a
model instance by its recursive export with the same options; every other
field value (arrays with model elements included) is converted by
`toSnakeCase`, which returns any model instance unchanged, so such instances
survive in the output live. Stated for any non-skipped field whose snake-cased
name is not shadowed by a later field. -/
theorem c1_export_replaces_only_direct_models (env : Env) (opts : ExportOptions)
    (i : Nat) (c : String) (props l1 l2 : List (String × Val)) (k : String) (v : Val)
    (hsplit : props = l1 ++ (k, v) :: l2)
    (hdist : ∀ p ∈ l2, toSnakeCaseKey p.1 ≠ toSnakeCaseKey k)
    (h1 : startsUnderscore k = false)
    (h2 : (lookupClass env c).excl.contains k = false)
    (h3 : skipByGroup opts (lookupClass env c) k = false)
    (h4 : skipByUnchanged opts (getProp props "_originalState") k v = false) :
    getProp (propsOf (toJsonV env opts (.vmodel i c props))) (toSnakeCaseKey k)
        = (if isModelV v then toJsonV env opts v else toSnakeCaseV v)
      ∧ ∀ (j : Nat) (cm : String) (pm : List (String × Val)),
          toSnakeCaseV (.vmodel j cm pm) = .vmodel j cm pm := by
  subst hsplit
  constructor
  · have hskip : exportSkip opts (lookupClass env c)
        (getProp (l1 ++ (k, v) :: l2) "_originalState") k v = false := by
      unfold exportSkip
      rw [h1, h2, h3, h4]
      rfl
    have h := exportFold_assign env opts (lookupClass env c)
      (getProp (l1 ++ (k, v) :: l2) "_originalState") l1 l2 [] hdist hskip
    exact h.1
  · intro j cm pm
    rfl

def c1wInst : Val := .vmodel 8 "User" [("posts", .varr [.vmodel 9 "Post" [("title", .vstr "t")]])]

/-- Witness for the C1 amended theorem: an array-valued field's export is the
`toSnakeCase` image of the array, in which the `Post` element survives as a
live model. -/
theorem c1_export_replaces_only_direct_models_witness :
    getProp (propsOf (toJsonV testEnv noOptions c1wInst)) "posts"
      = .varr [.vmodel 9 "Post" [("title", .vstr "t")]] := by
  have h := c1_export_replaces_only_direct_models testEnv noOptions 8 "User"
    [("posts", .varr [.vmodel 9 "Post" [("title", .vstr "t")]])] [] []
    "posts" (.varr [.vmodel 9 "Post" [("title", .vstr "t")]])
    rfl (by simp) rfl rfl rfl rfl
  exact h.1.trans rfl

theorem skipByGroup_some {cls : ClassDef} {k g : String} {gs : List String}
    (hg : (g == "") = false) (hgs : lookupA cls.expose k = some gs) :
    skipByGroup ⟨some g, false⟩ cls k = !(gs.contains g) := by
  show (if (g == "") = true then false
        else match lookupA cls.expose k with
          | none => false
          | some gs => !gs.contains g) = !gs.contains g
  rw [if_neg (by simp [hg]), hgs]

theorem skipByGroup_noexpose {cls : ClassDef} {k g : String}
    (hg : (g == "") = false) (hnone : lookupA cls.expose k = none) :
    skipByGroup ⟨some g, false⟩ cls k = false := by
  show (if (g == "") = true then false
        else match lookupA cls.expose k with
          | none => false
          | some gs => !gs.contains g) = false
  rw [if_neg (by simp [hg]), hnone]

/-- C6 counterexample: the `isAdmin` field carries `exposureGroups = {"admin"}`
yet IS present in `toJson({})` when no group is requested — the group filter
of the code only fires when a group is passed. -/
theorem c6_counterexample :
    getProp (propsOf (toJsonV testEnv noOptions theUser)) "is_admin" = .vbool true := rfl

/-- C6 amended: a field with `exposureGroups = {"admin"}` appears in
`toJson({group:"admin"})` and is absent from `toJson({group:"user"})`, but it
also appears in `toJson({})` — with no requested group the filter never fires.
Moreover a field is emitted unconditionally only when it has NO `@Expose`
registration at all; a field registered with an empty group list is dropped
under every requested non-empty group (an empty array is truthy), though it is
still emitted when no group is requested. -/
theorem c6_group_filter_characterization (env : Env) (i : Nat) (c : String)
    (props l1 l2 : List (String × Val)) (k : String) (v : Val)
    (hsplit : props = l1 ++ (k, v) :: l2)
    (hdist2 : ∀ p ∈ l2, toSnakeCaseKey p.1 ≠ toSnakeCaseKey k)
    (h1 : startsUnderscore k = false)
    (h2 : (lookupClass env c).excl.contains k = false) :
    (∀ g gs, lookupA (lookupClass env c).expose k = some gs → (g == "") = false →
        gs.contains g = true →
        getProp (propsOf (toJsonV env ⟨some g, false⟩ (.vmodel i c props))) (toSnakeCaseKey k)
          = (if isModelV v then toJsonV env ⟨some g, false⟩ v else toSnakeCaseV v))
    ∧ (∀ g gs, lookupA (lookupClass env c).expose k = some gs → (g == "") = false →
        gs.contains g = false →
        (∀ p ∈ l1, p.1 = k ∨ toSnakeCaseKey p.1 ≠ toSnakeCaseKey k) →
        toSnakeCaseKey k
          ∉ (propsOf (toJsonV env ⟨some g, false⟩ (.vmodel i c props))).map Prod.fst)
    ∧ (getProp (propsOf (toJsonV env noOptions (.vmodel i c props))) (toSnakeCaseKey k)
        = (if isModelV v then toJsonV env noOptions v else toSnakeCaseV v))
    ∧ (∀ g, (g == "") = false → lookupA (lookupClass env c).expose k = none →
        getProp (propsOf (toJsonV env ⟨some g, false⟩ (.vmodel i c props))) (toSnakeCaseKey k)
          = (if isModelV v then toJsonV env ⟨some g, false⟩ v else toSnakeCaseV v)) := by
  subst hsplit
  refine ⟨?_, ?_, ?_, ?_⟩
  · intro g gs hgs hg hmem
    have hskip : exportSkip ⟨some g, false⟩ (lookupClass env c)
        (getProp (l1 ++ (k, v) :: l2) "_originalState") k v = false := by
      unfold exportSkip
      rw [h1, h2, skipByGroup_some hg hgs, hmem]
      rfl
    exact (exportFold_assign env _ _ _ l1 l2 [] hdist2 hskip).1
  · intro g gs hgs hg hmem hl1
    have hskipk : ∀ v', (k, v') ∈ l1 ++ (k, v) :: l2 →
        exportSkip ⟨some g, false⟩ (lookupClass env c)
          (getProp (l1 ++ (k, v) :: l2) "_originalState") k v' = true := by
      intro v' _
      unfold exportSkip
      rw [skipByGroup_some hg hgs, hmem]
      simp
    have hall : ∀ p ∈ l1 ++ (k, v) :: l2,
        p.1 = k ∨ toSnakeCaseKey p.1 ≠ toSnakeCaseKey k := by
      intro p hp
      rcases List.mem_append.mp hp with hp1 | hp2
      · exact hl1 p hp1
      · rcases List.mem_cons.mp hp2 with he | hp3
        · left
          rw [he]
        · right
          exact hdist2 p hp3
    exact exportFold_absent env _ _ _ _ [] hall hskipk (by simp)
  · have hskip : exportSkip noOptions (lookupClass env c)
        (getProp (l1 ++ (k, v) :: l2) "_originalState") k v = false := by
      unfold exportSkip
      rw [h1, h2, show skipByGroup noOptions (lookupClass env c) k = false from rfl]
      rfl
    exact (exportFold_assign env _ _ _ l1 l2 [] hdist2 hskip).1
  · intro g hg hnone
    have hskip : exportSkip ⟨some g, false⟩ (lookupClass env c)
        (getProp (l1 ++ (k, v) :: l2) "_originalState") k v = false := by
      unfold exportSkip
      rw [h1, h2, skipByGroup_noexpose hg hnone]
      rfl
    exact (exportFold_assign env _ _ _ l1 l2 [] hdist2 hskip).1

/-- Witness for the C6 amended theorem on the `isAdmin` field of `User`:
present under group `admin`, absent under group `user`, present with no
group. -/
theorem c6_group_filter_characterization_witness :
    getProp (propsOf (toJsonV testEnv ⟨some "admin", false⟩
        (.vmodel 0 "User" [("isAdmin", .vbool true)]))) "is_admin" = .vbool true
      ∧ "is_admin" ∉ (propsOf (toJsonV testEnv ⟨some "user", false⟩
          (.vmodel 0 "User" [("isAdmin", .vbool true)]))).map Prod.fst
      ∧ getProp (propsOf (toJsonV testEnv noOptions
          (.vmodel 0 "User" [("isAdmin", .vbool true)]))) "is_admin" = .vbool true := by
  have h := c6_group_filter_characterization testEnv 0 "User"
    [("isAdmin", .vbool true)] [] [] "isAdmin" (.vbool true)
    rfl (by simp) rfl rfl
  exact ⟨h.1 "admin" ["admin"] rfl rfl rfl,
    h.2.1 "user" ["admin"] rfl rfl rfl (by simp),
    h.2.2.1⟩

/-! ## Claim C10

The read-only skip in `applyJson` happens before the transform lookup, so a
transform attached to a read-only field can never be invoked, by any import.
This is expressed observationally: two environments that agree everywhere
except possibly in the transform functions attached to read-only keys are
indistinguishable to the whole import pipeline. -/

/-- Class metadata agreement: everything equal except that transforms need only
agree at keys that are not read-only. -/
def ClsAgree (d1 d2 : ClassDef) : Prop :=
  d1.inits = d2.inits ∧ d1.types = d2.types ∧ d1.excl = d2.excl ∧ d1.ro = d2.ro
    ∧ d1.expose = d2.expose ∧ d1.dfl = d2.dfl
    ∧ ∀ k, d1.ro.contains k = false → lookupA d1.transforms k = lookupA d2.transforms k

def EnvAgree : Env → Env → Prop
  | [], [] => True
  | (c1, d1) :: t1, (c2, d2) :: t2 => c1 = c2 ∧ ClsAgree d1 d2 ∧ EnvAgree t1 t2
  | _, _ => False

theorem clsAgree_refl (d : ClassDef) : ClsAgree d d :=
  ⟨rfl, rfl, rfl, rfl, rfl, rfl, fun _ _ => rfl⟩

theorem lookupClass_agree :
    ∀ {e1 e2 : Env}, EnvAgree e1 e2 → ∀ c, ClsAgree (lookupClass e1 c) (lookupClass e2 c) := by
  intro e1
  induction e1 with
  | nil =>
    intro e2 h c
    cases e2 with
    | nil => exact clsAgree_refl _
    | cons p t => exact absurd h (by simp [EnvAgree])
  | cons p t1 ih =>
    intro e2 h c
    obtain ⟨c1, d1⟩ := p
    cases e2 with
    | nil => exact absurd h (by simp [EnvAgree])
    | cons q t2 =>
      obtain ⟨c2, d2⟩ := q
      obtain ⟨hc, hd, ht⟩ := h
      subst hc
      show ClsAgree (if c1 == c then d1 else lookupClass t1 c)
        (if c1 == c then d2 else lookupClass t2 c)
      by_cases hb : (c1 == c) = true
      · rw [if_pos hb, if_pos hb]
        exact hd
      · rw [if_neg hb, if_neg hb]
        exact ih ht c

theorem skipByGroup_congr (opts : ExportOptions) {cls1 cls2 : ClassDef}
    (h : cls1.expose = cls2.expose) (k : String) :
    skipByGroup opts cls1 k = skipByGroup opts cls2 k := by
  unfold skipByGroup
  rw [h]

mutual
theorem toJsonV_agree {e1 e2 : Env} (h : EnvAgree e1 e2) :
    ∀ (v : Val) (opts : ExportOptions), toJsonV e1 opts v = toJsonV e2 opts v
  | .vmodel i c props, opts => by
    have hc := lookupClass_agree h c
    show Val.vobj (exportFold e1 opts (lookupClass e1 c)
        (getProp props "_originalState") props [])
      = Val.vobj (exportFold e2 opts (lookupClass e2 c)
        (getProp props "_originalState") props [])
    rw [exportFold_agree h props opts (lookupClass e1 c) (lookupClass e2 c)
      (getProp props "_originalState") [] hc.2.2.1 hc.2.2.2.2.1]
  | .undef, _ => rfl
  | .vnull, _ => rfl
  | .vbool _, _ => rfl
  | .vnum _, _ => rfl
  | .vstr _, _ => rfl
  | .varr _, _ => rfl
  | .vobj _, _ => rfl

theorem exportFold_agree {e1 e2 : Env} (h : EnvAgree e1 e2) :
    ∀ (l : List (String × Val)) (opts : ExportOptions) (cls1 cls2 : ClassDef) (orig : Val)
      (acc : List (String × Val)),
      cls1.excl = cls2.excl → cls1.expose = cls2.expose →
      exportFold e1 opts cls1 orig l acc = exportFold e2 opts cls2 orig l acc
  | [], _, _, _, _, _, _, _ => rfl
  | (k, v) :: rest, opts, cls1, cls2, orig, acc, hexcl, hexpose => by
    rw [exportFold_cons, exportFold_cons]
    have hskip : exportSkip opts cls1 orig k v = exportSkip opts cls2 orig k v := by
      unfold exportSkip
      rw [hexcl, skipByGroup_congr opts hexpose k]
    rw [hskip]
    by_cases hs : exportSkip opts cls2 orig k v = true
    · rw [if_pos hs, if_pos hs,
        exportFold_agree h rest opts cls1 cls2 orig acc hexcl hexpose]
    · rw [if_neg hs, if_neg hs]
      by_cases hm : isModelV v = true
      · rw [if_pos hm, if_pos hm, toJsonV_agree h v opts,
          exportFold_agree h rest opts cls1 cls2 orig _ hexcl hexpose]
      · rw [if_neg hm, if_neg hm,
          exportFold_agree h rest opts cls1 cls2 orig _ hexcl hexpose]
end

theorem engine_agree {e1 e2 : Env} (h : EnvAgree e1 e2) :
    ∀ fuel : Nat,
      (∀ cname json skip σ,
        fromJsonF e1 fuel cname json skip σ = fromJsonF e2 fuel cname json skip σ)
      ∧ (∀ inst json σ, applyJsonF e1 fuel inst json σ = applyJsonF e2 fuel inst json σ)
      ∧ (∀ cls1 cls2 inst entries σ, ClsAgree cls1 cls2 →
          applyEntriesF e1 fuel cls1 inst entries σ = applyEntriesF e2 fuel cls2 inst entries σ)
      ∧ (∀ tname l σ, coerceArrF e1 fuel tname l σ = coerceArrF e2 fuel tname l σ) := by
  intro fuel
  induction fuel with
  | zero =>
    exact ⟨fun _ _ _ _ => rfl, fun _ _ _ => rfl, fun _ _ _ _ _ _ => rfl, fun _ _ _ => rfl⟩
  | succ fuel ih =>
    obtain ⟨ihF, ihA, ihE, ihC⟩ := ih
    have hTJ : ∀ (v : Val) (opts : ExportOptions), toJsonV e1 opts v = toJsonV e2 opts v :=
      toJsonV_agree h
    refine ⟨?_, ?_, ?_, ?_⟩
    · intro cname json skip σ
      have hc := lookupClass_agree h cname
      have h1 : (lookupClass e1 cname).inits = (lookupClass e2 cname).inits := hc.1
      have h2 : (lookupClass e1 cname).dfl = (lookupClass e2 cname).dfl := hc.2.2.2.2.2.1
      simp only [fromJsonF, h1, h2, ihA, ihF, hTJ]
    · intro inst json σ
      simp only [applyJsonF]
      by_cases hf : isFalsy json = true
      · rw [if_pos hf, if_pos hf]
      · rw [if_neg hf, if_neg hf]
        exact ihE _ _ _ _ _ (lookupClass_agree h _)
    · intro cls1 cls2 inst entries σ hcls
      have ihE' : ∀ inst entries σ,
          applyEntriesF e1 fuel cls1 inst entries σ = applyEntriesF e2 fuel cls2 inst entries σ :=
        fun i en s => ihE cls1 cls2 i en s hcls
      cases entries with
      | nil => rfl
      | cons e0 rest =>
        obtain ⟨k, rawv⟩ := e0
        show (if cls1.ro.contains k then applyEntriesF e1 fuel cls1 inst rest σ
              else
                match lookupA cls1.types k with
                | some tname =>
                  if isArrV (transformApply cls1 k rawv) then
                    match coerceArrF e1 fuel tname (arrOf (transformApply cls1 k rawv)) σ with
                    | none => none
                    | some (l', σ') =>
                      applyEntriesF e1 fuel cls1 (setPropM inst k (.varr l')) rest σ'
                  else
                    if isInst (transformApply cls1 k rawv) tname then
                      applyEntriesF e1 fuel cls1
                        (setPropM inst k (transformApply cls1 k rawv)) rest σ
                    else
                      match fromJsonF e1 fuel tname (transformApply cls1 k rawv) false σ with
                      | none => none
                      | some (nv, σ') =>
                        applyEntriesF e1 fuel cls1 (setPropM inst k nv) rest σ'
                | none =>
                  applyEntriesF e1 fuel cls1
                    (setPropM inst k (transformApply cls1 k rawv)) rest σ)
          = (if cls2.ro.contains k then applyEntriesF e2 fuel cls2 inst rest σ
              else
                match lookupA cls2.types k with
                | some tname =>
                  if isArrV (transformApply cls2 k rawv) then
                    match coerceArrF e2 fuel tname (arrOf (transformApply cls2 k rawv)) σ with
                    | none => none
                    | some (l', σ') =>
                      applyEntriesF e2 fuel cls2 (setPropM inst k (.varr l')) rest σ'
                  else
                    if isInst (transformApply cls2 k rawv) tname then
                      applyEntriesF e2 fuel cls2
                        (setPropM inst k (transformApply cls2 k rawv)) rest σ
                    else
                      match fromJsonF e2 fuel tname (transformApply cls2 k rawv) false σ with
                      | none => none
                      | some (nv, σ') =>
                        applyEntriesF e2 fuel cls2 (setPropM inst k nv) rest σ'
                | none =>
                  applyEntriesF e2 fuel cls2
                    (setPropM inst k (transformApply cls2 k rawv)) rest σ)
        rw [hcls.2.2.2.1]
        by_cases hro : cls2.ro.contains k = true
        · rw [if_pos hro, if_pos hro, ihE']
        · rw [if_neg hro, if_neg hro]
          have htr : transformApply cls1 k rawv = transformApply cls2 k rawv := by
            unfold transformApply
            rw [hcls.2.2.2.2.2.2 k
              (by rw [hcls.2.2.2.1]; exact Bool.eq_false_iff.mpr hro)]
          rw [htr, hcls.2.1]
          simp only [ihE', ihC, ihF]
    · intro tname l σ
      cases l with
      | nil => rfl
      | cons v t => simp only [coerceArrF, ihF, ihC]

/-- C10: in `applyJson` the read-only skip happens before transform
application, so a transform attached to a read-only field is never invoked by
any import, the initial `fromJson` construction import included. Stated
observationally: two environments agreeing everywhere except possibly in the
transform functions attached to read-only keys produce identical results for
`fromJson` and `applyJson` (on all inputs, fuels and allocation counters). -/
theorem c10_transform_never_invoked_on_readonly (e1 e2 : Env) (hagree : EnvAgree e1 e2)
    (fuel : Nat) :
    (∀ cname json skip σ,
        fromJsonF e1 fuel cname json skip σ = fromJsonF e2 fuel cname json skip σ)
    ∧ (∀ inst json σ, applyJsonF e1 fuel inst json σ = applyJsonF e2 fuel inst json σ) :=
  ⟨(engine_agree hagree fuel).1, (engine_agree hagree fuel).2.1⟩

def c10aCls : ClassDef :=
  ⟨[("x", .vnum 7)], [], [], [("x", fun _ => .vnum 111)], ["x"], [], []⟩

def c10bCls : ClassDef :=
  ⟨[("x", .vnum 7)], [], [], [("x", fun _ => .vnum 222)], ["x"], [], []⟩

/-- Witness for C10: two single-class environments whose only difference is the
transform attached to the read-only field `x` yield the same `fromJson`
result. -/
theorem c10_transform_never_invoked_on_readonly_witness :
    fromJsonF [("R", c10aCls)] 20 "R" (.vobj [("x", .vnum 0)]) false 0
      = fromJsonF [("R", c10bCls)] 20 "R" (.vobj [("x", .vnum 0)]) false 0 := by
  have hagree : EnvAgree [("R", c10aCls)] [("R", c10bCls)] := by
    refine ⟨rfl, ⟨rfl, rfl, rfl, rfl, rfl, rfl, ?_⟩, trivial⟩
    intro k hk
    by_cases hx : ("x" == k) = true
    · have hkx : k = "x" := (beq_iff_eq.mp hx).symm
      subst hkx
      exact absurd hk (by decide)
    · simp [c10aCls, c10bCls, lookupA, hx]
  exact (c10_transform_never_invoked_on_readonly [("R", c10aCls)] [("R", c10bCls)]
    hagree 20).1 "R" (.vobj [("x", .vnum 0)]) false 0

/-! ## Claim C4 -/

/-- C4 counterexample: immediately after construction, `getChangesSince()` on
the test-suite `User` instance is NOT the empty mapping — `diff` (which skips
nothing) reports the excluded `password` field (the snapshot, a re-import of
the export, lost it and fell back to the initializer) and the `_originalState`
member itself (the snapshot has no snapshot of its own). -/
theorem c4_counterexample :
    (getChangesSinceV theUser).map Prod.fst = ["password", "_originalState"] := rfl

/-! ## Claim C8 -/

def c8Cls : ClassDef :=
  ⟨[("x", .vnum 0)], [], [],
   [("x", fun v => match v with | .vnum n => .vnum (n + 1) | w => w)], [], [], []⟩

def c8Env : Env := [("X", c8Cls)]

def c8a : Val :=
  ((fromJsonF c8Env 20 "X" (.vobj [("x", .vnum 0)]) false 0).map Prod.fst).getD ( .undef)

def c8clone : Val := ((cloneF c8Env 20 c8a 10).map Prod.fst).getD ( .undef)

/-- C8 counterexample: with a `@Transform` on field `x`, `clone()` re-applies
the transform to the exported value, so `a.isEqual(a.clone())` is false
immediately after cloning: the original holds `x = 1` (transform of the input
`0`), the clone `x = 2` (transform of the export `1`). -/
theorem c8_counterexample :
    isEqualV c8Env c8a c8clone = false
      ∧ getProp (propsOf c8a) "x" = .vnum 1
      ∧ getProp (propsOf c8clone) "x" = .vnum 2 :=
  ⟨rfl, rfl, rfl⟩

/-! ### Key-normalized values and conversion round-trips

A value is camel-normalized when every plain-object key in it is free of
underscore-lowercase pairs and every plain object has distinct keys; it is
snake-normalized when every such key is uppercase-free. Model instances are
opaque to the structural key conversions, so both predicates treat them as
atoms. Camel-normalized values are exactly the fixed points of `toCamelCase`;
on them `toCamelCase ∘ toSnakeCase` is the identity, and dually. -/

theorem camel_inj_of_noUpper {k1 k2 : List Char} (h1 : noUpper k1 = true)
    (h2 : noUpper k2 = true) (h : toCamelCaseKeyL k1 = toCamelCaseKeyL k2) : k1 = k2 := by
  have := congrArg toSnakeCaseKeyL h
  rwa [snake_camel_of_noUpper k1 h1, snake_camel_of_noUpper k2 h2] at this

theorem snake_inj_of_noUnderLower {k1 k2 : List Char} (h1 : noUnderLower k1 = true)
    (h2 : noUnderLower k2 = true) (h : toSnakeCaseKeyL k1 = toSnakeCaseKeyL k2) : k1 = k2 := by
  have := congrArg toCamelCaseKeyL h
  rwa [camel_snake_of_noUnderLower k1 h1, camel_snake_of_noUnderLower k2 h2] at this

theorem toCamelCaseKey_inj {k1 k2 : String} (h1 : noUpper k1.data = true)
    (h2 : noUpper k2.data = true) (h : toCamelCaseKey k1 = toCamelCaseKey k2) : k1 = k2 := by
  cases k1
  cases k2
  exact congrArg String.mk (camel_inj_of_noUpper h1 h2 (congrArg String.data h))

theorem toSnakeCaseKey_inj {k1 k2 : String} (h1 : noUnderLower k1.data = true)
    (h2 : noUnderLower k2.data = true) (h : toSnakeCaseKey k1 = toSnakeCaseKey k2) : k1 = k2 := by
  cases k1
  cases k2
  exact congrArg String.mk (snake_inj_of_noUnderLower h1 h2 (congrArg String.data h))

def goodKeysCamel (ks : List String) : Bool :=
  ks.all (fun k => noUnderLower k.data) && decide ks.Nodup

def goodKeysSnake (ks : List String) : Bool :=
  ks.all (fun k => noUpper k.data) && decide ks.Nodup

mutual
def camelNormV : Val → Bool
  | .varr l => camelNormA l
  | .vobj fs => goodKeysCamel (fs.map Prod.fst) && camelNormF fs
  | _ => true

def camelNormA : List Val → Bool
  | [] => true
  | v :: t => camelNormV v && camelNormA t

def camelNormF : List (String × Val) → Bool
  | [] => true
  | (_, v) :: t => camelNormV v && camelNormF t
end

mutual
def snakeNormV : Val → Bool
  | .varr l => snakeNormA l
  | .vobj fs => goodKeysSnake (fs.map Prod.fst) && snakeNormF fs
  | _ => true

def snakeNormA : List Val → Bool
  | [] => true
  | v :: t => snakeNormV v && snakeNormA t

def snakeNormF : List (String × Val) → Bool
  | [] => true
  | (_, v) :: t => snakeNormV v && snakeNormF t
end

/-! ### `Object.fromEntries` and assignment-list facts -/

theorem setProp_append (props : List (String × Val)) {k : String} (v : Val)
    (h : k ∉ props.map Prod.fst) : setProp props k v = props ++ [(k, v)] := by
  induction props with
  | nil => rfl
  | cons p t ih =>
    obtain ⟨k0, v0⟩ := p
    rw [List.map_cons] at h
    have h0 : (k0 == k) = false :=
      beq_eq_false_iff_ne.mpr (fun he => h (List.mem_cons.mpr (Or.inl he.symm)))
    rw [setProp, if_neg (by simp [h0]), ih (fun hm => h (List.mem_cons.mpr (Or.inr hm)))]
    rfl

theorem keys_setProp_mem (props : List (String × Val)) (k : String) (v : Val)
    (h : k ∈ props.map Prod.fst) : (setProp props k v).map Prod.fst = props.map Prod.fst := by
  induction props with
  | nil => simp at h
  | cons p t ih =>
    obtain ⟨k0, v0⟩ := p
    rw [setProp]
    by_cases h0 : (k0 == k) = true
    · rw [if_pos h0]
      rfl
    · rw [Bool.not_eq_true] at h0
      rw [List.map_cons] at h
      rcases List.mem_cons.mp h with he | hm
      · exact absurd (beq_iff_eq.mpr he.symm) (by simp [h0])
      · rw [if_neg (by simp [h0]), List.map_cons, List.map_cons, ih hm]

theorem mem_setProp {p : String × Val} (props : List (String × Val)) (k : String) (v : Val)
    (h : p ∈ setProp props k v) : p ∈ props ∨ p = (k, v) := by
  induction props with
  | nil => simpa [setProp] using h
  | cons q t ih =>
    obtain ⟨k0, v0⟩ := q
    rw [setProp] at h
    by_cases h0 : (k0 == k) = true
    · rw [if_pos h0] at h
      rcases List.mem_cons.mp h with he | hm
      · right
        rw [he, beq_iff_eq.mp h0]
      · left
        exact List.mem_cons.mpr (Or.inr hm)
    · rw [Bool.not_eq_true] at h0
      rw [if_neg (by simp [h0])] at h
      rcases List.mem_cons.mp h with he | hm
      · left
        exact List.mem_cons.mpr (Or.inl he)
      · rcases ih hm with hm' | he
        · left
          exact List.mem_cons.mpr (Or.inr hm')
        · right
          exact he

theorem mem_assignAll {p : String × Val} :
    ∀ (ps acc : List (String × Val)), p ∈ assignAll acc ps → p ∈ acc ∨ p ∈ ps := by
  intro ps
  induction ps with
  | nil => intro acc h; exact Or.inl h
  | cons q t ih =>
    obtain ⟨k, v⟩ := q
    intro acc h
    rcases ih (setProp acc k v) h with hm | hm
    · rcases mem_setProp acc k v hm with hm' | he
      · exact Or.inl hm'
      · exact Or.inr (List.mem_cons.mpr (Or.inl he))
    · exact Or.inr (List.mem_cons.mpr (Or.inr hm))

theorem mem_fromEntries {p : String × Val} (l : List (String × Val))
    (h : p ∈ fromEntries l) : p ∈ l := by
  rcases mem_assignAll l [] h with hm | hm
  · simp at hm
  · exact hm

theorem nodup_keys_setProp (props : List (String × Val)) (k : String) (v : Val)
    (h : (props.map Prod.fst).Nodup) : ((setProp props k v).map Prod.fst).Nodup := by
  by_cases hm : k ∈ props.map Prod.fst
  · rwa [keys_setProp_mem props k v hm]
  · rw [setProp_append props v hm]
    simp only [List.map_append, List.map_cons, List.map_nil]
    rw [List.nodup_append]
    refine ⟨h, List.nodup_singleton k, ?_⟩
    intro a ha hk
    rw [List.mem_singleton] at hk
    exact hm (hk ▸ ha)

theorem nodup_keys_assignAll :
    ∀ (ps acc : List (String × Val)), (acc.map Prod.fst).Nodup →
      ((assignAll acc ps).map Prod.fst).Nodup := by
  intro ps
  induction ps with
  | nil => intro acc h; exact h
  | cons q t ih =>
    obtain ⟨k, v⟩ := q
    intro acc h
    exact ih _ (nodup_keys_setProp acc k v h)

theorem nodup_keys_fromEntries (l : List (String × Val)) :
    ((fromEntries l).map Prod.fst).Nodup :=
  nodup_keys_assignAll l [] List.nodup_nil

theorem assignAll_disjoint :
    ∀ (ps acc : List (String × Val)),
      (∀ k ∈ ps.map Prod.fst, k ∉ acc.map Prod.fst) →
      (ps.map Prod.fst).Nodup →
      assignAll acc ps = acc ++ ps := by
  intro ps
  induction ps with
  | nil => intro acc _ _; simp [assignAll]
  | cons q t ih =>
    obtain ⟨k, v⟩ := q
    intro acc hdisj hnd
    rw [List.map_cons] at hdisj
    rw [List.map_cons, List.nodup_cons] at hnd
    rw [show assignAll acc ((k, v) :: t) = assignAll (setProp acc k v) t from rfl,
      setProp_append acc v (hdisj k (List.mem_cons_self _ _))]
    rw [ih (acc ++ [(k, v)]) ?_ hnd.2]
    · simp
    · intro k' hk'
      simp only [List.map_append, List.map_cons, List.map_nil]
      rw [List.mem_append]
      rintro (hm | hm)
      · exact hdisj k' (List.mem_cons_of_mem _ hk') hm
      · simp at hm
        exact hnd.1 (hm ▸ hk')

theorem fromEntries_of_nodup (l : List (String × Val)) (h : (l.map Prod.fst).Nodup) :
    fromEntries l = l := by
  rw [fromEntries, assignAll_disjoint l [] (by simp) h]
  rfl

theorem toCamelCaseF_eq_map (fs : List (String × Val)) :
    toCamelCaseF fs = fs.map (fun p => (toCamelCaseKey p.1, toCamelCaseV p.2)) := by
  induction fs with
  | nil => rfl
  | cons p t ih => obtain ⟨k, v⟩ := p; rw [toCamelCaseF, ih]; rfl

theorem toSnakeCaseF_eq_map (fs : List (String × Val)) :
    toSnakeCaseF fs = fs.map (fun p => (toSnakeCaseKey p.1, toSnakeCaseV p.2)) := by
  induction fs with
  | nil => rfl
  | cons p t ih => obtain ⟨k, v⟩ := p; rw [toSnakeCaseF, ih]; rfl

theorem toCamelCaseA_eq_map (l : List Val) : toCamelCaseA l = l.map toCamelCaseV := by
  induction l with
  | nil => rfl
  | cons v t ih => rw [toCamelCaseA, ih]; rfl

theorem toSnakeCaseA_eq_map (l : List Val) : toSnakeCaseA l = l.map toSnakeCaseV := by
  induction l with
  | nil => rfl
  | cons v t ih => rw [toSnakeCaseA, ih]; rfl

theorem camelNormF_all (fs : List (String × Val)) :
    camelNormF fs = true ↔ ∀ p ∈ fs, camelNormV p.2 = true := by
  induction fs with
  | nil => simp [camelNormF]
  | cons p t ih =>
    obtain ⟨k, v⟩ := p
    rw [show camelNormF ((k, v) :: t) = (camelNormV v && camelNormF t) from rfl,
      Bool.and_eq_true, ih]
    constructor
    · rintro ⟨h1, h2⟩ q hq
      rcases List.mem_cons.mp hq with he | hm
      · rw [he]; exact h1
      · exact h2 q hm
    · intro h
      exact ⟨h (k, v) (List.mem_cons_self _ _), fun q hq => h q (List.mem_cons_of_mem _ hq)⟩

theorem snakeNormF_all (fs : List (String × Val)) :
    snakeNormF fs = true ↔ ∀ p ∈ fs, snakeNormV p.2 = true := by
  induction fs with
  | nil => simp [snakeNormF]
  | cons p t ih =>
    obtain ⟨k, v⟩ := p
    rw [show snakeNormF ((k, v) :: t) = (snakeNormV v && snakeNormF t) from rfl,
      Bool.and_eq_true, ih]
    constructor
    · rintro ⟨h1, h2⟩ q hq
      rcases List.mem_cons.mp hq with he | hm
      · rw [he]; exact h1
      · exact h2 q hm
    · intro h
      exact ⟨h (k, v) (List.mem_cons_self _ _), fun q hq => h q (List.mem_cons_of_mem _ hq)⟩

mutual
theorem camelNorm_camelV : ∀ v : Val, camelNormV (toCamelCaseV v) = true
  | .undef => rfl
  | .vnull => rfl
  | .vbool _ => rfl
  | .vnum _ => rfl
  | .vstr _ => rfl
  | .vmodel _ _ _ => rfl
  | .varr l => by
    show camelNormA (toCamelCaseA l) = true
    exact camelNorm_camelA l
  | .vobj fs => by
    show (goodKeysCamel ((fromEntries (toCamelCaseF fs)).map Prod.fst)
        && camelNormF (fromEntries (toCamelCaseF fs))) = true
    rw [Bool.and_eq_true]
    constructor
    · rw [goodKeysCamel, Bool.and_eq_true]
      constructor
      · rw [List.all_eq_true]
        intro k hk
        obtain ⟨p, hp, hpk⟩ := List.mem_map.mp hk
        have hp' := mem_fromEntries _ hp
        rw [toCamelCaseF_eq_map] at hp'
        obtain ⟨q, _, hqe⟩ := List.mem_map.mp hp'
        rw [← hpk, ← hqe]
        exact noUnderLower_camel q.1.data
      · exact decide_eq_true (nodup_keys_fromEntries _)
    · rw [camelNormF_all]
      intro p hp
      exact (camelNormF_all _).mp (camelNorm_camelF fs) p (mem_fromEntries _ hp)

theorem camelNorm_camelA : ∀ l : List Val, camelNormA (toCamelCaseA l) = true
  | [] => rfl
  | v :: t => by
    show (camelNormV (toCamelCaseV v) && camelNormA (toCamelCaseA t)) = true
    rw [camelNorm_camelV v, camelNorm_camelA t]
    rfl

theorem camelNorm_camelF : ∀ fs : List (String × Val), camelNormF (toCamelCaseF fs) = true
  | [] => rfl
  | (k, v) :: t => by
    show (camelNormV (toCamelCaseV v) && camelNormF (toCamelCaseF t)) = true
    rw [camelNorm_camelV v, camelNorm_camelF t]
    rfl
end

mutual
theorem snakeNorm_snakeV : ∀ v : Val, snakeNormV (toSnakeCaseV v) = true
  | .undef => rfl
  | .vnull => rfl
  | .vbool _ => rfl
  | .vnum _ => rfl
  | .vstr _ => rfl
  | .vmodel _ _ _ => rfl
  | .varr l => by
    show snakeNormA (toSnakeCaseA l) = true
    exact snakeNorm_snakeA l
  | .vobj fs => by
    show (goodKeysSnake ((fromEntries (toSnakeCaseF fs)).map Prod.fst)
        && snakeNormF (fromEntries (toSnakeCaseF fs))) = true
    rw [Bool.and_eq_true]
    constructor
    · rw [goodKeysSnake, Bool.and_eq_true]
      constructor
      · rw [List.all_eq_true]
        intro k hk
        obtain ⟨p, hp, hpk⟩ := List.mem_map.mp hk
        have hp' := mem_fromEntries _ hp
        rw [toSnakeCaseF_eq_map] at hp'
        obtain ⟨q, _, hqe⟩ := List.mem_map.mp hp'
        rw [← hpk, ← hqe]
        exact noUpper_snake q.1.data
      · exact decide_eq_true (nodup_keys_fromEntries _)
    · rw [snakeNormF_all]
      intro p hp
      exact (snakeNormF_all _).mp (snakeNorm_snakeF fs) p (mem_fromEntries _ hp)

theorem snakeNorm_snakeA : ∀ l : List Val, snakeNormA (toSnakeCaseA l) = true
  | [] => rfl
  | v :: t => by
    show (snakeNormV (toSnakeCaseV v) && snakeNormA (toSnakeCaseA t)) = true
    rw [snakeNorm_snakeV v, snakeNorm_snakeA t]
    rfl

theorem snakeNorm_snakeF : ∀ fs : List (String × Val), snakeNormF (toSnakeCaseF fs) = true
  | [] => rfl
  | (k, v) :: t => by
    show (snakeNormV (toSnakeCaseV v) && snakeNormF (toSnakeCaseF t)) = true
    rw [snakeNorm_snakeV v, snakeNorm_snakeF t]
    rfl
end

mutual
theorem camelV_fixed : ∀ v : Val, camelNormV v = true → toCamelCaseV v = v
  | .undef, _ => rfl
  | .vnull, _ => rfl
  | .vbool _, _ => rfl
  | .vnum _, _ => rfl
  | .vstr _, _ => rfl
  | .vmodel _ _ _, _ => rfl
  | .varr l, h => by
    show Val.varr (toCamelCaseA l) = Val.varr l
    rw [camelA_fixed l h]
  | .vobj fs, h => by
    rw [show camelNormV (.vobj fs)
        = (goodKeysCamel (fs.map Prod.fst) && camelNormF fs) from rfl,
      Bool.and_eq_true, goodKeysCamel, Bool.and_eq_true] at h
    obtain ⟨⟨hall, hnd⟩, hvals⟩ := h
    show Val.vobj (fromEntries (toCamelCaseF fs)) = Val.vobj fs
    rw [camelF_fixed fs hall hvals, fromEntries_of_nodup fs (of_decide_eq_true hnd)]

theorem camelA_fixed : ∀ l : List Val, camelNormA l = true → toCamelCaseA l = l
  | [], _ => rfl
  | v :: t, h => by
    rw [show camelNormA (v :: t) = (camelNormV v && camelNormA t) from rfl,
      Bool.and_eq_true] at h
    show toCamelCaseV v :: toCamelCaseA t = v :: t
    rw [camelV_fixed v h.1, camelA_fixed t h.2]

theorem camelF_fixed : ∀ fs : List (String × Val),
    (fs.map Prod.fst).all (fun k => noUnderLower k.data) = true →
    camelNormF fs = true → toCamelCaseF fs = fs
  | [], _, _ => rfl
  | (k, v) :: t, hall, h => by
    rw [show camelNormF ((k, v) :: t) = (camelNormV v && camelNormF t) from rfl,
      Bool.and_eq_true] at h
    rw [List.map_cons, List.all_cons, Bool.and_eq_true] at hall
    show (toCamelCaseKey k, toCamelCaseV v) :: toCamelCaseF t = (k, v) :: t
    rw [camelV_fixed v h.1, camelF_fixed t hall.2 h.2]
    have hk : toCamelCaseKey k = k := by
      cases k
      exact congrArg String.mk (camel_fixed_of_noUnderLower _ hall.1)
    rw [hk]
end

theorem camelV_idem (v : Val) : toCamelCaseV (toCamelCaseV v) = toCamelCaseV v :=
  camelV_fixed _ (camelNorm_camelV v)

/-- List.Nodup is preserved by a map that is injective on the list. -/
theorem nodup_map_on {α β : Type} {l : List α} {f : α → β}
    (hinj : ∀ x ∈ l, ∀ y ∈ l, f x = f y → x = y) (h : l.Nodup) : (l.map f).Nodup := by
  induction l with
  | nil => exact List.nodup_nil
  | cons a t ih =>
    rw [List.nodup_cons] at h
    rw [List.map_cons, List.nodup_cons]
    constructor
    · intro hm
      obtain ⟨b, hb, hbe⟩ := List.mem_map.mp hm
      have : b = a := hinj b (List.mem_cons_of_mem _ hb) a (List.mem_cons_self _ _) hbe
      exact h.1 (this ▸ hb)
    · exact ih (fun x hx y hy => hinj x (List.mem_cons_of_mem _ hx)
        y (List.mem_cons_of_mem _ hy)) h.2

mutual
theorem snakeCamelV : ∀ v : Val, snakeNormV v = true → toSnakeCaseV (toCamelCaseV v) = v
  | .undef, _ => rfl
  | .vnull, _ => rfl
  | .vbool _, _ => rfl
  | .vnum _, _ => rfl
  | .vstr _, _ => rfl
  | .vmodel _ _ _, _ => rfl
  | .varr l, h => by
    show Val.varr (toSnakeCaseA (toCamelCaseA l)) = Val.varr l
    rw [snakeCamelA l h]
  | .vobj fs, h => by
    rw [show snakeNormV (.vobj fs)
        = (goodKeysSnake (fs.map Prod.fst) && snakeNormF fs) from rfl,
      Bool.and_eq_true, goodKeysSnake, Bool.and_eq_true] at h
    obtain ⟨⟨hall, hnd⟩, hvals⟩ := h
    rw [List.all_eq_true] at hall
    have hnd' : (fs.map Prod.fst).Nodup := of_decide_eq_true hnd
    have hkeys : (toCamelCaseF fs).map Prod.fst = (fs.map Prod.fst).map toCamelCaseKey := by
      rw [toCamelCaseF_eq_map, List.map_map, List.map_map]
      rfl
    have hndC : ((toCamelCaseF fs).map Prod.fst).Nodup := by
      rw [hkeys]
      exact nodup_map_on
        (fun x hx y hy hxy => toCamelCaseKey_inj (hall x hx) (hall y hy) hxy) hnd'
    show toSnakeCaseV (Val.vobj (fromEntries (toCamelCaseF fs))) = Val.vobj fs
    rw [fromEntries_of_nodup _ hndC]
    show Val.vobj (fromEntries (toSnakeCaseF (toCamelCaseF fs))) = Val.vobj fs
    rw [snakeCamelF fs hall hvals, fromEntries_of_nodup fs hnd']

theorem snakeCamelA : ∀ l : List Val, snakeNormA l = true → toSnakeCaseA (toCamelCaseA l) = l
  | [], _ => rfl
  | v :: t, h => by
    rw [show snakeNormA (v :: t) = (snakeNormV v && snakeNormA t) from rfl,
      Bool.and_eq_true] at h
    show toSnakeCaseV (toCamelCaseV v) :: toSnakeCaseA (toCamelCaseA t) = v :: t
    rw [snakeCamelV v h.1, snakeCamelA t h.2]

theorem snakeCamelF : ∀ fs : List (String × Val),
    (∀ k ∈ fs.map Prod.fst, noUpper k.data = true) →
    snakeNormF fs = true → toSnakeCaseF (toCamelCaseF fs) = fs
  | [], _, _ => rfl
  | (k, v) :: t, hall, h => by
    rw [show snakeNormF ((k, v) :: t) = (snakeNormV v && snakeNormF t) from rfl,
      Bool.and_eq_true] at h
    show (toSnakeCaseKey (toCamelCaseKey k), toSnakeCaseV (toCamelCaseV v)) :: toSnakeCaseF (toCamelCaseF t)
      = (k, v) :: t
    rw [snakeCamelV v h.1,
      snakeCamelF t (fun k' hk' => hall k' (List.mem_cons_of_mem _ hk')) h.2]
    have hk : toSnakeCaseKey (toCamelCaseKey k) = k := by
      cases k
      exact congrArg String.mk (snake_camel_of_noUpper _
        (hall _ (List.mem_cons_self _ _)))
    rw [hk]
end

mutual
theorem camelSnakeV : ∀ v : Val, camelNormV v = true → toCamelCaseV (toSnakeCaseV v) = v
  | .undef, _ => rfl
  | .vnull, _ => rfl
  | .vbool _, _ => rfl
  | .vnum _, _ => rfl
  | .vstr _, _ => rfl
  | .vmodel _ _ _, _ => rfl
  | .varr l, h => by
    show Val.varr (toCamelCaseA (toSnakeCaseA l)) = Val.varr l
    rw [camelSnakeA l h]
  | .vobj fs, h => by
    rw [show camelNormV (.vobj fs)
        = (goodKeysCamel (fs.map Prod.fst) && camelNormF fs) from rfl,
      Bool.and_eq_true, goodKeysCamel, Bool.and_eq_true] at h
    obtain ⟨⟨hall, hnd⟩, hvals⟩ := h
    rw [List.all_eq_true] at hall
    have hnd' : (fs.map Prod.fst).Nodup := of_decide_eq_true hnd
    have hkeys : (toSnakeCaseF fs).map Prod.fst = (fs.map Prod.fst).map toSnakeCaseKey := by
      rw [toSnakeCaseF_eq_map, List.map_map, List.map_map]
      rfl
    have hndS : ((toSnakeCaseF fs).map Prod.fst).Nodup := by
      rw [hkeys]
      exact nodup_map_on
        (fun x hx y hy hxy => toSnakeCaseKey_inj (hall x hx) (hall y hy) hxy) hnd'
    show toCamelCaseV (Val.vobj (fromEntries (toSnakeCaseF fs))) = Val.vobj fs
    rw [fromEntries_of_nodup _ hndS]
    show Val.vobj (fromEntries (toCamelCaseF (toSnakeCaseF fs))) = Val.vobj fs
    rw [camelSnakeF fs hall hvals, fromEntries_of_nodup fs hnd']

theorem camelSnakeA : ∀ l : List Val, camelNormA l = true → toCamelCaseA (toSnakeCaseA l) = l
  | [], _ => rfl
  | v :: t, h => by
    rw [show camelNormA (v :: t) = (camelNormV v && camelNormA t) from rfl,
      Bool.and_eq_true] at h
    show toCamelCaseV (toSnakeCaseV v) :: toCamelCaseA (toSnakeCaseA t) = v :: t
    rw [camelSnakeV v h.1, camelSnakeA t h.2]

theorem camelSnakeF : ∀ fs : List (String × Val),
    (∀ k ∈ fs.map Prod.fst, noUnderLower k.data = true) →
    camelNormF fs = true → toCamelCaseF (toSnakeCaseF fs) = fs
  | [], _, _ => rfl
  | (k, v) :: t, hall, h => by
    rw [show camelNormF ((k, v) :: t) = (camelNormV v && camelNormF t) from rfl,
      Bool.and_eq_true] at h
    show (toCamelCaseKey (toSnakeCaseKey k), toCamelCaseV (toSnakeCaseV v)) :: toCamelCaseF (toSnakeCaseF t)
      = (k, v) :: t
    rw [camelSnakeV v h.1,
      camelSnakeF t (fun k' hk' => hall k' (List.mem_cons_of_mem _ hk')) h.2]
    have hk : toCamelCaseKey (toSnakeCaseKey k) = k := by
      cases k
      exact congrArg String.mk (camel_snake_of_noUnderLower _
        (hall _ (List.mem_cons_self _ _)))
    rw [hk]
end

/-! ### Model-free values: refresh is the identity on them -/

theorem containsModelA_all (l : List Val) :
    containsModelA l = false ↔ ∀ v ∈ l, containsModelV v = false := by
  induction l with
  | nil => simp [containsModelA]
  | cons v t ih =>
    rw [show containsModelA (v :: t) = (containsModelV v || containsModelA t) from rfl,
      Bool.or_eq_false_iff, ih]
    constructor
    · rintro ⟨h1, h2⟩ w hw
      rcases List.mem_cons.mp hw with he | hm
      · rw [he]; exact h1
      · exact h2 w hm
    · intro h
      exact ⟨h v (List.mem_cons_self _ _), fun w hw => h w (List.mem_cons_of_mem _ hw)⟩

theorem containsModelF_all (fs : List (String × Val)) :
    containsModelF fs = false ↔ ∀ p ∈ fs, containsModelV p.2 = false := by
  induction fs with
  | nil => simp [containsModelF]
  | cons p t ih =>
    obtain ⟨k, v⟩ := p
    rw [show containsModelF ((k, v) :: t) = (containsModelV v || containsModelF t) from rfl,
      Bool.or_eq_false_iff, ih]
    constructor
    · rintro ⟨h1, h2⟩ q hq
      rcases List.mem_cons.mp hq with he | hm
      · rw [he]; exact h1
      · exact h2 q hm
    · intro h
      exact ⟨h (k, v) (List.mem_cons_self _ _), fun q hq => h q (List.mem_cons_of_mem _ hq)⟩

theorem isModelV_of_not_containsModel {v : Val} (h : containsModelV v = false) :
    isModelV v = false := by
  cases v <;> first | rfl | exact h

mutual
theorem refreshV_modelfree : ∀ (v : Val) (σ : Nat), containsModelV v = false →
    refreshV v σ = (v, σ)
  | .undef, _, _ => rfl
  | .vnull, _, _ => rfl
  | .vbool _, _, _ => rfl
  | .vnum _, _, _ => rfl
  | .vstr _, _, _ => rfl
  | .vmodel _ _ _, _, h => absurd h (by simp [containsModelV])
  | .varr l, σ, h => by
    show (Val.varr (refreshA l σ).1, (refreshA l σ).2) = (Val.varr l, σ)
    rw [refreshA_modelfree l σ h]
  | .vobj fs, σ, h => by
    show (Val.vobj (refreshF fs σ).1, (refreshF fs σ).2) = (Val.vobj fs, σ)
    rw [refreshF_modelfree fs σ h]

theorem refreshA_modelfree : ∀ (l : List Val) (σ : Nat), containsModelA l = false →
    refreshA l σ = (l, σ)
  | [], _, _ => rfl
  | v :: t, σ, h => by
    rw [show containsModelA (v :: t) = (containsModelV v || containsModelA t) from rfl,
      Bool.or_eq_false_iff] at h
    show ((refreshV v σ).1 :: (refreshA t (refreshV v σ).2).1,
        (refreshA t (refreshV v σ).2).2) = (v :: t, σ)
    rw [refreshV_modelfree v σ h.1]
    show (v :: (refreshA t σ).1, (refreshA t σ).2) = (v :: t, σ)
    rw [refreshA_modelfree t σ h.2]

theorem refreshF_modelfree : ∀ (fs : List (String × Val)) (σ : Nat),
    containsModelF fs = false → refreshF fs σ = (fs, σ)
  | [], _, _ => rfl
  | (k, v) :: t, σ, h => by
    rw [show containsModelF ((k, v) :: t) = (containsModelV v || containsModelF t) from rfl,
      Bool.or_eq_false_iff] at h
    show ((k, (refreshV v σ).1) :: (refreshF t (refreshV v σ).2).1,
        (refreshF t (refreshV v σ).2).2) = ((k, v) :: t, σ)
    rw [refreshV_modelfree v σ h.1]
    show ((k, v) :: (refreshF t σ).1, (refreshF t σ).2) = ((k, v) :: t, σ)
    rw [refreshF_modelfree t σ h.2]
end

/-! ### Flat import/export: closed forms

On a class without `@Type` and `@Transform` metadata the import fold reduces to
a per-entry read-only check plus `setProp`, and under `noOptions` the export
fold reduces to a `filterMap` over the properties. -/

/-- A key survives `toJson`'s underscore and exclusion filters; with no group
requested and `onlyChanged` off these are the only filters. -/
def emitKey (cls : ClassDef) (k : String) : Bool :=
  !startsUnderscore k && !cls.excl.contains k

/-- The per-entry output of the `noOptions` export. -/
def exq (env : Env) (cls : ClassDef) (p : String × Val) : Option (String × Val) :=
  if emitKey cls p.1 then
    some (toSnakeCaseKey p.1,
      if isModelV p.2 then toJsonV env noOptions p.2 else toSnakeCaseV p.2)
  else none

/-- One entry of the import fold on a transform-free, type-free class:
read-only keys are skipped, anything else is assigned. -/
def impStep (cls : ClassDef) (props : List (String × Val)) (p : String × Val) :
    List (String × Val) :=
  if cls.ro.contains p.1 then props else setProp props p.1 p.2

/-- The value an existing property ends up with after the import fold: the
last (unique, for deduplicated input) input value under its key unless the key
is read-only or absent from the input. -/
def updVal (cls : ClassDef) (l : List (String × Val)) (p : String × Val) : Val :=
  match lookupA l p.1 with
  | some w => if cls.ro.contains p.1 then p.2 else w
  | none => p.2

/-- The in-place effect of the import fold on pre-existing properties. -/
def updX (cls : ClassDef) (l : List (String × Val)) (X : List (String × Val)) :
    List (String × Val) :=
  X.map (fun p => (p.1, updVal cls l p))

/-- The appended effect of the import fold: entries under genuinely new keys. -/
def newX (cls : ClassDef) (l : List (String × Val)) (X : List (String × Val)) :
    List (String × Val) :=
  l.filter (fun p => !cls.ro.contains p.1 && !(X.map Prod.fst).contains p.1)

theorem scontains_iff (l : List String) (k : String) : l.contains k = true ↔ k ∈ l := by
  induction l with
  | nil => simp
  | cons a t ih =>
    by_cases h : (k == a) = true
    · have he : k = a := eq_of_beq h
      subst he
      simp [List.contains, List.elem]
    · have hne : ¬(k = a) := fun he => h (beq_iff_eq.mpr he)
      constructor
      · intro hc
        rw [show (a :: t).contains k = t.contains k from by
          simp [List.contains, List.elem, h]] at hc
        exact List.mem_cons_of_mem _ (ih.mp hc)
      · intro hm
        rcases List.mem_cons.mp hm with he | hm'
        · exact absurd he hne
        · rw [show (a :: t).contains k = t.contains k from by
            simp [List.contains, List.elem, h]]
          exact ih.mpr hm'

theorem getProp_cons_self (k : String) (v : Val) (t : List (String × Val)) :
    getProp ((k, v) :: t) k = v := by
  show (if (k == k) = true then v else getProp t k) = v
  rw [if_pos (beq_self_eq_true k)]

theorem getProp_cons_ne {k k' : String} (h : k' ≠ k) (v : Val) (t : List (String × Val)) :
    getProp ((k', v) :: t) k = getProp t k := by
  show (if (k' == k) = true then v else getProp t k) = getProp t k
  rw [if_neg (fun hb => h (eq_of_beq hb))]

theorem getProp_append_not_mem {k : String} :
    ∀ (l1 l2 : List (String × Val)), k ∉ l1.map Prod.fst →
    getProp (l1 ++ l2) k = getProp l2 k
  | [], _, _ => rfl
  | (k', v) :: t, l2, h => by
    rw [List.map_cons, List.mem_cons, not_or] at h
    rw [List.cons_append, getProp_cons_ne (fun he => h.1 he.symm)]
    exact getProp_append_not_mem t l2 h.2

theorem getProp_append_mem {k : String} :
    ∀ (l1 l2 : List (String × Val)), k ∈ l1.map Prod.fst →
    getProp (l1 ++ l2) k = getProp l1 k
  | [], _, h => by simp at h
  | (k', v) :: t, l2, h => by
    by_cases he : k' = k
    · subst he
      rw [List.cons_append, getProp_cons_self, getProp_cons_self]
    · have hk : k ∈ t.map Prod.fst := by
        rw [List.map_cons, List.mem_cons] at h
        rcases h with h | h
        · exact absurd h.symm he
        · exact h
      rw [List.cons_append, getProp_cons_ne he, getProp_cons_ne he]
      exact getProp_append_mem t l2 hk

theorem getProp_eq_of_mem_nodup {k : String} {v : Val} :
    ∀ l : List (String × Val), (k, v) ∈ l → (l.map Prod.fst).Nodup →
    getProp l k = v
  | [], h, _ => by simp at h
  | (k', v') :: t, h, hnd => by
    rw [List.map_cons, List.nodup_cons] at hnd
    rcases List.mem_cons.mp h with he | hm
    · obtain ⟨h1, h2⟩ := Prod.ext_iff.mp he
      simp only at h1 h2
      subst h1; subst h2
      exact getProp_cons_self _ _ _
    · have hne : k' ≠ k := by
        intro he
        subst he
        exact hnd.1 (List.mem_map.mpr ⟨(k', v), hm, rfl⟩)
      rw [getProp_cons_ne hne]
      exact getProp_eq_of_mem_nodup t hm hnd.2

theorem getProp_mem_of_mem_keys {k : String} :
    ∀ l : List (String × Val), k ∈ l.map Prod.fst → (k, getProp l k) ∈ l
  | [], h => by simp at h
  | (k', v) :: t, h => by
    by_cases he : k' = k
    · subst he
      rw [getProp_cons_self]
      exact List.mem_cons_self _ _
    · have hk : k ∈ t.map Prod.fst := by
        rw [List.map_cons, List.mem_cons] at h
        rcases h with h | h
        · exact absurd h.symm he
        · exact h
      rw [getProp_cons_ne he]
      exact List.mem_cons_of_mem _ (getProp_mem_of_mem_keys t hk)

theorem exists_split_first {k : String} :
    ∀ l : List (String × Val), k ∈ l.map Prod.fst →
    ∃ l1 u l2, l = l1 ++ (k, u) :: l2 ∧ k ∉ l1.map Prod.fst
  | [], h => by simp at h
  | (k', v) :: t, h => by
    by_cases he : k' = k
    · subst he
      exact ⟨[], v, t, rfl, by simp⟩
    · have hk : k ∈ t.map Prod.fst := by
        rw [List.map_cons, List.mem_cons] at h
        rcases h with h | h
        · exact absurd h.symm he
        · exact h
      obtain ⟨l1, u, l2, heq, hni⟩ := exists_split_first t hk
      refine ⟨(k', v) :: l1, u, l2, by rw [heq, List.cons_append], ?_⟩
      rw [List.map_cons, List.mem_cons, not_or]
      exact ⟨fun hh => he hh.symm, hni⟩

theorem setProp_split {k : String} (u w : Val) :
    ∀ (l1 l2 : List (String × Val)), k ∉ l1.map Prod.fst →
    setProp (l1 ++ (k, u) :: l2) k w = l1 ++ (k, w) :: l2
  | [], l2, _ => by
    show (if (k == k) = true then (k, w) :: l2 else (k, u) :: setProp l2 k w)
      = (k, w) :: l2
    rw [if_pos (beq_self_eq_true k)]
  | (k', v) :: t, l2, h => by
    rw [List.map_cons, List.mem_cons, not_or] at h
    show (if (k' == k) = true then (k', w) :: (t ++ (k, u) :: l2)
        else (k', v) :: setProp (t ++ (k, u) :: l2) k w)
      = (k', v) :: (t ++ (k, w) :: l2)
    rw [if_neg (fun hb => h.1 (eq_of_beq hb).symm), setProp_split u w t l2 h.2]

theorem lookupA_none_of_not_mem {α : Type} {k : String} :
    ∀ l : List (String × α), k ∉ l.map Prod.fst → lookupA l k = none
  | [], _ => rfl
  | (k', v) :: t, h => by
    rw [List.map_cons, List.mem_cons, not_or] at h
    show (if (k' == k) = true then some v else lookupA t k) = none
    rw [if_neg (fun hb => h.1 (eq_of_beq hb).symm)]
    exact lookupA_none_of_not_mem t h.2

theorem lookupA_some_of_mem_nodup {α : Type} {k : String} {v : α} :
    ∀ l : List (String × α), (k, v) ∈ l → (l.map Prod.fst).Nodup →
    lookupA l k = some v
  | [], h, _ => by simp at h
  | (k', v') :: t, h, hnd => by
    rw [List.map_cons, List.nodup_cons] at hnd
    rcases List.mem_cons.mp h with he | hm
    · obtain ⟨h1, h2⟩ := Prod.ext_iff.mp he
      simp only at h1 h2
      subst h1; subst h2
      show (if (k == k) = true then some v else lookupA t k) = some v
      rw [if_pos (beq_self_eq_true k)]
    · have hne : k' ≠ k := by
        intro he
        subst he
        exact hnd.1 (List.mem_map.mpr ⟨(k', v), hm, rfl⟩)
      show (if (k' == k) = true then some v' else lookupA t k) = some v
      rw [if_neg (fun hb => hne (eq_of_beq hb))]
      exact lookupA_some_of_mem_nodup t hm hnd.2

theorem stringifyF_append :
    ∀ l1 l2 : List (String × Val), stringifyF (l1 ++ l2) = stringifyF l1 ++ stringifyF l2
  | [], _ => rfl
  | (k, v) :: t, l2 => by
    rw [List.cons_append]
    show (match stringifyV v with
      | some j => (k, j) :: stringifyF (t ++ l2)
      | none => stringifyF (t ++ l2))
      = (match stringifyV v with
        | some j => (k, j) :: stringifyF t
        | none => stringifyF t) ++ stringifyF l2
    cases stringifyV v with
    | some j => rw [stringifyF_append t l2]; rfl
    | none => exact stringifyF_append t l2

theorem jeqF_append_left :
    ∀ (xs l1 l2 : List (String × JVal)), jeqF (xs ++ l1) (xs ++ l2) = jeqF l1 l2
  | [], _, _ => rfl
  | (k, j) :: t, l1, l2 => by
    rw [List.cons_append, List.cons_append]
    show (k == k && jeqV j j && jeqF (t ++ l1) (t ++ l2)) = jeqF l1 l2
    rw [beq_self_eq_true, jeqV_refl, jeqF_append_left t l1 l2]
    rfl

theorem filterMap_congr_mem {α β : Type} {f g : α → Option β} :
    ∀ l : List α, (∀ a ∈ l, f a = g a) → l.filterMap f = l.filterMap g
  | [], _ => rfl
  | a :: t, h => by
    rw [List.filterMap_cons, List.filterMap_cons, h a (List.mem_cons_self _ _),
      filterMap_congr_mem t (fun b hb => h b (List.mem_cons_of_mem _ hb))]

theorem filterMap_if_filter {α : Type} (q : α → Bool) :
    ∀ l : List α, l.filterMap (fun a => if q a then some a else none) = l.filter q
  | [] => rfl
  | a :: t => by
    rw [List.filterMap_cons, List.filter_cons]
    by_cases h : q a = true
    · rw [if_pos h, if_pos h, filterMap_if_filter q t]
    · rw [if_neg h, if_neg h, filterMap_if_filter q t]

theorem filterMap_if_map {α β : Type} (q : α → Bool) (g : α → β) :
    ∀ l : List α,
    l.filterMap (fun a => if q a then some (g a) else none) = (l.filter q).map g
  | [] => rfl
  | a :: t => by
    rw [List.filterMap_cons, List.filter_cons]
    by_cases h : q a = true
    · rw [if_pos h, if_pos h, List.map_cons, filterMap_if_map q g t]
    · rw [if_neg h, if_neg h, filterMap_if_map q g t]

theorem filterMap_filter_none {α β : Type} {q : α → Bool} {f : α → Option β} :
    ∀ l : List α, (∀ a ∈ l, q a = false → f a = none) →
    (l.filter q).filterMap f = l.filterMap f
  | [], _ => rfl
  | a :: t, h => by
    rw [List.filter_cons, List.filterMap_cons]
    by_cases hq : q a = true
    · rw [if_pos hq, List.filterMap_cons,
        filterMap_filter_none t (fun b hb => h b (List.mem_cons_of_mem _ hb))]
    · rw [if_neg hq, h a (List.mem_cons_self _ _) (Bool.eq_false_iff.mpr hq),
        filterMap_filter_none t (fun b hb => h b (List.mem_cons_of_mem _ hb))]

theorem nodup_keys_filter (q : String × Val → Bool) (l : List (String × Val))
    (h : (l.map Prod.fst).Nodup) : ((l.filter q).map Prod.fst).Nodup :=
  ((List.filter_sublist l).map Prod.fst).nodup h

theorem exportSkip_noOptions (cls : ClassDef) (orig : Val) (k : String) (v : Val) :
    exportSkip noOptions cls orig k v = !emitKey cls k := by
  rw [exportSkip, emitKey,
    show skipByGroup noOptions cls k = false from rfl,
    show skipByUnchanged noOptions orig k v = false from rfl,
    Bool.or_false, Bool.or_false, Bool.not_and, Bool.not_not, Bool.not_not]

/-- The per-entry decision of `diff`: keep an entry of the receiver whose
serialization differs from the other instance's same-named property. -/
def dq (B : List (String × Val)) (p : String × Val) : Option (String × Val) :=
  if jeqOpt (stringifyV p.2) (stringifyV (getProp B p.1)) then none else some p

theorem updVal_nil (cls : ClassDef) (p : String × Val) : updVal cls [] p = p.2 := rfl

theorem updVal_some {cls : ClassDef} {l : List (String × Val)} {p : String × Val} {w : Val}
    (h : lookupA l p.1 = some w) :
    updVal cls l p = if cls.ro.contains p.1 then p.2 else w := by
  rw [updVal, h]

theorem updVal_none {cls : ClassDef} {l : List (String × Val)} {p : String × Val}
    (h : lookupA l p.1 = none) : updVal cls l p = p.2 := by
  rw [updVal, h]

theorem lookupA_cons_ne {α : Type} {k k' : String} (h : (k == k') = false)
    (w : α) (t : List (String × α)) : lookupA ((k, w) :: t) k' = lookupA t k' := by
  show (if (k == k') = true then some w else lookupA t k') = lookupA t k'
  rw [if_neg (by rw [h]; exact Bool.false_ne_true)]

theorem lookupA_cons_self {α : Type} (k : String) (w : α) (t : List (String × α)) :
    lookupA ((k, w) :: t) k = some w := by
  show (if (k == k) = true then some w else lookupA t k) = some w
  rw [if_pos (beq_self_eq_true k)]

theorem updVal_cons_ro {cls : ClassDef} {k : String} (w : Val)
    (t : List (String × Val)) {p : String × Val} (hro : cls.ro.contains p.1 = true) :
    updVal cls ((k, w) :: t) p = updVal cls t p := by
  by_cases hb : (k == p.1) = true
  · have he : k = p.1 := eq_of_beq hb
    subst he
    rw [updVal_some (lookupA_cons_self p.1 w t), if_pos hro]
    cases hl : lookupA t p.1 with
    | some w' => rw [updVal_some hl, if_pos hro]
    | none => rw [updVal_none hl]
  · rw [updVal, lookupA_cons_ne (Bool.eq_false_iff.mpr hb) w t, updVal]

theorem updVal_cons_ne {cls : ClassDef} {k : String} (w : Val)
    (t : List (String × Val)) {p : String × Val} (hb : (k == p.1) = false) :
    updVal cls ((k, w) :: t) p = updVal cls t p := by
  rw [updVal, lookupA_cons_ne hb w t, updVal]

theorem updX_nil (cls : ClassDef) (X : List (String × Val)) : updX cls [] X = X := by
  induction X with
  | nil => rfl
  | cons p t ih =>
    show (p.1, updVal cls [] p) :: updX cls [] t = p :: t
    rw [updVal_nil, ih]

theorem keys_updX (cls : ClassDef) (l X : List (String × Val)) :
    (updX cls l X).map Prod.fst = X.map Prod.fst := by
  rw [updX, List.map_map]
  rfl

theorem getProp_updX (cls : ClassDef) (l : List (String × Val)) {kk : String} :
    ∀ X : List (String × Val), kk ∈ X.map Prod.fst →
    getProp (updX cls l X) kk = updVal cls l (kk, getProp X kk)
  | [], h => by simp at h
  | (k', v) :: t, h => by
    by_cases he : k' = kk
    · subst he
      show getProp ((k', updVal cls l (k', v)) :: updX cls l t) k'
        = updVal cls l (k', getProp ((k', v) :: t) k')
      rw [getProp_cons_self, getProp_cons_self]
    · have hk : kk ∈ t.map Prod.fst := by
        rw [List.map_cons, List.mem_cons] at h
        rcases h with h | h
        · exact absurd h.symm he
        · exact h
      show getProp ((k', updVal cls l (k', v)) :: updX cls l t) kk
        = updVal cls l (kk, getProp ((k', v) :: t) kk)
      rw [getProp_cons_ne he, getProp_cons_ne he]
      exact getProp_updX cls l t hk

theorem mapValId_of_not_mem {k : String} (w : Val) :
    ∀ t : List (String × Val), k ∉ t.map Prod.fst →
    t.map (fun p => (p.1, if (p.1 == k) = true then w else p.2)) = t
  | [], _ => rfl
  | (k', v) :: t, h => by
    rw [List.map_cons, List.mem_cons, not_or] at h
    rw [List.map_cons, if_neg (by
      rw [show (k' == k) = false from Bool.eq_false_iff.mpr
        (fun hb => h.1 (eq_of_beq hb).symm)]
      exact Bool.false_ne_true)]
    rw [mapValId_of_not_mem w t h.2]

theorem setProp_map_of_mem_nodup {k : String} (w : Val) :
    ∀ X : List (String × Val), (X.map Prod.fst).Nodup → k ∈ X.map Prod.fst →
    setProp X k w = X.map (fun p => (p.1, if (p.1 == k) = true then w else p.2))
  | [], _, h => by simp at h
  | (k', v) :: t, hnd, h => by
    rw [List.map_cons, List.nodup_cons] at hnd
    by_cases he : k' = k
    · subst he
      show (if (k' == k') = true then (k', w) :: t else (k', v) :: setProp t k' w)
        = (k', if (k' == k') = true then w else v)
          :: t.map (fun p => (p.1, if (p.1 == k') = true then w else p.2))
      rw [if_pos (beq_self_eq_true k'), if_pos (beq_self_eq_true k'),
        mapValId_of_not_mem w t hnd.1]
    · have hk : k ∈ t.map Prod.fst := by
        rw [List.map_cons, List.mem_cons] at h
        rcases h with h | h
        · exact absurd h.symm he
        · exact h
      have hb : (k' == k) = false := Bool.eq_false_iff.mpr (fun hb => he (eq_of_beq hb))
      show (if (k' == k) = true then (k', w) :: t else (k', v) :: setProp t k w)
        = (k', if (k' == k) = true then w else v)
          :: t.map (fun p => (p.1, if (p.1 == k) = true then w else p.2))
      rw [if_neg (by rw [hb]; exact Bool.false_ne_true),
        if_neg (by rw [hb]; exact Bool.false_ne_true),
        setProp_map_of_mem_nodup w t hnd.2 hk]

/-- Closed form of the import fold on a transform-free, type-free class:
existing keys are updated in place (except read-only ones), new keys are
appended in input order. -/
theorem foldStep_closed (cls : ClassDef) :
    ∀ (l X : List (String × Val)), (l.map Prod.fst).Nodup → (X.map Prod.fst).Nodup →
    l.foldl (impStep cls) X = updX cls l X ++ newX cls l X
  | [], X, _, _ => by
    rw [List.foldl_nil, updX_nil, show newX cls [] X = [] from rfl, List.append_nil]
  | (k, w) :: t, X, hndl, hndX => by
    rw [List.map_cons, List.nodup_cons] at hndl
    rw [List.foldl_cons]
    by_cases hro : cls.ro.contains k = true
    · rw [show impStep cls X (k, w) = X from by rw [impStep, if_pos hro],
        foldStep_closed cls t X hndl.2 hndX]
      have hupd : updX cls ((k, w) :: t) X = updX cls t X := by
        apply List.map_congr_left
        intro p _
        show (p.1, updVal cls ((k, w) :: t) p) = (p.1, updVal cls t p)
        by_cases hb : (k == p.1) = true
        · have hro' : cls.ro.contains p.1 = true := by
            rw [← eq_of_beq hb]; exact hro
          rw [updVal_cons_ro w t hro']
        · rw [updVal_cons_ne w t (Bool.eq_false_iff.mpr hb)]
      have hnew : newX cls ((k, w) :: t) X = newX cls t X := by
        rw [newX, List.filter_cons,
          if_neg (fun hcc => by rw [hro] at hcc; simp at hcc)]
        rfl
      rw [hupd, hnew]
    · have hro' : cls.ro.contains k = false := Bool.eq_false_iff.mpr hro
      rw [show impStep cls X (k, w) = setProp X k w from by rw [impStep, if_neg hro]]
      by_cases hkX : k ∈ X.map Prod.fst
      · have hXnd2 : ((setProp X k w).map Prod.fst).Nodup := by
          rw [keys_setProp_mem X k w hkX]; exact hndX
        rw [foldStep_closed cls t (setProp X k w) hndl.2 hXnd2]
        have hupd : updX cls t (setProp X k w) = updX cls ((k, w) :: t) X := by
          rw [setProp_map_of_mem_nodup w X hndX hkX, updX, updX, List.map_map]
          apply List.map_congr_left
          intro p hp
          show (p.1, updVal cls t (p.1, if (p.1 == k) = true then w else p.2))
            = (p.1, updVal cls ((k, w) :: t) p)
          by_cases hb : (p.1 == k) = true
          · have he : p.1 = k := eq_of_beq hb
            rw [if_pos hb]
            have hln : lookupA t ((p.1, w) : String × Val).1 = none := by
              show lookupA t p.1 = none
              rw [he]; exact lookupA_none_of_not_mem t hndl.1
            rw [updVal_none hln]
            have hsome : lookupA ((k, w) :: t) p.1 = some w := by
              rw [he]; exact lookupA_cons_self k w t
            rw [updVal_some hsome,
              if_neg (fun hcc => by rw [he, hro'] at hcc; exact Bool.false_ne_true hcc)]
          · rw [if_neg hb]
            have hkb : (k == p.1) = false := Bool.eq_false_iff.mpr (fun hbb =>
              hb (beq_iff_eq.mpr (eq_of_beq hbb).symm))
            rw [updVal_cons_ne w t hkb]
        have hnew : newX cls t (setProp X k w) = newX cls ((k, w) :: t) X := by
          rw [newX, newX, keys_setProp_mem X k w hkX, List.filter_cons,
            if_neg (fun hcc => by
              rw [(scontains_iff _ _).mpr hkX] at hcc
              simp at hcc)]
        rw [hupd, hnew]
      · rw [setProp_append X w hkX]
        have hndX2 : ((X ++ [(k, w)]).map Prod.fst).Nodup := by
          rw [List.map_append, List.nodup_append]
          refine ⟨hndX, List.nodup_singleton _, ?_⟩
          intro a ha hak
          rw [show (([(k, w)] : List (String × Val)).map Prod.fst) = [k] from rfl,
            List.mem_singleton] at hak
          subst hak
          exact hkX ha
        rw [foldStep_closed cls t (X ++ [(k, w)]) hndl.2 hndX2]
        have hupd2 : updX cls t (X ++ [(k, w)]) = updX cls t X ++ [(k, w)] := by
          rw [updX, List.map_append]
          congr 1
          show [(k, updVal cls t ((k, w) : String × Val))] = [(k, w)]
          rw [updVal_none (lookupA_none_of_not_mem t hndl.1)]
        have hnew2 : newX cls t (X ++ [(k, w)]) = newX cls t X := by
          rw [newX, newX]
          apply List.filter_congr
          intro p hp
          have hpk : p.1 ≠ k := fun he =>
            hndl.1 (by rw [← he]; exact List.mem_map.mpr ⟨p, hp, rfl⟩)
          have hcontains : ((X ++ [(k, w)]).map Prod.fst).contains p.1
              = (X.map Prod.fst).contains p.1 := by
            by_cases hc : (X.map Prod.fst).contains p.1 = true
            · rw [hc]
              apply (scontains_iff _ _).mpr
              rw [List.map_append]
              exact List.mem_append.mpr (Or.inl ((scontains_iff _ _).mp hc))
            · rw [Bool.eq_false_iff.mpr hc]
              apply Bool.eq_false_iff.mpr
              intro hcc
              rw [List.map_append] at hcc
              rcases List.mem_append.mp ((scontains_iff _ _).mp hcc) with hm | hm
              · exact hc ((scontains_iff _ _).mpr hm)
              · rw [show (([(k, w)] : List (String × Val)).map Prod.fst) = [k] from rfl,
                  List.mem_singleton] at hm
                exact hpk hm
          rw [hcontains]
        have hupd3 : updX cls ((k, w) :: t) X = updX cls t X := by
          apply List.map_congr_left
          intro p hp
          have hpk : (k == p.1) = false := Bool.eq_false_iff.mpr (fun hb =>
            hkX (List.mem_map.mpr ⟨p, hp, (eq_of_beq hb).symm⟩))
          show (p.1, updVal cls ((k, w) :: t) p) = (p.1, updVal cls t p)
          rw [updVal_cons_ne w t hpk]
        have hnew3 : newX cls ((k, w) :: t) X = (k, w) :: newX cls t X := by
          rw [newX, List.filter_cons, if_pos (by
            rw [hro', show (X.map Prod.fst).contains k = false from
              Bool.eq_false_iff.mpr (fun hcc => hkX ((scontains_iff _ _).mp hcc))]
            rfl)]
          rfl
        rw [hupd2, hnew2, hupd3, hnew3, List.append_assoc]
        rfl

/-- Closed form of the `noOptions` export fold: with pairwise-distinct emitted
snake-case keys the accumulator only ever appends, so the export is a
`filterMap` over the properties in order. -/
theorem exportFold_flat (env : Env) (cls : ClassDef) (orig : Val) :
    ∀ (l acc : List (String × Val)),
    (acc.map Prod.fst ++ l.filterMap
      (fun p => if emitKey cls p.1 then some (toSnakeCaseKey p.1) else none)).Nodup →
    exportFold env noOptions cls orig l acc = acc ++ l.filterMap (exq env cls)
  | [], acc, _ => by
    rw [show exportFold env noOptions cls orig [] acc = acc from rfl,
      List.filterMap_nil, List.append_nil]
  | (k, v) :: t, acc, hnd => by
    rw [exportFold_cons, exportSkip_noOptions]
    by_cases he : emitKey cls k = true
    · rw [he, if_neg (by decide)]
      rw [List.filterMap_cons, if_pos he] at hnd
      have hsk : toSnakeCaseKey k ∉ acc.map Prod.fst := by
        rw [List.nodup_append] at hnd
        exact fun hm => hnd.2.2 hm (List.mem_cons_self _ _)
      rw [setProp_append acc _ hsk]
      have hnd2 : (((acc ++ [(toSnakeCaseKey k,
            if isModelV v then toJsonV env noOptions v else toSnakeCaseV v)]).map Prod.fst)
          ++ t.filterMap
            (fun p => if emitKey cls p.1 then some (toSnakeCaseKey p.1) else none)).Nodup := by
        rw [List.map_append, List.append_assoc]
        exact hnd
      rw [exportFold_flat env cls orig t _ hnd2, List.filterMap_cons,
        show exq env cls (k, v) = some (toSnakeCaseKey k,
          if isModelV v then toJsonV env noOptions v else toSnakeCaseV v) from by
          rw [exq, if_pos he],
        List.append_assoc]
      rfl
    · have he' : emitKey cls k = false := Bool.eq_false_iff.mpr he
      rw [he', if_pos (show (!false) = true from rfl)]
      rw [List.filterMap_cons, if_neg he] at hnd
      rw [exportFold_flat env cls orig t acc hnd, List.filterMap_cons,
        show exq env cls (k, v) = none from by rw [exq, if_neg he]]

/-- Closed form of the `diff` fold under pairwise-distinct keys. -/
theorem diffFold_flat (B : List (String × Val)) :
    ∀ (l acc : List (String × Val)),
    (acc.map Prod.fst ++ (l.filterMap (dq B)).map Prod.fst).Nodup →
    diffFold B l acc = acc ++ l.filterMap (dq B)
  | [], acc, _ => by
    rw [show diffFold B [] acc = acc from rfl, List.filterMap_nil, List.append_nil]
  | (k, v) :: t, acc, hnd => by
    by_cases hc : jeqOpt (stringifyV v) (stringifyV (getProp B k)) = true
    · rw [show diffFold B ((k, v) :: t) acc
          = (if jeqOpt (stringifyV v) (stringifyV (getProp B k))
             then diffFold B t acc else diffFold B t (setProp acc k v)) from rfl,
        if_pos hc]
      have hq : dq B (k, v) = none := by rw [dq, if_pos hc]
      rw [List.filterMap_cons, hq] at hnd
      rw [diffFold_flat B t acc hnd, List.filterMap_cons, hq]
    · rw [show diffFold B ((k, v) :: t) acc
          = (if jeqOpt (stringifyV v) (stringifyV (getProp B k))
             then diffFold B t acc else diffFold B t (setProp acc k v)) from rfl,
        if_neg hc]
      have hq : dq B (k, v) = some (k, v) := by rw [dq, if_neg hc]
      rw [List.filterMap_cons, hq, List.map_cons] at hnd
      have hk : k ∉ acc.map Prod.fst := by
        rw [List.nodup_append] at hnd
        exact fun hm => hnd.2.2 hm (List.mem_cons_self _ _)
      rw [setProp_append acc v hk]
      have hnd2 : (((acc ++ [(k, v)]).map Prod.fst)
          ++ (t.filterMap (dq B)).map Prod.fst).Nodup := by
        rw [List.map_append, List.append_assoc]
        exact hnd
      rw [diffFold_flat B t (acc ++ [(k, v)]) hnd2, List.filterMap_cons, hq,
        List.append_assoc]
      rfl

/-- On a type-free, transform-free class the import of a batch of entries is
exactly the read-only-filtered `setProp` fold, and allocates nothing. -/
theorem applyEntriesF_flat (env : Env) (ci : List (String × Val)) (ce : List String)
    (cro : List String) (cex : List (String × List String)) (cd : List (String × Val)) :
    ∀ (l : List (String × Val)) (f i : Nat) (c : String) (X : List (String × Val)) (σ : Nat),
    l.length + 1 ≤ f →
    applyEntriesF env f ⟨ci, [], ce, [], cro, cex, cd⟩ (.vmodel i c X) l σ
      = some (.vmodel i c (l.foldl (impStep ⟨ci, [], ce, [], cro, cex, cd⟩) X), σ)
  | [], f, i, c, X, σ, hf => by
    match f, hf with
    | f' + 1, _ => rfl
  | (k, v) :: t, f, i, c, X, σ, hf => by
    match f, hf with
    | f' + 1, hf =>
      have hf' : t.length + 1 ≤ f' := by
        rw [List.length_cons] at hf
        omega
      rw [show applyEntriesF env (f' + 1) ⟨ci, [], ce, [], cro, cex, cd⟩
            (.vmodel i c X) ((k, v) :: t) σ
          = (if cro.contains k = true
             then applyEntriesF env f' ⟨ci, [], ce, [], cro, cex, cd⟩ (.vmodel i c X) t σ
             else applyEntriesF env f' ⟨ci, [], ce, [], cro, cex, cd⟩
               (.vmodel i c (setProp X k v)) t σ) from rfl]
      by_cases hro : cro.contains k = true
      · rw [if_pos hro, applyEntriesF_flat env ci ce cro cex cd t f' i c X σ hf',
          List.foldl_cons,
          show impStep ⟨ci, [], ce, [], cro, cex, cd⟩ X (k, v) = X from by
            rw [impStep, if_pos hro]]
      · rw [if_neg hro,
          applyEntriesF_flat env ci ce cro cex cd t f' i c (setProp X k v) σ hf',
          List.foldl_cons,
          show impStep ⟨ci, [], ce, [], cro, cex, cd⟩ X (k, v) = setProp X k v from by
            rw [impStep, if_neg hro]]

/-- `applyEntriesF_flat` for a class given abstractly with its emptiness
hypotheses. -/
theorem applyEntriesF_flat_cls (env : Env) (cls : ClassDef) (h2 : cls.types = [])
    (h1 : cls.transforms = []) (l : List (String × Val)) (f i : Nat) (c : String)
    (X : List (String × Val)) (σ : Nat) (hf : l.length + 1 ≤ f) :
    applyEntriesF env f cls (.vmodel i c X) l σ
      = some (.vmodel i c (l.foldl (impStep cls) X), σ) := by
  obtain ⟨ci, ct, ce, ctr, cro, cex, cd⟩ := cls
  have h2' : ct = [] := h2
  have h1' : ctr = [] := h1
  subst h2'
  subst h1'
  exact applyEntriesF_flat env ci ce cro cex cd l f i c X σ hf

theorem key_camel_snake {k : String} (h : noUnderLower k.data = true) :
    toCamelCaseKey (toSnakeCaseKey k) = k := by
  cases k
  exact congrArg String.mk (camel_snake_of_noUnderLower _ h)

/-- The emitted snake-cased keys of a flat, well-keyed property list are
pairwise distinct. -/
theorem emitted_snake_nodup (cls : ClassDef) (l : List (String × Val))
    (hnd : (l.map Prod.fst).Nodup)
    (hgood : ∀ p ∈ l, emitKey cls p.1 = true → noUnderLower p.1.data = true) :
    (l.filterMap
      (fun p => if emitKey cls p.1 then some (toSnakeCaseKey p.1) else none)).Nodup := by
  rw [filterMap_if_map (fun p => emitKey cls p.1) (fun p => toSnakeCaseKey p.1) l]
  have hmm : (l.filter (fun p => emitKey cls p.1)).map (fun p => toSnakeCaseKey p.1)
      = ((l.filter (fun p => emitKey cls p.1)).map Prod.fst).map toSnakeCaseKey := by
    rw [List.map_map]
    rfl
  rw [hmm]
  apply nodup_map_on ?_ (nodup_keys_filter _ l hnd)
  intro x hx y hy hxy
  obtain ⟨px, hpx, hpx1⟩ := List.mem_map.mp hx
  obtain ⟨py, hpy, hpy1⟩ := List.mem_map.mp hy
  have hex := List.mem_filter.mp hpx
  have hey := List.mem_filter.mp hpy
  subst hpx1
  subst hpy1
  exact toSnakeCaseKey_inj (hgood px hex.1 hex.2) (hgood py hey.1 hey.2) hxy

/-- Camel-casing the export of a flat, well-formed property list recovers
exactly its emitted entries. -/
theorem export_entries_roundtrip (env : Env) (cls : ClassDef) (l : List (String × Val))
    (hgood : ∀ p ∈ l, emitKey cls p.1 = true →
      noUnderLower p.1.data = true ∧ camelNormV p.2 = true ∧ containsModelV p.2 = false)
    (hnd : (l.map Prod.fst).Nodup) :
    entriesV (toCamelCaseV (.vobj (l.filterMap (exq env cls))))
      = l.filter (fun p => emitKey cls p.1) := by
  rw [show entriesV (toCamelCaseV (.vobj (l.filterMap (exq env cls))))
      = fromEntries (toCamelCaseF (l.filterMap (exq env cls))) from rfl]
  rw [toCamelCaseF_eq_map, List.map_filterMap]
  have hpt : ∀ p ∈ l, (exq env cls p).map
        (fun q => (toCamelCaseKey q.1, toCamelCaseV q.2))
      = if emitKey cls p.1 then some p else none := by
    intro p hp
    by_cases he : emitKey cls p.1 = true
    · obtain ⟨hkey, hnorm, hmf⟩ := hgood p hp he
      rw [exq, if_pos he, if_pos he,
        show isModelV p.2 = false from isModelV_of_not_containsModel hmf]
      show some (toCamelCaseKey (toSnakeCaseKey p.1), toCamelCaseV (toSnakeCaseV p.2))
        = some p
      rw [key_camel_snake hkey, camelSnakeV p.2 hnorm]
    · rw [exq, if_neg he, if_neg he]
      rfl
  rw [filterMap_congr_mem l hpt, filterMap_if_filter]
  exact fromEntries_of_nodup _ (nodup_keys_filter _ l hnd)

/-- Two property lists with the same keys in the same order export identically
when they agree on every emitted key. -/
theorem filterMap_exq_congr (env : Env) (cls : ClassDef) :
    ∀ (l1 l2 : List (String × Val)),
    l1.map Prod.fst = l2.map Prod.fst →
    (l1.map Prod.fst).Nodup →
    (∀ kk, kk ∈ l1.map Prod.fst → emitKey cls kk = true →
      getProp l1 kk = getProp l2 kk) →
    l1.filterMap (exq env cls) = l2.filterMap (exq env cls)
  | [], [], _, _, _ => rfl
  | [], _ :: _, hk, _, _ => by simp at hk
  | _ :: _, [], hk, _, _ => by simp at hk
  | (k1, v1) :: t1, (k2, v2) :: t2, hk, hnd, hv => by
    rw [List.map_cons, List.map_cons] at hk
    injection hk with hk1 hkt
    subst hk1
    rw [List.map_cons, List.nodup_cons] at hnd
    rw [List.filterMap_cons, List.filterMap_cons]
    have hrec : t1.filterMap (exq env cls) = t2.filterMap (exq env cls) := by
      apply filterMap_exq_congr env cls t1 t2 hkt hnd.2
      intro kk hkk hemit
      have hne : k1 ≠ kk := fun he => hnd.1 (he ▸ hkk)
      have hh := hv kk (List.mem_cons_of_mem _ hkk) hemit
      rw [getProp_cons_ne hne, getProp_cons_ne hne] at hh
      exact hh
    rw [hrec]
    by_cases he : emitKey cls k1 = true
    · have hv1 : v1 = v2 := by
        have hh := hv k1 (List.mem_cons_self _ _) he
        rw [getProp_cons_self, getProp_cons_self] at hh
        exact hh
      rw [hv1]
    · rw [show exq env cls (k1, v1) = none from by rw [exq, if_neg he],
        show exq env cls (k1, v2) = none from by rw [exq, if_neg he]]

/-- Unfolding of `fromJson` with snapshot capture suppressed, on a class whose
initializers and defaults contain no model values (so the per-instance refresh
is the identity). -/
theorem fromJsonF_skip_flat (env : Env) (cname : String) (cls : ClassDef) (f σ : Nat)
    (J : Val) (hcls : lookupClass env cname = cls)
    (h3 : containsModelF cls.inits = false) (h4 : containsModelF cls.dfl = false) :
    fromJsonF env (f + 1) cname J true σ
      = match applyJsonF env f (.vmodel σ cname (assignAll cls.inits cls.dfl)) J (σ + 1) with
        | none => none
        | some (inst, σ3) => some (inst, σ3) := by
  rw [show fromJsonF env (f + 1) cname J true σ
      = (match applyJsonF env f
            (.vmodel σ cname (assignAll
              (refreshF (lookupClass env cname).inits (σ + 1)).1
              (refreshF (lookupClass env cname).dfl
                (refreshF (lookupClass env cname).inits (σ + 1)).2).1))
            J
            (refreshF (lookupClass env cname).dfl
              (refreshF (lookupClass env cname).inits (σ + 1)).2).2 with
         | none => none
         | some (inst, σ3) => some (inst, σ3)) from rfl]
  rw [hcls, refreshF_modelfree cls.inits (σ + 1) h3, refreshF_modelfree cls.dfl _ h4]

/-- A flat instance's `noOptions` export is the `filterMap` of its property
list. -/
theorem toJsonV_flat (env : Env) (cname : String) (cls : ClassDef) (j : Nat)
    (P : List (String × Val)) (hcls : lookupClass env cname = cls)
    (hnd : (P.map Prod.fst).Nodup)
    (hgood : ∀ p ∈ P, emitKey cls p.1 = true → noUnderLower p.1.data = true) :
    toJsonV env noOptions (.vmodel j cname P) = .vobj (P.filterMap (exq env cls)) := by
  rw [show toJsonV env noOptions (Val.vmodel j cname P)
      = Val.vobj (exportFold env noOptions (lookupClass env cname)
          (getProp P "_originalState") P []) from rfl, hcls,
    exportFold_flat env cls _ P [] (emitted_snake_nodup cls P hnd hgood)]
  rfl

/-- Re-importing the full export of a flat, well-formed instance of a
transform-free, type-free class reproduces its export exactly: `clone`
preserves the `toJson` value. -/
theorem clone_export_eq (env : Env) (cname : String) (cls : ClassDef)
    (i σ fuel : Nat) (D' E : List (String × Val)) (a' : Val) (σ' : Nat)
    (hcls : lookupClass env cname = cls)
    (h1 : cls.transforms = []) (h2 : cls.types = [])
    (h3 : containsModelF cls.inits = false) (h4 : containsModelF cls.dfl = false)
    (h5 : D'.map Prod.fst = (assignAll cls.inits cls.dfl).map Prod.fst)
    (h7 : ((D' ++ E).map Prod.fst).Nodup)
    (h8 : ∀ kk, cls.ro.contains kk = true →
      kk ∈ (assignAll cls.inits cls.dfl).map Prod.fst)
    (h9 : ∀ kk, cls.ro.contains kk = true →
      getProp D' kk = getProp (assignAll cls.inits cls.dfl) kk)
    (h10 : ∀ p ∈ D' ++ E, emitKey cls p.1 = true →
      noUnderLower p.1.data = true ∧ camelNormV p.2 = true ∧ containsModelV p.2 = false)
    (hfuel : (D' ++ E).length + 3 ≤ fuel)
    (hclone : cloneF env fuel (.vmodel i cname (D' ++ E)) σ = some (a', σ')) :
    toJsonV env noOptions a' = toJsonV env noOptions (.vmodel i cname (D' ++ E)) := by
  have h7' := h7
  rw [List.map_append, List.nodup_append] at h7'
  have hDnd : ((assignAll cls.inits cls.dfl).map Prod.fst).Nodup := by
    rw [← h5]
    exact h7'.1
  have hEdisj : ∀ p ∈ E, p.1 ∉ (assignAll cls.inits cls.dfl).map Prod.fst := by
    intro p hp hmem
    exact h7'.2.2 (by rw [h5]; exact hmem) (List.mem_map.mpr ⟨p, hp, rfl⟩)
  have hgoodA : ∀ p ∈ D' ++ E, emitKey cls p.1 = true → noUnderLower p.1.data = true :=
    fun p hp he => (h10 p hp he).1
  obtain ⟨f, rfl⟩ : ∃ f, fuel = f + 1 := ⟨fuel - 1, by omega⟩
  rw [cloneF, show clsOf (Val.vmodel i cname (D' ++ E)) = cname from rfl,
    fromJsonF_skip_flat env cname cls f σ _ hcls h3 h4] at hclone
  obtain ⟨g, rfl⟩ : ∃ g, f = g + 1 := ⟨f - 1, by omega⟩
  rw [toJsonV_flat env cname cls i (D' ++ E) hcls h7 hgoodA] at hclone
  rw [show applyJsonF env (g + 1) (Val.vmodel σ cname (assignAll cls.inits cls.dfl))
        (Val.vobj ((D' ++ E).filterMap (exq env cls))) (σ + 1)
      = applyEntriesF env g (lookupClass env cname)
          (Val.vmodel σ cname (assignAll cls.inits cls.dfl))
          (entriesV (toCamelCaseV (Val.vobj ((D' ++ E).filterMap (exq env cls)))))
          (σ + 1) from rfl] at hclone
  rw [hcls, export_entries_roundtrip env cls (D' ++ E) h10 h7] at hclone
  have hlenf : ((D' ++ E).filter (fun p => emitKey cls p.1)).length + 1 ≤ g := by
    have hle := List.length_filter_le (fun p => emitKey cls p.1) (D' ++ E)
    omega
  rw [applyEntriesF_flat_cls env cls h2 h1 _ g σ cname (assignAll cls.inits cls.dfl)
    (σ + 1) hlenf] at hclone
  have hsome : some ((Val.vmodel σ cname
      (((D' ++ E).filter (fun p => emitKey cls p.1)).foldl (impStep cls)
        (assignAll cls.inits cls.dfl)), σ + 1) : Val × Nat) = some (a', σ') := hclone
  have ha' : a' = Val.vmodel σ cname
      (((D' ++ E).filter (fun p => emitKey cls p.1)).foldl (impStep cls)
        (assignAll cls.inits cls.dfl)) :=
    (Prod.ext_iff.mp (Option.some.inj hsome)).1.symm
  subst ha'
  rw [foldStep_closed cls ((D' ++ E).filter (fun p => emitKey cls p.1))
    (assignAll cls.inits cls.dfl) (nodup_keys_filter _ _ h7) hDnd]
  have hnil : (D'.filter (fun p => emitKey cls p.1)).filter
      (fun p => !cls.ro.contains p.1
        && !((assignAll cls.inits cls.dfl).map Prod.fst).contains p.1) = [] := by
    apply List.filter_eq_nil_iff.mpr
    intro p hp
    have hpD : p ∈ D' := (List.mem_filter.mp hp).1
    have hmem : p.1 ∈ (assignAll cls.inits cls.dfl).map Prod.fst := by
      rw [← h5]
      exact List.mem_map.mpr ⟨p, hpD, rfl⟩
    intro hcc
    rw [(scontains_iff _ _).mpr hmem] at hcc
    simp at hcc
  have hself : (E.filter (fun p => emitKey cls p.1)).filter
      (fun p => !cls.ro.contains p.1
        && !((assignAll cls.inits cls.dfl).map Prod.fst).contains p.1)
      = E.filter (fun p => emitKey cls p.1) := by
    apply List.filter_eq_self.mpr
    intro p hp
    have hpE : p ∈ E := (List.mem_filter.mp hp).1
    have hnotD : p.1 ∉ (assignAll cls.inits cls.dfl).map Prod.fst := hEdisj p hpE
    have hro : cls.ro.contains p.1 = false := by
      apply Bool.eq_false_iff.mpr
      intro hc
      exact hnotD (h8 p.1 hc)
    rw [hro, show ((assignAll cls.inits cls.dfl).map Prod.fst).contains p.1 = false from
      Bool.eq_false_iff.mpr (fun hc => hnotD ((scontains_iff _ _).mp hc))]
    rfl
  have hnewX : newX cls ((D' ++ E).filter (fun p => emitKey cls p.1))
      (assignAll cls.inits cls.dfl) = E.filter (fun p => emitKey cls p.1) := by
    rw [newX, List.filter_append, List.filter_append, hnil, hself, List.nil_append]
  rw [hnewX]
  have hkeysU : (updX cls ((D' ++ E).filter (fun p => emitKey cls p.1))
      (assignAll cls.inits cls.dfl)).map Prod.fst = D'.map Prod.fst := by
    rw [keys_updX]
    exact h5.symm
  have hP'nd : (((updX cls ((D' ++ E).filter (fun p => emitKey cls p.1))
      (assignAll cls.inits cls.dfl)) ++ E.filter (fun p => emitKey cls p.1)).map
        Prod.fst).Nodup := by
    rw [List.map_append, hkeysU, List.nodup_append]
    refine ⟨h7'.1, nodup_keys_filter _ E h7'.2.1, ?_⟩
    intro a ha haf
    obtain ⟨p, hp, hp1⟩ := List.mem_map.mp haf
    exact h7'.2.2 ha (List.mem_map.mpr ⟨p, (List.mem_filter.mp hp).1, hp1⟩)
  have hgoodP : ∀ p ∈ (updX cls ((D' ++ E).filter (fun p => emitKey cls p.1))
        (assignAll cls.inits cls.dfl)) ++ E.filter (fun p => emitKey cls p.1),
      emitKey cls p.1 = true → noUnderLower p.1.data = true := by
    intro p hp he
    rcases List.mem_append.mp hp with hm | hm
    · have hk : p.1 ∈ D'.map Prod.fst := by
        rw [← hkeysU]
        exact List.mem_map.mpr ⟨p, hm, rfl⟩
      have hmem := getProp_mem_of_mem_keys D' hk
      exact (h10 (p.1, getProp D' p.1) (List.mem_append.mpr (Or.inl hmem)) he).1
    · have hpE : p ∈ E := (List.mem_filter.mp hm).1
      exact (h10 p (List.mem_append.mpr (Or.inr hpE)) he).1
  rw [toJsonV_flat env cname cls σ _ hcls hP'nd hgoodP,
    toJsonV_flat env cname cls i _ hcls h7 hgoodA]
  have hcongr : (updX cls ((D' ++ E).filter (fun p => emitKey cls p.1))
      (assignAll cls.inits cls.dfl)).filterMap (exq env cls)
      = D'.filterMap (exq env cls) := by
    apply filterMap_exq_congr env cls _ D' hkeysU (by rw [hkeysU]; exact h7'.1)
    intro kk hkk hemit
    rw [hkeysU] at hkk
    have hkD : kk ∈ (assignAll cls.inits cls.dfl).map Prod.fst := by
      rw [← h5]
      exact hkk
    rw [getProp_updX cls _ _ hkD]
    by_cases hkro : cls.ro.contains kk = true
    · cases hl : lookupA ((D' ++ E).filter (fun p => emitKey cls p.1)) kk with
      | some w =>
        rw [updVal_some (p := (kk, getProp (assignAll cls.inits cls.dfl) kk)) hl,
          if_pos hkro]
        exact (h9 kk hkro).symm
      | none =>
        rw [updVal_none (p := (kk, getProp (assignAll cls.inits cls.dfl) kk)) hl]
        exact (h9 kk hkro).symm
    · have hkro' : cls.ro.contains kk = false := Bool.eq_false_iff.mpr hkro
      have hmemD' := getProp_mem_of_mem_keys D' hkk
      have hmemEF : (kk, getProp D' kk) ∈ (D' ++ E).filter (fun p => emitKey cls p.1) :=
        List.mem_filter.mpr ⟨List.mem_append.mpr (Or.inl hmemD'), hemit⟩
      have hl := lookupA_some_of_mem_nodup _ hmemEF (nodup_keys_filter _ _ h7)
      rw [updVal_some (p := (kk, getProp (assignAll cls.inits cls.dfl) kk)) hl,
        if_neg (fun hcc => Bool.false_ne_true (hkro' ▸ hcc))]
  have habsorb : (E.filter (fun p => emitKey cls p.1)).filterMap (exq env cls)
      = E.filterMap (exq env cls) :=
    filterMap_filter_none E (fun p _ hq => by
      rw [exq, if_neg (fun hcc => Bool.false_ne_true (hq ▸ hcc))])
  exact congrArg Val.vobj (by
    rw [List.filterMap_append, hcongr, habsorb, ← List.filterMap_append])

theorem vmodel_eta {a : Val} (hm : isModelV a = true) :
    a = Val.vmodel (idOf a) (clsOf a) (propsOf a) := by
  cases a <;> first | rfl | exact absurd hm Bool.false_ne_true

/-- Two objects that agree up to one same-named entry with differently
serialized values serialize differently. -/
theorem jeqOpt_vobj_entry_ne (pre rest1 rest2 : List (String × Val)) (sk : String)
    (x y : Val) (jx jy : JVal) (hx : stringifyV x = some jx) (hy : stringifyV y = some jy)
    (hne : jeqV jx jy = false) :
    jeqOpt (stringifyV (.vobj (pre ++ (sk, x) :: rest1)))
      (stringifyV (.vobj (pre ++ (sk, y) :: rest2))) = false := by
  show jeqF (stringifyF (pre ++ (sk, x) :: rest1)) (stringifyF (pre ++ (sk, y) :: rest2))
    = false
  rw [stringifyF_append, stringifyF_append,
    show stringifyF ((sk, x) :: rest1) = (sk, jx) :: stringifyF rest1 from by
      rw [stringifyF, hx],
    show stringifyF ((sk, y) :: rest2) = (sk, jy) :: stringifyF rest2 from by
      rw [stringifyF, hy],
    jeqF_append_left]
  show (sk == sk && jeqV jx jy && jeqF (stringifyF rest1) (stringifyF rest2)) = false
  rw [hne, Bool.and_false, Bool.false_and]

/-- Mutating an emitted property of a flat instance to a value with a
different serialization changes the serialized export. -/
theorem export_mut_ne (env : Env) (cname : String) (cls : ClassDef) (j : Nat)
    (P : List (String × Val)) (k : String) (w : Val) (ju jw : JVal)
    (hcls : lookupClass env cname = cls)
    (hnd : (P.map Prod.fst).Nodup)
    (hgood : ∀ p ∈ P, emitKey cls p.1 = true → noUnderLower p.1.data = true)
    (hk : k ∈ P.map Prod.fst)
    (hemit : emitKey cls k = true)
    (hum : isModelV (getProp P k) = false)
    (hwm : isModelV w = false)
    (hju : stringifyV (toSnakeCaseV (getProp P k)) = some ju)
    (hjw : stringifyV (toSnakeCaseV w) = some jw)
    (hne : jeqV ju jw = false) :
    jeqOpt (stringifyV (toJsonV env noOptions (.vmodel j cname P)))
      (stringifyV (toJsonV env noOptions (setPropM (.vmodel j cname P) k w))) = false := by
  obtain ⟨l1, u, l2, heqP, hnotl1⟩ := exists_split_first P hk
  subst heqP
  have hu : getProp (l1 ++ (k, u) :: l2) k = u := by
    rw [getProp_append_not_mem l1 _ hnotl1, getProp_cons_self]
  rw [hu] at hum hju
  rw [show setPropM (Val.vmodel j cname (l1 ++ (k, u) :: l2)) k w
      = Val.vmodel j cname (setProp (l1 ++ (k, u) :: l2) k w) from rfl,
    setProp_split u w l1 l2 hnotl1]
  have hkeys_mut : (l1 ++ (k, w) :: l2).map Prod.fst
      = (l1 ++ (k, u) :: l2).map Prod.fst := by
    rw [List.map_append, List.map_append, List.map_cons, List.map_cons]
  have hnd_mut : ((l1 ++ (k, w) :: l2).map Prod.fst).Nodup := by
    rw [hkeys_mut]
    exact hnd
  have hkey_nul : noUnderLower k.data = true :=
    hgood (k, u) (List.mem_append.mpr (Or.inr (List.mem_cons_self _ _))) hemit
  have hgood_mut : ∀ p ∈ l1 ++ (k, w) :: l2, emitKey cls p.1 = true →
      noUnderLower p.1.data = true := by
    intro p hp he
    rcases List.mem_append.mp hp with hm | hm
    · exact hgood p (List.mem_append.mpr (Or.inl hm)) he
    · rcases List.mem_cons.mp hm with hh | hm'
      · rw [hh]
        exact hkey_nul
      · exact hgood p (List.mem_append.mpr (Or.inr (List.mem_cons_of_mem _ hm'))) he
  rw [toJsonV_flat env cname cls j _ hcls hnd hgood,
    toJsonV_flat env cname cls j _ hcls hnd_mut hgood_mut,
    List.filterMap_append, List.filterMap_append,
    List.filterMap_cons, List.filterMap_cons,
    show exq env cls (k, u) = some (toSnakeCaseKey k, toSnakeCaseV u) from by
      rw [exq, if_pos hemit, hum]
      rfl,
    show exq env cls (k, w) = some (toSnakeCaseKey k, toSnakeCaseV w) from by
      rw [exq, if_pos hemit, hwm]
      rfl]
  exact jeqOpt_vobj_entry_ne (l1.filterMap (exq env cls))
    (l2.filterMap (exq env cls)) (l2.filterMap (exq env cls)) (toSnakeCaseKey k)
    (toSnakeCaseV u) (toSnakeCaseV w) ju jw hju hjw hne

/-- C8: as stated the claim is false (`c8_counterexample`: a `@Transform`
field is transformed a second time by the clone's re-import). The corrected
claim: on a transform-free, `@Type`-free class, for a flat well-formed
instance (deduplicated camel-case keys, model-free field values, read-only
fields still holding their model-free initializer values),
`isEqual(a, a.clone())` is true, and mutating any exported (non-underscore,
non-excluded) field of the clone to a value with a different serialization
makes `isEqual` false. -/
theorem c8_clone_isEqual_flat
    (env : Env) (cname : String) (cls : ClassDef)
    (i σ fuel : Nat) (D' E : List (String × Val)) (a' : Val) (σ' : Nat)
    (k : String) (w : Val) (ju jw : JVal)
    (hcls : lookupClass env cname = cls)
    (h1 : cls.transforms = []) (h2 : cls.types = [])
    (h3 : containsModelF cls.inits = false) (h4 : containsModelF cls.dfl = false)
    (h5 : D'.map Prod.fst = (assignAll cls.inits cls.dfl).map Prod.fst)
    (h7 : ((D' ++ E).map Prod.fst).Nodup)
    (h8 : ∀ kk, cls.ro.contains kk = true →
      kk ∈ (assignAll cls.inits cls.dfl).map Prod.fst)
    (h9 : ∀ kk, cls.ro.contains kk = true →
      getProp D' kk = getProp (assignAll cls.inits cls.dfl) kk)
    (h10 : ∀ p ∈ D' ++ E, emitKey cls p.1 = true →
      noUnderLower p.1.data = true ∧ camelNormV p.2 = true ∧ containsModelV p.2 = false)
    (hfuel : (D' ++ E).length + 3 ≤ fuel)
    (hclone : cloneF env fuel (.vmodel i cname (D' ++ E)) σ = some (a', σ'))
    (hmod : isModelV a' = true) (hcname : clsOf a' = cname)
    (hndP : ((propsOf a').map Prod.fst).Nodup)
    (hgoodP : ∀ p ∈ propsOf a', emitKey cls p.1 = true → noUnderLower p.1.data = true)
    (hkP : k ∈ (propsOf a').map Prod.fst)
    (hemit : emitKey cls k = true)
    (hum : isModelV (getProp (propsOf a') k) = false)
    (hwm : isModelV w = false)
    (hju : stringifyV (toSnakeCaseV (getProp (propsOf a') k)) = some ju)
    (hjw : stringifyV (toSnakeCaseV w) = some jw)
    (hne : jeqV ju jw = false) :
    isEqualV env (Val.vmodel i cname (D' ++ E)) a' = true
      ∧ isEqualV env (Val.vmodel i cname (D' ++ E)) (setPropM a' k w) = false := by
  have hexp := clone_export_eq env cname cls i σ fuel D' E a' σ' hcls h1 h2 h3 h4 h5
    h7 h8 h9 h10 hfuel hclone
  constructor
  · rw [isEqualV, hexp]
    exact jeqOpt_refl _
  · rw [isEqualV, ← hexp]
    have hmut := export_mut_ne env cname cls (idOf a') (propsOf a') k w ju jw hcls
      hndP hgoodP hkP hemit hum hwm hju hjw hne
    rw [← hcname, ← vmodel_eta hmod] at hmut
    exact hmut

/-- Flat witness class for the corrected C8: a read-only field with an
initializer, an excluded field, no transforms and no `@Type` metadata. -/
def c8fCls : ClassDef :=
  ⟨[("name", .vstr "n0"), ("createdAt", .vstr "t0")], [], ["password"], [],
    ["createdAt"], [], []⟩

def c8fEnv : Env := [("F", c8fCls)]

def c8fD : List (String × Val) := [("name", .vstr "Alice"), ("createdAt", .vstr "t0")]

def c8fE : List (String × Val) := [("password", .vstr "sec"), ("nickname", .vstr "Al")]

/-- The clone that `cloneF` computes for the witness instance. -/
def c8fclone : Val := .vmodel 0 "F"
  [("name", .vstr "Alice"), ("createdAt", .vstr "t0"), ("nickname", .vstr "Al")]

/-- Witness for `c8_clone_isEqual_flat` at a concrete flat instance: the clone
is `isEqual` to the original, and mutating its `name` field breaks it. -/
theorem c8_clone_isEqual_flat_witness :
    isEqualV c8fEnv (Val.vmodel 7 "F" (c8fD ++ c8fE)) c8fclone = true
      ∧ isEqualV c8fEnv (Val.vmodel 7 "F" (c8fD ++ c8fE))
          (setPropM c8fclone "name" (.vstr "Bob")) = false :=
  c8_clone_isEqual_flat c8fEnv "F" c8fCls 7 0 10 c8fD c8fE c8fclone 1 "name"
    (.vstr "Bob") (.jstr "Alice") (.jstr "Bob")
    rfl rfl rfl rfl rfl (by decide) (by decide)
    (fun kk hkk => by
      rw [List.mem_singleton.mp ((scontains_iff _ _).mp hkk)]
      decide)
    (fun kk hkk => by
      rw [List.mem_singleton.mp ((scontains_iff _ _).mp hkk)]
      rfl)
    (by decide) (by decide) rfl rfl rfl (by decide) (by decide) (by decide)
    (by decide) rfl rfl rfl rfl (by decide)

/-! ### Construction-time snapshot analysis (`fromJson` with capture) -/

theorem lookupA_mem {α : Type} {k : String} {v : α} :
    ∀ l : List (String × α), lookupA l k = some v → (k, v) ∈ l
  | [], h => by simp [lookupA] at h
  | (k', v') :: t, h => by
    by_cases hb : (k' == k) = true
    · have he : k' = k := eq_of_beq hb
      subst he
      rw [lookupA_cons_self] at h
      rw [← Option.some.inj h]
      exact List.mem_cons_self _ _
    · rw [lookupA_cons_ne (Bool.eq_false_iff.mpr hb) v' t] at h
      exact List.mem_cons_of_mem _ (lookupA_mem t h)

theorem getProp_not_mem {k : String} :
    ∀ l : List (String × Val), k ∉ l.map Prod.fst → getProp l k = .undef
  | [], _ => rfl
  | (k', v) :: t, h => by
    rw [List.map_cons, List.mem_cons, not_or] at h
    rw [getProp_cons_ne (fun he => h.1 he.symm)]
    exact getProp_not_mem t h.2

/-- The import fold leaves a property list unchanged when every input value
under an existing key already equals that key's current value. -/
theorem updX_id (cls : ClassDef) (l : List (String × Val)) :
    ∀ X : List (String × Val), (∀ q ∈ X, ∀ v, lookupA l q.1 = some v → v = q.2) →
    updX cls l X = X
  | [], _ => rfl
  | q :: t, h => by
    show (q.1, updVal cls l q) :: updX cls l t = q :: t
    rw [updX_id cls l t (fun q' hq' => h q' (List.mem_cons_of_mem _ hq'))]
    cases hl : lookupA l q.1 with
    | some v =>
      rw [updVal_some hl]
      rw [h q (List.mem_cons_self _ _) v hl]
      by_cases hro : cls.ro.contains q.1 = true
      · rw [if_pos hro]
      · rw [if_neg hro]
    | none => rw [updVal_none hl]

theorem length_setProp_le (props : List (String × Val)) (k : String) (v : Val) :
    (setProp props k v).length ≤ props.length + 1 := by
  induction props with
  | nil => simp [setProp]
  | cons p t ih =>
    obtain ⟨k', v'⟩ := p
    show (if (k' == k) = true then (k', v) :: t else (k', v') :: setProp t k v).length
      ≤ ((k', v') :: t).length + 1
    by_cases hb : (k' == k) = true
    · rw [if_pos hb]
      simp
    · rw [if_neg hb]
      rw [List.length_cons, List.length_cons]
      omega

theorem length_assignAll_le :
    ∀ (ps acc : List (String × Val)), (assignAll acc ps).length ≤ acc.length + ps.length
  | [], acc => by simp [assignAll]
  | (k, v) :: t, acc => by
    show (assignAll (setProp acc k v) t).length ≤ acc.length + ((k, v) :: t).length
    have h1 := length_assignAll_le t (setProp acc k v)
    have h2 := length_setProp_le acc k v
    rw [List.length_cons]
    omega

mutual
theorem containsModel_camel : ∀ v : Val, containsModelV v = false →
    containsModelV (toCamelCaseV v) = false
  | .undef, _ => rfl
  | .vnull, _ => rfl
  | .vbool _, _ => rfl
  | .vnum _, _ => rfl
  | .vstr _, _ => rfl
  | .vmodel _ _ _, h => h
  | .varr l, h => by
    show containsModelA (toCamelCaseA l) = false
    exact containsModel_camelA l h
  | .vobj fs, h => by
    show containsModelF (fromEntries (toCamelCaseF fs)) = false
    rw [containsModelF_all]
    intro p hp
    have hp' := mem_fromEntries _ hp
    exact (containsModelF_all _).mp (containsModel_camelF fs h) p hp'

theorem containsModel_camelA : ∀ l : List Val, containsModelA l = false →
    containsModelA (toCamelCaseA l) = false
  | [], _ => rfl
  | v :: t, h => by
    rw [show containsModelA (v :: t) = (containsModelV v || containsModelA t) from rfl,
      Bool.or_eq_false_iff] at h
    show (containsModelV (toCamelCaseV v) || containsModelA (toCamelCaseA t)) = false
    rw [containsModel_camel v h.1, containsModel_camelA t h.2]
    rfl

theorem containsModel_camelF : ∀ fs : List (String × Val), containsModelF fs = false →
    containsModelF (toCamelCaseF fs) = false
  | [], _ => rfl
  | (k, v) :: t, h => by
    rw [show containsModelF ((k, v) :: t) = (containsModelV v || containsModelF t) from rfl,
      Bool.or_eq_false_iff] at h
    show (containsModelV (toCamelCaseV v) || containsModelF (toCamelCaseF t)) = false
    rw [containsModel_camel v h.1, containsModel_camelF t h.2]
    rfl
end

/-- Unfolding of `fromJson` with snapshot capture, on a class whose
initializers and defaults contain no model values. -/
theorem fromJsonF_noskip_flat (env : Env) (cname : String) (cls : ClassDef) (f σ : Nat)
    (J : Val) (hcls : lookupClass env cname = cls)
    (h3 : containsModelF cls.inits = false) (h4 : containsModelF cls.dfl = false) :
    fromJsonF env (f + 1) cname J false σ
      = match applyJsonF env f (.vmodel σ cname (assignAll cls.inits cls.dfl)) J (σ + 1) with
        | none => none
        | some (inst, σ3) =>
          match fromJsonF env f cname (toJsonV env noOptions inst) true σ3 with
          | none => none
          | some (orig, σ4) => some (setPropM inst "_originalState" orig, σ4) := by
  rw [show fromJsonF env (f + 1) cname J false σ
      = (match applyJsonF env f
            (.vmodel σ cname (assignAll
              (refreshF (lookupClass env cname).inits (σ + 1)).1
              (refreshF (lookupClass env cname).dfl
                (refreshF (lookupClass env cname).inits (σ + 1)).2).1))
            J
            (refreshF (lookupClass env cname).dfl
              (refreshF (lookupClass env cname).inits (σ + 1)).2).2 with
         | none => none
         | some (inst, σ3) =>
           match fromJsonF env f cname (toJsonV env noOptions inst) true σ3 with
           | none => none
           | some (orig, σ4) => some (setPropM inst "_originalState" orig, σ4)) from rfl]
  rw [hcls, refreshF_modelfree cls.inits (σ + 1) h3, refreshF_modelfree cls.dfl _ h4]

/-- `applyJson` of a plain object on a type-free, transform-free class. -/
theorem applyJsonF_obj_flat (env : Env) (cname : String) (cls : ClassDef)
    (G j σx : Nat) (X : List (String × Val)) (J : List (String × Val))
    (hcls : lookupClass env cname = cls) (h2 : cls.types = []) (h1 : cls.transforms = [])
    (hf : (fromEntries (toCamelCaseF J)).length + 1 ≤ G) :
    applyJsonF env (G + 1) (.vmodel j cname X) (.vobj J) σx
      = some (.vmodel j cname
          ((fromEntries (toCamelCaseF J)).foldl (impStep cls) X), σx) := by
  rw [show applyJsonF env (G + 1) (Val.vmodel j cname X) (Val.vobj J) σx
      = applyEntriesF env G (lookupClass env cname) (Val.vmodel j cname X)
          (fromEntries (toCamelCaseF J)) σx from rfl, hcls]
  exact applyEntriesF_flat_cls env cls h2 h1 _ G j cname X σx hf

/-- Re-running the import fold of entries already imported into a base is a
no-op: existing keys get re-assigned their current values, and no key is new. -/
theorem foldStep_idem (cls : ClassDef) (l X : List (String × Val))
    (hndl : (l.map Prod.fst).Nodup) (hndX : (X.map Prod.fst).Nodup) :
    (l.foldl (impStep cls) X).foldl (impStep cls) X = l.foldl (impStep cls) X := by
  rw [foldStep_closed cls l X hndl hndX]
  have hUkeys : (updX cls l X).map Prod.fst = X.map Prod.fst := keys_updX cls l X
  have hNkeys : ((newX cls l X).map Prod.fst).Nodup := nodup_keys_filter _ l hndl
  have hPnd : (((updX cls l X) ++ newX cls l X).map Prod.fst).Nodup := by
    rw [List.map_append, hUkeys, List.nodup_append]
    refine ⟨hndX, hNkeys, ?_⟩
    intro a ha haf
    obtain ⟨p, hp, hp1⟩ := List.mem_map.mp haf
    have hcond := (List.mem_filter.mp hp).2
    rw [Bool.and_eq_true] at hcond
    have hpa : p.1 ∈ X.map Prod.fst := by
      rw [hp1]
      exact ha
    rw [(scontains_iff _ _).mpr hpa] at hcond
    simp at hcond
  rw [foldStep_closed cls _ X hPnd hndX]
  have hA : updX cls ((updX cls l X) ++ newX cls l X) X = updX cls l X := by
    rw [show updX cls ((updX cls l X) ++ newX cls l X) X
        = X.map (fun p => (p.1, updVal cls ((updX cls l X) ++ newX cls l X) p)) from rfl]
    conv_rhs => rw [show updX cls l X = X.map (fun p => (p.1, updVal cls l p)) from rfl]
    apply List.map_congr_left
    intro q hq
    have hq1 : q.1 ∈ ((updX cls l X) ++ newX cls l X).map Prod.fst := by
      rw [List.map_append, hUkeys]
      exact List.mem_append.mpr (Or.inl (List.mem_map.mpr ⟨q, hq, rfl⟩))
    have hgp : getProp ((updX cls l X) ++ newX cls l X) q.1 = updVal cls l q := by
      rw [getProp_append_mem _ _ (by rw [hUkeys]; exact List.mem_map.mpr ⟨q, hq, rfl⟩),
        getProp_updX cls l X (List.mem_map.mpr ⟨q, hq, rfl⟩),
        getProp_eq_of_mem_nodup X hq hndX]
    have hl2 : lookupA ((updX cls l X) ++ newX cls l X) q.1
        = some (updVal cls l q) := by
      rw [← hgp]
      exact lookupA_some_of_mem_nodup _ (getProp_mem_of_mem_keys _ hq1) hPnd
    rw [updVal_some (p := q) hl2]
    by_cases hro : cls.ro.contains q.1 = true
    · rw [if_pos hro]
      cases hl : lookupA l q.1 with
      | some v => rw [updVal_some (p := q) hl, if_pos hro]
      | none => rw [updVal_none (p := q) hl]
    · rw [if_neg hro]
  have hu : (updX cls l X).filter (fun p => !cls.ro.contains p.1
      && !(X.map Prod.fst).contains p.1) = [] := by
    apply List.filter_eq_nil_iff.mpr
    intro p hp hcc
    have hmem : p.1 ∈ X.map Prod.fst := by
      rw [← hUkeys]
      exact List.mem_map.mpr ⟨p, hp, rfl⟩
    rw [(scontains_iff _ _).mpr hmem] at hcc
    simp at hcc
  have hn : (newX cls l X).filter (fun p => !cls.ro.contains p.1
      && !(X.map Prod.fst).contains p.1) = newX cls l X := by
    apply List.filter_eq_self.mpr
    intro p hp
    exact (List.mem_filter.mp hp).2
  have hB : newX cls ((updX cls l X) ++ newX cls l X) X = newX cls l X := by
    show ((updX cls l X) ++ newX cls l X).filter (fun p => !cls.ro.contains p.1
        && !(X.map Prod.fst).contains p.1) = newX cls l X
    rw [List.filter_append, hu, hn, List.nil_append]
  rw [hA, hB]

/-- The snapshot re-import (`fromJson` of the export, capture suppressed) of a
flat instance whose properties are all emitted rebuilds an instance with the
re-imported fold of the same properties. -/
theorem fromJsonF_skip_on_flat_inst (env : Env) (cname : String) (cls : ClassDef)
    (f j σx : Nat) (P : List (String × Val))
    (hcls : lookupClass env cname = cls)
    (h1 : cls.transforms = []) (h2 : cls.types = [])
    (h3 : containsModelF cls.inits = false) (h4 : containsModelF cls.dfl = false)
    (hnd : (P.map Prod.fst).Nodup)
    (hgood : ∀ p ∈ P, emitKey cls p.1 = true →
      noUnderLower p.1.data = true ∧ camelNormV p.2 = true ∧ containsModelV p.2 = false)
    (hemitP : ∀ p ∈ P, emitKey cls p.1 = true)
    (hf : P.length + 3 ≤ f) :
    fromJsonF env f cname (toJsonV env noOptions (.vmodel j cname P)) true σx
      = some (.vmodel σx cname (P.foldl (impStep cls)
          (assignAll cls.inits cls.dfl)), σx + 1) := by
  obtain ⟨f1, rfl⟩ : ∃ f1, f = f1 + 1 := ⟨f - 1, by omega⟩
  rw [fromJsonF_skip_flat env cname cls f1 σx _ hcls h3 h4]
  obtain ⟨g, rfl⟩ : ∃ g, f1 = g + 1 := ⟨f1 - 1, by omega⟩
  rw [toJsonV_flat env cname cls j P hcls hnd (fun p hp he => (hgood p hp he).1)]
  have hfe : fromEntries (toCamelCaseF (P.filterMap (exq env cls)))
      = P.filter (fun p => emitKey cls p.1) :=
    export_entries_roundtrip env cls P hgood hnd
  have hfilter : P.filter (fun p => emitKey cls p.1) = P :=
    List.filter_eq_self.mpr hemitP
  rw [applyJsonF_obj_flat env cname cls g σx (σx + 1) (assignAll cls.inits cls.dfl)
    (P.filterMap (exq env cls)) hcls h2 h1 (by
      rw [hfe, hfilter]
      omega)]
  rw [hfe, hfilter]

/-- C4: as stated the claim is false (`c4_counterexample`: immediately after
construction `getChangesSince()` already contains `_originalState` and any
excluded field). Corrected claim, proven for exclusion-free, transform-free,
`@Type`-free classes on model-free input: after construction `getChangesSince`
contains exactly the internal `_originalState` entry (nothing user-visible);
after mutating one non-read-only declared field to a value with a different
serialization it contains exactly that field plus `_originalState`; and
`reset()` restores the instance verbatim, leaving it exactly as constructed. -/
theorem c4_changes_snapshot_flat
    (env : Env) (cname : String) (cls : ClassDef)
    (fuel fuel2 σ σ₂ σ₃ : Nat) (J : List (String × Val)) (a : Val)
    (kk : String) (w : Val)
    (hcls : lookupClass env cname = cls)
    (h1 : cls.transforms = []) (h2 : cls.types = []) (hx : cls.excl = [])
    (h3 : containsModelF cls.inits = false) (h4 : containsModelF cls.dfl = false)
    (hc3 : camelNormF cls.inits = true) (hc4 : camelNormF cls.dfl = true)
    (hDnd : ((assignAll cls.inits cls.dfl).map Prod.fst).Nodup)
    (hDu : ∀ k ∈ (assignAll cls.inits cls.dfl).map Prod.fst,
      startsUnderscore k = false ∧ noUnderLower k.data = true)
    (hJu : ∀ p ∈ fromEntries (toCamelCaseF J), startsUnderscore p.1 = false)
    (hJm : containsModelF J = false)
    (hfuel : (assignAll cls.inits cls.dfl).length + J.length + 4 ≤ fuel)
    (hfrom : fromJsonF env fuel cname (.vobj J) false σ = some (a, σ₂))
    (hkkD : kk ∈ (assignAll cls.inits cls.dfl).map Prod.fst)
    (hkkro : cls.ro.contains kk = false)
    (hne : jeqOpt (stringifyV w) (stringifyV (getProp (propsOf a) kk)) = false)
    (hfuel2 : (assignAll cls.inits cls.dfl).length + J.length + 2 ≤ fuel2) :
    (getChangesSinceV a).map Prod.fst = ["_originalState"]
      ∧ (getChangesSinceV (setPropM a kk w)).map Prod.fst = [kk, "_originalState"]
      ∧ resetF env fuel2 (setPropM a kk w) σ₃ = some (a, σ₃) := by
  obtain ⟨F, rfl⟩ : ∃ F, fuel = F + 1 := ⟨fuel - 1, by omega⟩
  rw [fromJsonF_noskip_flat env cname cls F σ _ hcls h3 h4] at hfrom
  obtain ⟨G, rfl⟩ : ∃ G, F = G + 1 := ⟨F - 1, by omega⟩
  have hlenJc : (fromEntries (toCamelCaseF J)).length ≤ J.length := by
    have hl1 := length_assignAll_le (toCamelCaseF J) []
    have hl2 : (toCamelCaseF J).length = J.length := by
      rw [toCamelCaseF_eq_map, List.length_map]
    rw [show fromEntries (toCamelCaseF J) = assignAll [] (toCamelCaseF J) from rfl]
    simp only [List.length_nil] at hl1
    omega
  rw [applyJsonF_obj_flat env cname cls G σ (σ + 1) (assignAll cls.inits cls.dfl) J
    hcls h2 h1 (by omega)] at hfrom
  obtain ⟨P, hPg⟩ : ∃ P, (fromEntries (toCamelCaseF J)).foldl (impStep cls)
      (assignAll cls.inits cls.dfl) = P := ⟨_, rfl⟩
  rw [hPg] at hfrom
  have hPsplit : P = updX cls (fromEntries (toCamelCaseF J)) (assignAll cls.inits cls.dfl)
      ++ newX cls (fromEntries (toCamelCaseF J)) (assignAll cls.inits cls.dfl) := by
    rw [← hPg]
    exact foldStep_closed cls _ _ (nodup_keys_fromEntries _) hDnd
  have hPP : P.foldl (impStep cls) (assignAll cls.inits cls.dfl) = P := by
    rw [← hPg]
    exact foldStep_idem cls _ _ (nodup_keys_fromEntries _) hDnd
  have hJcGood : ∀ p ∈ fromEntries (toCamelCaseF J),
      noUnderLower p.1.data = true ∧ camelNormV p.2 = true
        ∧ containsModelV p.2 = false := by
    intro p hp
    have hp' := mem_fromEntries _ hp
    rw [toCamelCaseF_eq_map] at hp'
    obtain ⟨q, hq, hqe⟩ := List.mem_map.mp hp'
    have hqm : containsModelV q.2 = false := (containsModelF_all J).mp hJm q hq
    refine ⟨?_, ?_, ?_⟩
    · rw [← hqe]
      exact noUnderLower_camel q.1.data
    · rw [← hqe]
      exact camelNorm_camelV q.2
    · rw [← hqe]
      exact containsModel_camel q.2 hqm
  have hDGood : ∀ p ∈ assignAll cls.inits cls.dfl,
      camelNormV p.2 = true ∧ containsModelV p.2 = false := by
    intro p hp
    rcases mem_assignAll _ _ hp with hm | hm
    · exact ⟨(camelNormF_all _).mp hc3 p hm, (containsModelF_all _).mp h3 p hm⟩
    · exact ⟨(camelNormF_all _).mp hc4 p hm, (containsModelF_all _).mp h4 p hm⟩
  have hPfact : ∀ p ∈ P, (startsUnderscore p.1 = false ∧ noUnderLower p.1.data = true)
      ∧ camelNormV p.2 = true ∧ containsModelV p.2 = false := by
    intro p hp
    rw [hPsplit] at hp
    rcases List.mem_append.mp hp with hm | hm
    · rw [show updX cls (fromEntries (toCamelCaseF J)) (assignAll cls.inits cls.dfl)
          = (assignAll cls.inits cls.dfl).map
            (fun q => (q.1, updVal cls (fromEntries (toCamelCaseF J)) q)) from rfl] at hm
      obtain ⟨q, hq, hqe⟩ := List.mem_map.mp hm
      have hqk : q.1 ∈ (assignAll cls.inits cls.dfl).map Prod.fst :=
        List.mem_map.mpr ⟨q, hq, rfl⟩
      constructor
      · rw [← hqe]
        exact hDu q.1 hqk
      · rw [← hqe]
        show camelNormV (updVal cls (fromEntries (toCamelCaseF J)) q) = true
          ∧ containsModelV (updVal cls (fromEntries (toCamelCaseF J)) q) = false
        cases hl : lookupA (fromEntries (toCamelCaseF J)) q.1 with
        | some v =>
          rw [updVal_some hl]
          by_cases hqro : cls.ro.contains q.1 = true
          · rw [if_pos hqro]
            exact ⟨(hDGood q hq).1, (hDGood q hq).2⟩
          · rw [if_neg hqro]
            have hvm := lookupA_mem _ hl
            exact ⟨(hJcGood _ hvm).2.1, (hJcGood _ hvm).2.2⟩
        | none =>
          rw [updVal_none hl]
          exact ⟨(hDGood q hq).1, (hDGood q hq).2⟩
    · have hpJc : p ∈ fromEntries (toCamelCaseF J) := (List.mem_filter.mp hm).1
      exact ⟨⟨hJu p hpJc, (hJcGood p hpJc).1⟩,
        (hJcGood p hpJc).2.1, (hJcGood p hpJc).2.2⟩
  have hPnd : (P.map Prod.fst).Nodup := by
    rw [hPsplit, List.map_append, keys_updX, List.nodup_append]
    refine ⟨hDnd, nodup_keys_filter _ _ (nodup_keys_fromEntries _), ?_⟩
    intro x hxm hxn
    obtain ⟨p, hp, hp1⟩ := List.mem_map.mp hxn
    have hcond := (List.mem_filter.mp hp).2
    rw [Bool.and_eq_true] at hcond
    have hmem : p.1 ∈ (assignAll cls.inits cls.dfl).map Prod.fst := by
      rw [hp1]
      exact hxm
    rw [(scontains_iff _ _).mpr hmem] at hcond
    simp at hcond
  have hPemit : ∀ p ∈ P, emitKey cls p.1 = true := by
    intro p hp
    have hu := ((hPfact p hp).1).1
    rw [emitKey, hu, hx]
    rfl
  have hPgoodTriple : ∀ p ∈ P, emitKey cls p.1 = true →
      noUnderLower p.1.data = true ∧ camelNormV p.2 = true
        ∧ containsModelV p.2 = false :=
    fun p hp _ => ⟨((hPfact p hp).1).2, (hPfact p hp).2.1, (hPfact p hp).2.2⟩
  have hO : "_originalState" ∉ P.map Prod.fst := by
    intro hm
    obtain ⟨p, hp, hp1⟩ := List.mem_map.mp hm
    have hu := ((hPfact p hp).1).1
    rw [hp1] at hu
    exact absurd hu (by decide)
  have hlenP : P.length ≤ (assignAll cls.inits cls.dfl).length + J.length := by
    have hU : (updX cls (fromEntries (toCamelCaseF J))
        (assignAll cls.inits cls.dfl)).length
        = (assignAll cls.inits cls.dfl).length := by
      rw [show updX cls (fromEntries (toCamelCaseF J)) (assignAll cls.inits cls.dfl)
          = (assignAll cls.inits cls.dfl).map
            (fun q => (q.1, updVal cls (fromEntries (toCamelCaseF J)) q)) from rfl,
        List.length_map]
    have hN : (newX cls (fromEntries (toCamelCaseF J))
        (assignAll cls.inits cls.dfl)).length
        ≤ (fromEntries (toCamelCaseF J)).length := List.length_filter_le _ _
    rw [hPsplit, List.length_append]
    omega
  have hfrom2 : (match fromJsonF env (G + 1) cname
        (toJsonV env noOptions (.vmodel σ cname P)) true (σ + 1) with
      | none => none
      | some (orig, σ4) =>
        some (setPropM (Val.vmodel σ cname P) "_originalState" orig, σ4))
      = some (a, σ₂) := hfrom
  rw [fromJsonF_skip_on_flat_inst env cname cls (G + 1) σ (σ + 1) P hcls h1 h2 h3 h4
    hPnd hPgoodTriple hPemit (by omega), hPP] at hfrom2
  have haP : a = Val.vmodel σ cname (P ++ [("_originalState",
      Val.vmodel (σ + 1) cname P)]) := by
    have hinj : setPropM (Val.vmodel σ cname P) "_originalState"
        (Val.vmodel (σ + 1) cname P) = a :=
      (Prod.ext_iff.mp (Option.some.inj hfrom2)).1
    rw [← hinj, show setPropM (Val.vmodel σ cname P) "_originalState"
        (Val.vmodel (σ + 1) cname P)
        = Val.vmodel σ cname (setProp P "_originalState"
          (Val.vmodel (σ + 1) cname P)) from rfl,
      setProp_append P _ hO]
  subst haP
  have hgetO : getProp (P ++ [("_originalState", Val.vmodel (σ + 1) cname P)])
      "_originalState" = Val.vmodel (σ + 1) cname P := by
    rw [getProp_append_not_mem P _ hO, getProp_cons_self]
  have hdqP : ∀ p ∈ P, dq P p = none := by
    intro p hp
    rw [dq, getProp_eq_of_mem_nodup P hp hPnd, if_pos (jeqOpt_refl _)]
  have hfmP : P.filterMap (dq P) = [] := List.filterMap_eq_nil_iff.mpr hdqP
  have hdqO : dq P ("_originalState", Val.vmodel (σ + 1) cname P)
      = some ("_originalState", Val.vmodel (σ + 1) cname P) := by
    rw [dq, getProp_not_mem P hO]
    rfl
  have hcoll1 : (P ++ [("_originalState", Val.vmodel (σ + 1) cname P)]).filterMap (dq P)
      = [("_originalState", Val.vmodel (σ + 1) cname P)] := by
    rw [List.filterMap_append, hfmP, List.nil_append, List.filterMap_cons, hdqO]
    rfl
  have hchanges1 : getChangesSinceV (Val.vmodel σ cname
      (P ++ [("_originalState", Val.vmodel (σ + 1) cname P)]))
      = [("_originalState", Val.vmodel (σ + 1) cname P)] := by
    rw [getChangesSinceV]
    rw [show propsOf (Val.vmodel σ cname
        (P ++ [("_originalState", Val.vmodel (σ + 1) cname P)]))
        = P ++ [("_originalState", Val.vmodel (σ + 1) cname P)] from rfl, hgetO,
      if_neg (fun hcc : isFalsy (Val.vmodel (σ + 1) cname P) = true =>
        Bool.false_ne_true hcc), diffV]
    rw [show propsOf (Val.vmodel (σ + 1) cname P) = P from rfl,
      show propsOf (Val.vmodel σ cname
        (P ++ [("_originalState", Val.vmodel (σ + 1) cname P)]))
        = P ++ [("_originalState", Val.vmodel (σ + 1) cname P)] from rfl]
    rw [diffFold_flat P _ [] (by
      rw [hcoll1]
      exact List.nodup_singleton _), hcoll1, List.nil_append]
  -- part 2 preparation
  have hkkP : kk ∈ P.map Prod.fst := by
    rw [hPsplit, List.map_append, keys_updX]
    exact List.mem_append.mpr (Or.inl hkkD)
  obtain ⟨p1, u, p2, hPdec, hp1k⟩ := exists_split_first P hkkP
  have hgetkk : getProp (P ++ [("_originalState", Val.vmodel (σ + 1) cname P)]) kk
      = getProp P kk := getProp_append_mem P _ hkkP
  have hukk : getProp P kk = u := by
    rw [hPdec, getProp_append_not_mem _ _ hp1k, getProp_cons_self]
  have hkknu : startsUnderscore kk = false := by
    obtain ⟨p, hp, hp1⟩ := List.mem_map.mp hkkP
    have hup := ((hPfact p hp).1).1
    rw [hp1] at hup
    exact hup
  have hkkne : kk ≠ "_originalState" := by
    intro he
    rw [he] at hkknu
    exact absurd hkknu (by decide)
  have hne' : jeqOpt (stringifyV w) (stringifyV (getProp P kk)) = false := by
    rw [show getProp P kk = getProp (propsOf (Val.vmodel σ cname
      (P ++ [("_originalState", Val.vmodel (σ + 1) cname P)]))) kk from hgetkk.symm]
    exact hne
  have hmutprops : setPropM (Val.vmodel σ cname (P ++ [("_originalState",
      Val.vmodel (σ + 1) cname P)])) kk w
      = Val.vmodel σ cname (p1 ++ (kk, w) :: (p2 ++ [("_originalState",
          Val.vmodel (σ + 1) cname P)])) := by
    rw [show setPropM (Val.vmodel σ cname (P ++ [("_originalState",
        Val.vmodel (σ + 1) cname P)])) kk w
        = Val.vmodel σ cname (setProp (P ++ [("_originalState",
            Val.vmodel (σ + 1) cname P)]) kk w) from rfl,
      hPdec, List.append_assoc, List.cons_append,
      setProp_split u w p1 _ hp1k]
  have hO' : "_originalState" ∉ (p1 ++ (kk, u) :: p2).map Prod.fst := by
    rw [← hPdec]
    exact hO
  have hO1 : "_originalState" ∉ p1.map Prod.fst := by
    intro hm
    apply hO'
    rw [List.map_append]
    exact List.mem_append.mpr (Or.inl hm)
  have hO2 : "_originalState" ∉ p2.map Prod.fst := by
    intro hm
    apply hO'
    rw [List.map_append, List.map_cons]
    exact List.mem_append.mpr (Or.inr (List.mem_cons_of_mem _ hm))
  have hgetO2 : getProp (p1 ++ (kk, w) :: (p2 ++ [("_originalState",
      Val.vmodel (σ + 1) cname P)])) "_originalState"
      = Val.vmodel (σ + 1) cname P := by
    rw [getProp_append_not_mem p1 _ hO1, getProp_cons_ne hkkne,
      getProp_append_not_mem p2 _ hO2, getProp_cons_self]
  have hdq1 : ∀ p ∈ p1, dq P p = none := by
    intro p hp
    apply hdqP
    rw [hPdec]
    exact List.mem_append.mpr (Or.inl hp)
  have hdq2 : ∀ p ∈ p2, dq P p = none := by
    intro p hp
    apply hdqP
    rw [hPdec]
    exact List.mem_append.mpr (Or.inr (List.mem_cons_of_mem _ hp))
  have hdqkk : dq P (kk, w) = some (kk, w) := by
    rw [dq, if_neg (fun hcc => Bool.false_ne_true (hne'.symm.trans hcc))]
  have hcoll2 : (p1 ++ (kk, w) :: (p2 ++ [("_originalState",
      Val.vmodel (σ + 1) cname P)])).filterMap (dq P)
      = [(kk, w), ("_originalState", Val.vmodel (σ + 1) cname P)] := by
    rw [List.filterMap_append, List.filterMap_eq_nil_iff.mpr hdq1, List.nil_append,
      List.filterMap_cons, hdqkk, List.filterMap_append,
      List.filterMap_eq_nil_iff.mpr hdq2, List.nil_append, List.filterMap_cons, hdqO]
    rfl
  have hchanges2 : getChangesSinceV (setPropM (Val.vmodel σ cname
      (P ++ [("_originalState", Val.vmodel (σ + 1) cname P)])) kk w)
      = [(kk, w), ("_originalState", Val.vmodel (σ + 1) cname P)] := by
    rw [hmutprops, getChangesSinceV]
    rw [show propsOf (Val.vmodel σ cname (p1 ++ (kk, w) :: (p2 ++ [("_originalState",
        Val.vmodel (σ + 1) cname P)])))
        = p1 ++ (kk, w) :: (p2 ++ [("_originalState",
            Val.vmodel (σ + 1) cname P)]) from rfl, hgetO2,
      if_neg (fun hcc : isFalsy (Val.vmodel (σ + 1) cname P) = true =>
        Bool.false_ne_true hcc), diffV,
      show propsOf (Val.vmodel (σ + 1) cname P) = P from rfl,
      show propsOf (Val.vmodel σ cname (p1 ++ (kk, w) :: (p2 ++ [("_originalState",
        Val.vmodel (σ + 1) cname P)])))
        = p1 ++ (kk, w) :: (p2 ++ [("_originalState",
            Val.vmodel (σ + 1) cname P)]) from rfl]
    rw [diffFold_flat P _ [] (by
      rw [hcoll2]
      exact List.nodup_cons.mpr ⟨fun hm => hkkne (List.mem_singleton.mp hm),
        List.nodup_singleton _⟩), hcoll2, List.nil_append]
  have hfe2 : fromEntries (toCamelCaseF (P.filterMap (exq env cls))) = P := by
    have hh := export_entries_roundtrip env cls P hPgoodTriple hPnd
    rw [List.filter_eq_self.mpr hPemit] at hh
    exact hh
  obtain ⟨G2, rfl⟩ : ∃ G2, fuel2 = G2 + 1 := ⟨fuel2 - 1, by omega⟩
  have hkeysMut : (p1 ++ (kk, w) :: (p2 ++ [("_originalState",
      Val.vmodel (σ + 1) cname P)])).map Prod.fst
      = (P ++ [("_originalState", Val.vmodel (σ + 1) cname P)]).map Prod.fst := by
    simp only [hPdec, List.map_append, List.map_cons, List.map_nil,
      List.append_assoc, List.cons_append, List.nil_append]
  have hndMut : ((p1 ++ (kk, w) :: (p2 ++ [("_originalState",
      Val.vmodel (σ + 1) cname P)])).map Prod.fst).Nodup := by
    rw [hkeysMut, List.map_append, List.nodup_append]
    refine ⟨hPnd, List.nodup_singleton _, ?_⟩
    intro x hxm hxs
    rw [show (([("_originalState", Val.vmodel (σ + 1) cname P)]
        : List (String × Val)).map Prod.fst) = ["_originalState"] from rfl,
      List.mem_singleton] at hxs
    subst hxs
    exact hO hxm
  have hnew0 : newX cls P (p1 ++ (kk, w) :: (p2 ++ [("_originalState",
      Val.vmodel (σ + 1) cname P)])) = [] := by
    apply List.filter_eq_nil_iff.mpr
    intro p hp hcc
    have hmem : p.1 ∈ (p1 ++ (kk, w) :: (p2 ++ [("_originalState",
        Val.vmodel (σ + 1) cname P)])).map Prod.fst := by
      rw [hkeysMut, List.map_append]
      exact List.mem_append.mpr (Or.inl (List.mem_map.mpr ⟨p, hp, rfl⟩))
    rw [(scontains_iff _ _).mpr hmem] at hcc
    simp at hcc
  have hidp : ∀ (sub : List (String × Val)), (∀ q ∈ sub, q ∈ P) →
      updX cls P sub = sub := by
    intro sub hsub
    apply updX_id
    intro q hq v hv
    have hlq := lookupA_some_of_mem_nodup P (hsub q hq) hPnd
    rw [hlq] at hv
    exact (Option.some.inj hv).symm
  have hlkk : lookupA P kk = some u := by
    have hmemk : (kk, u) ∈ P := by
      rw [hPdec]
      exact List.mem_append.mpr (Or.inr (List.mem_cons_self _ _))
    exact lookupA_some_of_mem_nodup P hmemk hPnd
  have hvkk : updVal cls P ((kk, w) : String × Val) = u := by
    rw [updVal_some hlkk, if_neg (fun hcc => Bool.false_ne_true (hkkro ▸ hcc))]
  have hvO : updVal cls P (("_originalState",
      Val.vmodel (σ + 1) cname P) : String × Val) = Val.vmodel (σ + 1) cname P :=
    updVal_none (lookupA_none_of_not_mem P hO)
  have hupd : updX cls P (p1 ++ (kk, w) :: (p2 ++ [("_originalState",
      Val.vmodel (σ + 1) cname P)]))
      = P ++ [("_originalState", Val.vmodel (σ + 1) cname P)] := by
    rw [show updX cls P (p1 ++ (kk, w) :: (p2 ++ [("_originalState",
        Val.vmodel (σ + 1) cname P)]))
        = (p1 ++ (kk, w) :: (p2 ++ [("_originalState",
            Val.vmodel (σ + 1) cname P)])).map
          (fun p => (p.1, updVal cls P p)) from rfl,
      List.map_append, List.map_cons, List.map_append]
    rw [show (p1.map (fun p => (p.1, updVal cls P p))) = updX cls P p1 from rfl,
      hidp p1 (fun q hq => by rw [hPdec]; exact List.mem_append.mpr (Or.inl hq)),
      show (p2.map (fun p => (p.1, updVal cls P p))) = updX cls P p2 from rfl,
      hidp p2 (fun q hq => by
        rw [hPdec]
        exact List.mem_append.mpr (Or.inr (List.mem_cons_of_mem _ hq)))]
    rw [hvkk]
    rw [show (([("_originalState", Val.vmodel (σ + 1) cname P)]
        : List (String × Val)).map (fun p => (p.1, updVal cls P p)))
        = [("_originalState", updVal cls P (("_originalState",
            Val.vmodel (σ + 1) cname P) : String × Val))] from rfl, hvO]
    rw [hPdec, List.append_assoc, List.cons_append]
  have hreset : resetF env (G2 + 1) (setPropM (Val.vmodel σ cname
      (P ++ [("_originalState", Val.vmodel (σ + 1) cname P)])) kk w) σ₃
      = some (Val.vmodel σ cname
          (P ++ [("_originalState", Val.vmodel (σ + 1) cname P)]), σ₃) := by
    rw [hmutprops, resetF,
      show propsOf (Val.vmodel σ cname (p1 ++ (kk, w) :: (p2 ++ [("_originalState",
        Val.vmodel (σ + 1) cname P)])))
        = p1 ++ (kk, w) :: (p2 ++ [("_originalState",
            Val.vmodel (σ + 1) cname P)]) from rfl,
      hgetO2,
      if_neg (fun hcc : isFalsy (Val.vmodel (σ + 1) cname P) = true =>
        Bool.false_ne_true hcc),
      toJsonV_flat env cname cls (σ + 1) P hcls hPnd
        (fun p hp _ => ((hPfact p hp).1).2),
      applyJsonF_obj_flat env cname cls G2 σ σ₃
        (p1 ++ (kk, w) :: (p2 ++ [("_originalState", Val.vmodel (σ + 1) cname P)]))
        (P.filterMap (exq env cls)) hcls h2 h1 (by rw [hfe2]; omega),
      hfe2,
      foldStep_closed cls P _ hPnd hndMut,
      hupd, hnew0, List.append_nil]
  exact ⟨by rw [hchanges1]; rfl, by rw [hchanges2]; rfl, hreset⟩

/-- Flat witness class for the corrected C4: a read-only field with an
initializer, no exclusions, no transforms, no `@Type` metadata. -/
def c4fCls : ClassDef :=
  ⟨[("name", .vstr "n0"), ("createdAt", .vstr "t0")], [], [], [],
    ["createdAt"], [], []⟩

def c4fEnv : Env := [("G", c4fCls)]

/-- Snake-cased input; its `created_at` entry is dropped by the read-only
skip. -/
def c4fJ : List (String × Val) :=
  [("nick_name", .vstr "Al"), ("created_at", .vstr "HACK")]

def c4fP : List (String × Val) :=
  [("name", .vstr "n0"), ("createdAt", .vstr "t0"), ("nickName", .vstr "Al")]

/-- The instance `fromJson` constructs from `c4fJ`, snapshot included. -/
def c4fa : Val := .vmodel 0 "G" (c4fP ++ [("_originalState", .vmodel 1 "G" c4fP)])

/-- Witness for `c4_changes_snapshot_flat` at a concrete construction. -/
theorem c4_changes_snapshot_flat_witness :
    (getChangesSinceV c4fa).map Prod.fst = ["_originalState"]
      ∧ (getChangesSinceV (setPropM c4fa "name" (.vstr "X"))).map Prod.fst
          = ["name", "_originalState"]
      ∧ resetF c4fEnv 10 (setPropM c4fa "name" (.vstr "X")) 5 = some (c4fa, 5) :=
  c4_changes_snapshot_flat c4fEnv "G" c4fCls 10 10 0 2 5 c4fJ c4fa "name" (.vstr "X")
    rfl rfl rfl rfl rfl rfl (by decide) (by decide) (by decide) (by decide)
    (by decide) rfl (by decide) rfl (by decide) rfl rfl (by decide)

end Mox
